import Mathlib

/-!
# Verification of the sentivox post-processing reconciliation engine

Shallow embedding of the conversation-flow graph builder, missed-follow-up
detector, sentiment aggregator, training-gap synthesizer and structured-value
extractor, together with proofs of the specification's claims about them.

Numbers are modelled as exact rationals (`ℚ`), JavaScript strings as Lean
`String`s over their character lists.
-/

namespace Sentivox

/-! ## Decimal rendering of indices (the JavaScript template literals `q${i}`, `a${i}`) -/

/-- Decimal digit list of a natural number, most significant first,
mirroring JavaScript's decimal rendering of a non-negative integer. -/
def natDigitsAux (n : Nat) : List Char :=
  if _h : n < 10 then [Nat.digitChar n]
  else natDigitsAux (n / 10) ++ [Nat.digitChar (n % 10)]
termination_by n
decreasing_by exact Nat.div_lt_self (by omega) (by omega)

/-- Fuel-driven version of `natDigitsAux` (structural recursion, so that the
kernel can evaluate it on concrete inputs). -/
def natDigitsCore : Nat → Nat → List Char → List Char
  | 0, _, acc => acc
  | fuel + 1, n, acc =>
    if n < 10 then Nat.digitChar n :: acc
    else natDigitsCore fuel (n / 10) (Nat.digitChar (n % 10) :: acc)

theorem natDigitsCore_eq (fuel n : Nat) (acc : List Char) (h : n < fuel) :
    natDigitsCore fuel n acc = natDigitsAux n ++ acc := by
  induction fuel generalizing n acc with
  | zero => omega
  | succ fuel ih =>
    rw [natDigitsCore]
    by_cases h10 : n < 10
    · rw [if_pos h10, natDigitsAux, dif_pos h10]
      rfl
    · rw [if_neg h10, natDigitsAux, dif_neg h10]
      rw [ih (n / 10) _ (by omega)]
      simp

/-- Decimal rendering of a natural number as a string. -/
def natToString (n : Nat) : String := ⟨natDigitsCore (n + 1) n []⟩

theorem natToString_data (n : Nat) : (natToString n).data = natDigitsAux n := by
  show natDigitsCore (n + 1) n [] = natDigitsAux n
  rw [natDigitsCore_eq _ _ _ (by omega), List.append_nil]

theorem digitChar_toNat {d : Nat} (h : d < 10) : (Nat.digitChar d).toNat = 48 + d := by
  interval_cases d <;> decide

theorem natDigitsAux_ne_nil (n : Nat) : natDigitsAux n ≠ [] := by
  unfold natDigitsAux
  split
  · simp
  · simp

theorem foldl_natDigitsAux (n : Nat) :
    ∀ a : Nat, (natDigitsAux n).foldl (fun acc c => 10 * acc + (c.toNat - 48)) a
      = a * 10 ^ (natDigitsAux n).length + n := by
  induction n using Nat.strong_induction_on with
  | _ n ih =>
    intro a
    by_cases h : n < 10
    · rw [natDigitsAux, dif_pos h]
      simp [List.foldl, digitChar_toNat h]
      omega
    · rw [natDigitsAux, dif_neg h]
      rw [List.foldl_append]
      have hlt : n / 10 < n := Nat.div_lt_self (by omega) (by omega)
      rw [ih _ hlt a]
      have hm : n % 10 < 10 := Nat.mod_lt _ (by omega)
      simp [digitChar_toNat hm, List.length_append, pow_succ]
      have := Nat.div_add_mod n 10
      ring_nf
      omega

theorem natDigitsAux_injective : Function.Injective natDigitsAux := by
  intro m n h
  have hm := foldl_natDigitsAux m 0
  have hn := foldl_natDigitsAux n 0
  rw [h] at hm
  omega

theorem natToString_injective : Function.Injective natToString := by
  intro m n h
  have h2 := congrArg String.data h
  rw [natToString_data, natToString_data] at h2
  exact natDigitsAux_injective h2

/-- Node id of the i-th question (`q${i}` in the source). -/
def qId (i : Nat) : String := "q" ++ natToString i

/-- Node id of the i-th answer (`a${i}` in the source). -/
def aId (i : Nat) : String := "a" ++ natToString i

theorem data_append (s t : String) : (s ++ t).data = s.data ++ t.data := rfl

theorem data_a : ("a" : String).data = ['a'] := rfl

theorem data_q : ("q" : String).data = ['q'] := rfl

theorem aId_injective : Function.Injective aId := by
  intro m n h
  apply natToString_injective
  have h2 := congrArg String.data h
  simp only [aId, data_append, data_a, List.singleton_append, List.cons.injEq] at h2
  exact congrArg String.mk h2.2

theorem aId_ne_qId (i j : Nat) : aId i ≠ qId j := by
  intro h
  have h2 := congrArg String.data h
  simp only [aId, qId, data_append, data_a, data_q, List.singleton_append, List.cons.injEq] at h2
  exact absurd h2.1 (by decide)

/-! ## JavaScript string helpers -/

/-- `String.prototype.toLowerCase`, modelled as per-character lowering. -/
def jsToLower (s : String) : String := ⟨s.data.map Char.toLower⟩

/-- The whitespace class of the regular expression `\s` (restricted to the
ASCII range; the inputs of interest contain no exotic Unicode whitespace). -/
def isWsChar (c : Char) : Bool :=
  c == ' ' || c == '\t' || c == '\n' || c == '\r' || c == '\x0b' || c == '\x0c'

/-- Splits a character list at whitespace runs, accumulating the current word
reversed; empty fragments are discarded (they have length 0, so they could
never count as shared keywords of length > 4 anyway). -/
def wordsAux : List Char → List Char → List String
  | [], cur => if cur.isEmpty then [] else [⟨cur.reverse⟩]
  | c :: cs, cur =>
    if isWsChar c then
      (if cur.isEmpty then wordsAux cs [] else ⟨cur.reverse⟩ :: wordsAux cs [])
    else wordsAux cs (c :: cur)

/-- `split(/\s+/)` with empty fragments discarded. -/
def splitWs (s : String) : List String := wordsAux s.data []

/-- Does `needle` occur at the head of `hay`? -/
def matchHere : List Char → List Char → Bool
  | _, [] => true
  | [], _ :: _ => false
  | c :: cs, d :: ds => c == d && matchHere cs ds

/-- Does `needle` occur as a contiguous run anywhere in `hay`? -/
def containsSeq (hay needle : List Char) : Bool :=
  match hay with
  | [] => needle.isEmpty
  | _ :: t => matchHere hay needle || containsSeq t needle

/-- `String.prototype.includes`. -/
def strIncludes (hay sub : String) : Bool := containsSeq hay.data sub.data

/-- The JavaScript `x || d` default for an optional numeric field
(`undefined` and `0` both fall back to the default). -/
def jsOr (t : Option ℚ) (d : ℚ) : ℚ :=
  match t with
  | some v => if v = 0 then d else v
  | none => d

/-! ## Flow graph data model (`flowGraph.ts`) -/

inductive NodeType
  | question
  | answer
deriving DecidableEq

inductive EdgeType
  | direct_response
  | follow_up
  | topic_shift
  | disconnected
deriving DecidableEq

structure TurnInput where
  text : String
  timestamp : Option ℚ := none
deriving DecidableEq

structure FlowNode where
  id : String
  type : NodeType
  text : String
  timestamp : ℚ
  speaker : String
  category : Option String := none
deriving DecidableEq

structure FlowEdge where
  fromId : String
  toId : String
  type : EdgeType
  strength : ℚ
  logicalConnection : String
deriving DecidableEq

inductive Importance
  | high
  | medium
  | low
deriving DecidableEq

structure MissedFollowUp where
  afterNode : String
  suggestedQuestion : String
  importance : Importance
  reasoning : String
deriving DecidableEq

structure ConnectionResult where
  type : EdgeType
  strength : ℚ
  reasoning : String

/-- The `sharedKeywords` computation inside `analyzeQuestionConnection`:
lowercased whitespace tokens of the previous question that also occur among
the next question's tokens and are longer than 4 characters (counted with
multiplicity from the previous question's token list, as the source's
`filter` does). -/
def sharedLongTokens (prevQ nextQ : String) : List String :=
  let prevWords := splitWs (jsToLower prevQ)
  let nextWords := splitWs (jsToLower nextQ)
  prevWords.filter (fun w => nextWords.contains w && decide (w.length > 4))

/-- `analyzeQuestionConnection` from `flowGraph.ts`: classify the connection
between two consecutive questions by counting shared lowercased tokens longer
than 4 characters. -/
def analyzeQuestionConnection (prevQ nextQ : String) : ConnectionResult :=
  let sharedKeywords := sharedLongTokens prevQ nextQ
  if sharedKeywords.length ≥ 2 then
    ⟨.follow_up, 0.8, "Follow-up on same topic (" ++ String.intercalate ", " (sharedKeywords.take 2) ++ ")"⟩
  else if sharedKeywords.length = 1 then
    ⟨.topic_shift, 0.5, "Related but different topic"⟩
  else
    ⟨.disconnected, 0.2, "No clear logical connection"⟩

def defaultTurn : TurnInput := ⟨"", none⟩

/-- The node list built by `buildFlowGraph`'s first loop: per index, the
question node, then the answer node when an answer exists at that index. -/
def flowNodes (questions answers : List TurnInput) : List FlowNode :=
  (List.range questions.length).flatMap (fun i =>
    let q := questions.getD i defaultTurn
    let qNode : FlowNode := ⟨qId i, .question, q.text, jsOr q.timestamp ((i : ℚ) * 2), "recruiter", none⟩
    match answers[i]? with
    | some a => [qNode, ⟨aId i, .answer, a.text, jsOr a.timestamp ((i : ℚ) * 2 + 1), "candidate", none⟩]
    | none => [qNode])

/-- The direct-response edges pushed by `buildFlowGraph`'s first loop: one
edge `q_i → a_i` of strength 1.0 whenever an answer exists at index `i`. -/
def directResponseEdges (questions answers : List TurnInput) : List FlowEdge :=
  (List.range questions.length).filterMap (fun i =>
    match answers[i]? with
    | some _ => some (⟨qId i, aId i, .direct_response, 1.0, "Direct response to question"⟩ : FlowEdge)
    | none => none)

/-- The continuity edges pushed by `buildFlowGraph`'s second loop: one edge
`a_i → q_{i+1}` per consecutive question pair, classified by
`analyzeQuestionConnection`. -/
def continuityEdges (questions : List TurnInput) : List FlowEdge :=
  (List.range (questions.length - 1)).map (fun i =>
    let conn := analyzeQuestionConnection (questions.getD i defaultTurn).text
      (questions.getD (i + 1) defaultTurn).text
    (⟨aId i, qId (i + 1), conn.type, conn.strength, conn.reasoning⟩ : FlowEdge))

/-- `buildFlowGraph` from `flowGraph.ts`: the node list and the edge list
(direct-response edges first, then continuity edges, matching push order). -/
def buildFlowGraph (questions answers : List TurnInput) :
    List FlowNode × List FlowEdge :=
  (flowNodes questions answers, directResponseEdges questions answers ++ continuityEdges questions)

/-- `calculateLogicalScore` from `flowGraph.ts`: mean edge strength × 100,
0 for an empty edge set. -/
def calculateLogicalScore (edges : List FlowEdge) : ℚ :=
  if edges.length = 0 then 0
  else (edges.foldl (fun sum e => sum + e.strength) 0) / (edges.length : ℚ) * 100

structure QuestionInput where
  text : String
deriving DecidableEq

structure AnswerInput where
  text : String
  keySkills : Option (List String) := none
deriving DecidableEq

/-- The untouched-tag record (if any) pushed at answer index `i` by
`detectMissedFollowUps`: when the answer carries at least one key skill and
none occurs (case-insensitively) in the next question's text, a
high-importance record. -/
def tagRecordsAt (questions : List QuestionInput) (answers : List AnswerInput)
    (i : Nat) : List MissedFollowUp :=
  let answer := answers.getD i ⟨"", none⟩
  let nextQuestion := questions.getD (i + 1) ⟨""⟩
  let skills := answer.keySkills.getD []
  if skills.length > 0 then
    if skills.any (fun skill => strIncludes (jsToLower nextQuestion.text) (jsToLower skill)) then []
    else [(⟨aId i, "Can you elaborate on your experience with " ++ skills.headD "" ++ "?",
           .high, "Candidate mentioned " ++ String.intercalate ", " skills ++
             " but recruiter didn\x27t explore further"⟩ : MissedFollowUp)]
  else []

/-- The disconnected-edge record (if any) pushed at answer index `i` by
`detectMissedFollowUps`: when the continuity edge from `a i` to `q (i+1)` is
present and disconnected, a medium-importance record. -/
def edgeRecordsAt (edges : List FlowEdge) (i : Nat) : List MissedFollowUp :=
  match edges.find? (fun e => decide (e.fromId = aId i ∧ e.toId = qId (i + 1))) with
  | some e =>
    if e.type = .disconnected then
      [(⟨aId i, "Can you tell me more about that?", .medium,
         "Recruiter changed topic without properly exploring the previous answer"⟩ : MissedFollowUp)]
    else []
  | none => []

/-- The records pushed by one iteration of `detectMissedFollowUps`'s loop:
first the tag-based high-importance record, then the disconnected-edge
medium-importance record. -/
def missedAt (questions : List QuestionInput) (answers : List AnswerInput)
    (edges : List FlowEdge) (i : Nat) : List MissedFollowUp :=
  tagRecordsAt questions answers i ++ edgeRecordsAt edges i

/-- `detectMissedFollowUps` from `flowGraph.ts`: the loop over answer indices
`0 ≤ i < answers.length - 1`, each iteration appending `missedAt i`. -/
def detectMissedFollowUps (questions : List QuestionInput) (answers : List AnswerInput)
    (edges : List FlowEdge) : List MissedFollowUp :=
  (List.range (answers.length - 1)).flatMap (missedAt questions answers edges)

/-! ## Sentiment aggregation (`aggregatePairSentiments` in the gemini service) -/

structure SentimentScore where
  positive : ℚ
  neutral : ℚ
  negative : ℚ
  overallScore : ℚ
  reasoning : String
deriving DecidableEq

structure PairAnalysis where
  recruiterSentiment : SentimentScore
  candidateSentiment : SentimentScore
deriving DecidableEq

structure SentimentResult where
  recruiterSentiment : SentimentScore
  candidateSentiment : SentimentScore
deriving DecidableEq

/-- `Math.round`: JavaScript rounds half toward positive infinity. -/
def jsRound (x : ℚ) : ℚ := (⌊x + 1/2⌋ : ℤ)

/-- `Math.min` on two numbers. -/
def jsMin (a b : ℚ) : ℚ := if b ≤ a then b else a

/-- `Math.max` on two numbers. -/
def jsMax (a b : ℚ) : ℚ := if b ≤ a then a else b

theorem jsMin_eq_min (a b : ℚ) : jsMin a b = min a b := by
  unfold jsMin
  by_cases h : b ≤ a
  · rw [if_pos h, min_eq_right h]
  · rw [if_neg h, min_eq_left (le_of_not_le h)]

theorem jsMax_eq_max (a b : ℚ) : jsMax a b = max a b := by
  unfold jsMax
  by_cases h : b ≤ a
  · rw [if_pos h, max_eq_left h]
  · rw [if_neg h, max_eq_right (le_of_not_le h)]

/-- `sentiments.some(s => s.positive > 0.5 || s.overallScore > 7)`. -/
def hasStrongPositive (sentiments : List SentimentScore) : Prop :=
  ∃ s ∈ sentiments, s.positive > 0.5 ∨ s.overallScore > 7

instance (sentiments : List SentimentScore) : Decidable (hasStrongPositive sentiments) :=
  List.decidableBEx _ sentiments

/-- `sentiments.some(s => s.negative > 0.4 || s.overallScore < 4)`. -/
def hasStrongNegative (sentiments : List SentimentScore) : Prop :=
  ∃ s ∈ sentiments, s.negative > 0.4 ∨ s.overallScore < 4

instance (sentiments : List SentimentScore) : Decidable (hasStrongNegative sentiments) :=
  List.decidableBEx _ sentiments

/-- The per-role aggregation closure inside `aggregatePairSentiments`:
averages the components, detects strong positive/negative signals, amplifies
an unopposed strong signal, then re-normalizes the three components when
their total is positive. -/
def aggregateRole (pairAnalyses : List PairAnalysis)
    (role : PairAnalysis → SentimentScore) : SentimentScore :=
  let sentiments := pairAnalyses.map role
  let count : ℚ := sentiments.length
  let avgPositive := (sentiments.foldl (fun sum s => sum + s.positive) 0) / count
  let avgNeutral := (sentiments.foldl (fun sum s => sum + s.neutral) 0) / count
  let avgNegative := (sentiments.foldl (fun sum s => sum + s.negative) 0) / count
  let avgScore := (sentiments.foldl (fun sum s => sum + s.overallScore) 0) / count
  let finalPositive :=
    if hasStrongPositive sentiments ∧ ¬ hasStrongNegative sentiments then jsMin 1 (avgPositive * 1.2)
    else avgPositive
  let finalNeutral :=
    if hasStrongPositive sentiments ∧ ¬ hasStrongNegative sentiments then jsMax 0 (avgNeutral * 0.9)
    else if hasStrongNegative sentiments ∧ ¬ hasStrongPositive sentiments then jsMax 0 (avgNeutral * 0.9)
    else avgNeutral
  let finalNegative :=
    if hasStrongNegative sentiments ∧ ¬ hasStrongPositive sentiments then jsMin 1 (avgNegative * 1.2)
    else avgNegative
  let finalScore :=
    if hasStrongPositive sentiments ∧ ¬ hasStrongNegative sentiments then jsMin 10 (jsRound (avgScore + 0.5))
    else if hasStrongNegative sentiments ∧ ¬ hasStrongPositive sentiments then jsMax 1 (jsRound (avgScore - 0.5))
    else jsRound avgScore
  let total := finalPositive + finalNeutral + finalNegative
  { positive := if total > 0 then finalPositive / total else finalPositive
    neutral := if total > 0 then finalNeutral / total else finalNeutral
    negative := if total > 0 then finalNegative / total else finalNegative
    overallScore := finalScore
    reasoning := "Intelligent aggregation from " ++ natToString sentiments.length ++ " exchanges" ++
      (if hasStrongPositive sentiments then " (detected positive signals)" else "") ++
      (if hasStrongNegative sentiments then " (detected negative signals)" else "") ++
      ". Key insights: " ++
      String.intercalate "; " ((sentiments.take 2).map (fun s => (s.reasoning.splitOn ".").headD "")) }

/-- `aggregatePairSentiments`: the empty batch falls back to a fixed neutral
baseline; otherwise each role is merged by `aggregateRole`. -/
def aggregatePairSentiments (pairAnalyses : List PairAnalysis) : SentimentResult :=
  if pairAnalyses.length = 0 then
    { recruiterSentiment := ⟨0.2, 0.8, 0, 5, "No Q&A pairs available - assuming professional baseline"⟩
      candidateSentiment := ⟨0.2, 0.8, 0, 5, "No Q&A pairs available - assuming professional baseline"⟩ }
  else
    { recruiterSentiment := aggregateRole pairAnalyses (fun p => p.recruiterSentiment)
      candidateSentiment := aggregateRole pairAnalyses (fun p => p.candidateSentiment) }

/-! ## Training recommendations (`generateTrainingRecommendations`) -/

inductive Priority
  | critical
  | high
  | medium
  | low
deriving DecidableEq

inductive Severity
  | critical
  | moderate
  | minor
deriving DecidableEq

inductive OverallRating
  | excellent
  | good
  | needs_improvement
  | poor
deriving DecidableEq

structure TrainingRecommendation where
  area : String
  priority : Priority
  issue : String
  recommendation : String
  resources : List String
  expectedImprovement : String
deriving DecidableEq

structure PerformanceGap where
  metric : String
  currentScore : ℚ
  targetScore : ℚ
  gap : ℚ
  severity : Severity
deriving DecidableEq

structure TrainingOutput where
  recommendations : List TrainingRecommendation
  performanceGaps : List PerformanceGap
  strengthAreas : List String
  overallRating : OverallRating
deriving DecidableEq

/-- `generateTrainingRecommendations`: the optional inputs are the JD-relevance
overall score, the flow continuity score, the recruiter sentiment overall score
(on the 1–10 scale), and the missed-follow-up list. -/
def generateTrainingRecommendations (jdScore flowContinuityScore recruiterSentScore : Option ℚ)
    (missedFollowUps : Option (List MissedFollowUp)) : TrainingOutput :=
  let jdGaps : List PerformanceGap :=
    match jdScore with
    | some s =>
      if s < 60 then
        [⟨"JD Relevance", s, 80, 80 - s, if s < 40 then .critical else .moderate⟩]
      else []
    | none => []
  let jdRecs : List TrainingRecommendation :=
    match jdScore with
    | some s =>
      if s < 60 then
        [⟨"Job Description Alignment", if s < 40 then .critical else .high,
          "Questions are not well-aligned with job requirements",
          "Study the job description thoroughly before interviews and prepare targeted questions for each requirement",
          ["JD Analysis Training Module", "Competency-Based Interviewing Guide",
           "Technical Skills Assessment Framework"],
          "Increase JD relevance score by 20-30 points"⟩]
      else []
    | none => []
  let jdStrengths : List String :=
    match jdScore with
    | some s => if s < 60 then [] else if s ≥ 80 then ["Strong job description alignment"] else []
    | none => []
  let flowGaps : List PerformanceGap :=
    match flowContinuityScore with
    | some s =>
      if s < 70 then
        [⟨"Flow Continuity", s, 85, 85 - s, if s < 50 then .critical else .moderate⟩]
      else []
    | none => []
  let flowRecs : List TrainingRecommendation :=
    match flowContinuityScore with
    | some s =>
      if s < 70 then
        [⟨"Conversation Flow", if s < 50 then .critical else .high,
          "Questions lack logical flow and follow-up",
          "Practice active listening and ask follow-up questions based on candidate responses. Build a narrative thread throughout the interview",
          ["Active Listening Techniques", "Follow-up Question Framework",
           "Interview Flow Best Practices"],
          "Improve flow continuity by 15-20 points"⟩]
      else []
    | none => []
  let flowStrengths : List String :=
    match flowContinuityScore with
    | some s => if s < 70 then [] else if s ≥ 85 then ["Excellent conversation flow and continuity"] else []
    | none => []
  let missedRecs : List TrainingRecommendation :=
    match missedFollowUps with
    | some ms =>
      if ms.length > 3 then
        [⟨"Follow-up Questions", if ms.length > 5 then .high else .medium,
          "Missed " ++ natToString ms.length ++ " follow-up opportunities",
          "Take notes during candidate responses and identify key points to explore further. Don\x27t move to the next question too quickly",
          ["Deep Dive Questioning Techniques", "STAR Method Interview Guide",
           "Probing Questions Checklist"],
          "Reduce missed follow-ups by 50%"⟩]
      else []
    | none => []
  let sentimentRecs : List TrainingRecommendation :=
    match recruiterSentScore with
    | some s =>
      if s * 10 < 60 then
        [⟨"Interview Tone", .medium,
          "Recruiter tone could be more positive and engaging",
          "Practice maintaining an enthusiastic and welcoming demeanor. Show genuine interest in candidate responses",
          ["Positive Interview Techniques", "Building Rapport with Candidates",
           "Non-verbal Communication in Interviews"],
          "Increase candidate comfort and engagement"⟩]
      else []
    | none => []
  let avgScore := (jdScore.getD 0 + flowContinuityScore.getD 0 + (recruiterSentScore.getD 0) * 10) / 3
  let overallRating : OverallRating :=
    if avgScore ≥ 85 then .excellent
    else if avgScore ≥ 70 then .good
    else if avgScore ≥ 50 then .needs_improvement
    else .poor
  { recommendations := jdRecs ++ flowRecs ++ missedRecs ++ sentimentRecs
    performanceGaps := jdGaps ++ flowGaps
    strengthAreas := jdStrengths ++ flowStrengths
    overallRating := overallRating }

/-! ## Helper lemmas about the flow graph -/

theorem analyzeQuestionConnection_cases (p q : String) :
    (2 ≤ (sharedLongTokens p q).length →
      analyzeQuestionConnection p q = ⟨.follow_up, 0.8,
        "Follow-up on same topic (" ++ String.intercalate ", " ((sharedLongTokens p q).take 2) ++ ")"⟩) ∧
    ((sharedLongTokens p q).length = 1 →
      analyzeQuestionConnection p q = ⟨.topic_shift, 0.5, "Related but different topic"⟩) ∧
    ((sharedLongTokens p q).length = 0 →
      analyzeQuestionConnection p q = ⟨.disconnected, 0.2, "No clear logical connection"⟩) := by
  simp only [analyzeQuestionConnection]
  refine ⟨fun h => ?_, fun h => ?_, fun h => ?_⟩
  · rw [if_pos h]
  · rw [if_neg (by omega), if_pos h]
  · rw [if_neg (by omega), if_neg (by omega)]

/-- Every continuity edge's classification lies among the three non-direct
kinds with the three fixed strengths. -/
theorem analyzeQuestionConnection_enum (p q : String) :
    ((analyzeQuestionConnection p q).type = .follow_up ∧ (analyzeQuestionConnection p q).strength = 0.8) ∨
    ((analyzeQuestionConnection p q).type = .topic_shift ∧ (analyzeQuestionConnection p q).strength = 0.5) ∨
    ((analyzeQuestionConnection p q).type = .disconnected ∧ (analyzeQuestionConnection p q).strength = 0.2) := by
  simp only [analyzeQuestionConnection]
  split_ifs <;> simp

/-- The continuity edge for the consecutive question pair `(i, i+1)` is in
the continuity edge list. -/
theorem continuity_edge_mem (questions : List TurnInput) (i : Nat)
    (h : i + 1 < questions.length) :
    (⟨aId i, qId (i + 1),
      (analyzeQuestionConnection (questions.getD i defaultTurn).text (questions.getD (i + 1) defaultTurn).text).type,
      (analyzeQuestionConnection (questions.getD i defaultTurn).text (questions.getD (i + 1) defaultTurn).text).strength,
      (analyzeQuestionConnection (questions.getD i defaultTurn).text (questions.getD (i + 1) defaultTurn).text).reasoning⟩ : FlowEdge)
      ∈ continuityEdges questions := by
  unfold continuityEdges
  exact List.mem_map.mpr ⟨i, List.mem_range.mpr (by omega), rfl⟩

theorem mem_continuityEdges {questions : List TurnInput} {e : FlowEdge}
    (he : e ∈ continuityEdges questions) :
    ∃ i, i + 1 ≤ questions.length - 1 + 1 ∧ e.fromId = aId i ∧ e.toId = qId (i + 1) ∧
      e.type = (analyzeQuestionConnection (questions.getD i defaultTurn).text
        (questions.getD (i + 1) defaultTurn).text).type ∧
      e.strength = (analyzeQuestionConnection (questions.getD i defaultTurn).text
        (questions.getD (i + 1) defaultTurn).text).strength := by
  unfold continuityEdges at he
  obtain ⟨i, hi, rfl⟩ := List.mem_map.mp he
  exact ⟨i, by have := List.mem_range.mp hi; omega, rfl, rfl, rfl, rfl⟩

theorem mem_directResponseEdges {questions answers : List TurnInput} {e : FlowEdge}
    (he : e ∈ directResponseEdges questions answers) :
    e.type = .direct_response ∧ e.strength = 1.0 := by
  unfold directResponseEdges at he
  obtain ⟨i, _, hfe⟩ := List.mem_filterMap.mp he
  cases h : answers[i]? with
  | some a => rw [h] at hfe; cases hfe; exact ⟨rfl, rfl⟩
  | none => rw [h] at hfe; cases hfe

theorem continuity_type_ne_direct {questions : List TurnInput} {e : FlowEdge}
    (he : e ∈ continuityEdges questions) : e.type ≠ .direct_response := by
  obtain ⟨i, _, _, _, ht, _⟩ := mem_continuityEdges he
  rcases analyzeQuestionConnection_enum (questions.getD i defaultTurn).text
    (questions.getD (i + 1) defaultTurn).text with ⟨h1, _⟩ | ⟨h1, _⟩ | ⟨h1, _⟩ <;>
    rw [ht, h1] <;> simp

/-! ## Claim C4 -/

/-- C4: for every pair of consecutive questions, the continuity edge of the
flow graph is classified by counting shared tokens longer than 4 characters
between the two question texts: two or more shared long tokens give
`follow_up` with strength 0.8, exactly one gives `topic_shift` with strength
0.5, and zero gives `disconnected` with strength 0.2. -/
theorem claimC4 (questions answers : List TurnInput) (i : Nat)
    (h : i + 1 < questions.length) :
    ∃ e ∈ (buildFlowGraph questions answers).2,
      e.fromId = aId i ∧ e.toId = qId (i + 1) ∧
      (2 ≤ (sharedLongTokens (questions.getD i defaultTurn).text
          (questions.getD (i + 1) defaultTurn).text).length →
        e.type = .follow_up ∧ e.strength = 0.8) ∧
      ((sharedLongTokens (questions.getD i defaultTurn).text
          (questions.getD (i + 1) defaultTurn).text).length = 1 →
        e.type = .topic_shift ∧ e.strength = 0.5) ∧
      ((sharedLongTokens (questions.getD i defaultTurn).text
          (questions.getD (i + 1) defaultTurn).text).length = 0 →
        e.type = .disconnected ∧ e.strength = 0.2) := by
  set p := (questions.getD i defaultTurn).text
  set q := (questions.getD (i + 1) defaultTurn).text
  obtain ⟨h2, h1, h0⟩ := analyzeQuestionConnection_cases p q
  refine ⟨⟨aId i, qId (i + 1), (analyzeQuestionConnection p q).type,
    (analyzeQuestionConnection p q).strength, (analyzeQuestionConnection p q).reasoning⟩,
    List.mem_append_right _ (continuity_edge_mem questions i h), rfl, rfl,
    fun hn => ?_, fun hn => ?_, fun hn => ?_⟩
  · rw [h2 hn]; exact ⟨rfl, rfl⟩
  · rw [h1 hn]; exact ⟨rfl, rfl⟩
  · rw [h0 hn]; exact ⟨rfl, rfl⟩

/-- A concrete two-question input for exercising claim C4. -/
def c4qs : List TurnInput := [⟨"Tell me about Kubernetes experience", none⟩,
  ⟨"What Kubernetes experience do you have", none⟩]

/-- C4 witness: the theorem instantiated on a concrete two-question input. -/
theorem claimC4_witness :
    0 + 1 < c4qs.length ∧
    (∃ e ∈ (buildFlowGraph c4qs ([] : List TurnInput)).2,
      e.fromId = aId 0 ∧ e.toId = qId (0 + 1) ∧
      (2 ≤ (sharedLongTokens (c4qs.getD 0 defaultTurn).text
          (c4qs.getD (0 + 1) defaultTurn).text).length →
        e.type = .follow_up ∧ e.strength = 0.8) ∧
      ((sharedLongTokens (c4qs.getD 0 defaultTurn).text
          (c4qs.getD (0 + 1) defaultTurn).text).length = 1 →
        e.type = .topic_shift ∧ e.strength = 0.5) ∧
      ((sharedLongTokens (c4qs.getD 0 defaultTurn).text
          (c4qs.getD (0 + 1) defaultTurn).text).length = 0 →
        e.type = .disconnected ∧ e.strength = 0.2)) :=
  ⟨by norm_num [c4qs], claimC4 c4qs ([] : List TurnInput) 0 (by norm_num [c4qs])⟩

/-! ## Claim C3 -/

/-- C3 counterexample: on the spec's end-to-end scenario the continuity edge
between the two questions is not classified `follow_up` (only one long token,
"experience", is shared), and the continuity score of the one-edge graph is
not 80. -/
theorem claimC3_counterexample :
    (analyzeQuestionConnection "What is your experience with Java?"
      "Describe your experience with Spring Boot projects?").type ≠ EdgeType.follow_up ∧
    calculateLogicalScore (continuityEdges
      [⟨"What is your experience with Java?", none⟩,
       ⟨"Describe your experience with Spring Boot projects?", none⟩]) ≠ 80 := by
  have hn : (sharedLongTokens "What is your experience with Java?"
      "Describe your experience with Spring Boot projects?").length = 1 := by decide
  have hconn := (analyzeQuestionConnection_cases "What is your experience with Java?"
    "Describe your experience with Spring Boot projects?").2.1 hn
  constructor
  · rw [hconn]; simp
  · have hce : continuityEdges
        [⟨"What is your experience with Java?", none⟩,
         ⟨"Describe your experience with Spring Boot projects?", none⟩] =
        [⟨aId 0, qId 1, EdgeType.topic_shift, 0.5, "Related but different topic"⟩] := by
      simp [continuityEdges, List.range_succ, hconn]
    rw [hce]
    norm_num [calculateLogicalScore]

/-- C3 (amended): on the end-to-end scenario the continuity edge between the
two questions is classified `topic_shift` with strength 0.5 (the single shared
long token is "experience"), and `calculateLogicalScore` over that single
continuity edge returns 50.0. -/
theorem claimC3 :
    ((buildFlowGraph
      [⟨"What is your experience with Java?", none⟩,
       ⟨"Describe your experience with Spring Boot projects?", none⟩]
      [⟨"I have 7 years of Java experience", none⟩,
       ⟨"I led three Spring Boot microservices", none⟩]).2.map (fun e => e.type) =
      [.direct_response, .direct_response, .topic_shift]) ∧
    (analyzeQuestionConnection "What is your experience with Java?"
      "Describe your experience with Spring Boot projects?").strength = 0.5 ∧
    calculateLogicalScore (continuityEdges
      [⟨"What is your experience with Java?", none⟩,
       ⟨"Describe your experience with Spring Boot projects?", none⟩]) = 50 := by
  have hn : (sharedLongTokens "What is your experience with Java?"
      "Describe your experience with Spring Boot projects?").length = 1 := by decide
  have hconn := (analyzeQuestionConnection_cases "What is your experience with Java?"
    "Describe your experience with Spring Boot projects?").2.1 hn
  have hce : continuityEdges
      [⟨"What is your experience with Java?", none⟩,
       ⟨"Describe your experience with Spring Boot projects?", none⟩] =
      [⟨aId 0, qId 1, EdgeType.topic_shift, 0.5, "Related but different topic"⟩] := by
    simp [continuityEdges, List.range_succ, hconn]
  refine ⟨?_, by rw [hconn], by rw [hce]; norm_num [calculateLogicalScore]⟩
  show (directResponseEdges _ _ ++ continuityEdges _).map (fun e => e.type) = _
  rw [hce]
  simp [directResponseEdges, List.range_succ]

/-! ## Claim C8 -/

theorem length_filterMap_range {α : Type} (f : Nat → Option α) (m n : Nat)
    (hf : ∀ i, (f i).isSome ↔ i < m) :
    ((List.range n).filterMap f).length = min m n := by
  induction n with
  | zero => simp
  | succ n ih =>
    rw [List.range_succ, List.filterMap_append, List.length_append, ih]
    cases hfn : f n with
    | none =>
      have hnm : ¬ n < m := by rw [← hf n, hfn]; simp
      rw [show List.filterMap f [n] = [] from by simp [List.filterMap_cons, hfn]]
      simp only [List.length_nil]
      omega
    | some a =>
      have hnm : n < m := by rw [← hf n, hfn]; simp
      rw [show List.filterMap f [n] = [a] from by simp [List.filterMap_cons, hfn]]
      simp only [List.length_singleton]
      omega

theorem directResponseEdges_length (questions answers : List TurnInput)
    (h : answers.length ≤ questions.length) :
    (directResponseEdges questions answers).length = answers.length := by
  unfold directResponseEdges
  rw [length_filterMap_range _ answers.length]
  · omega
  · intro i
    cases hi : answers[i]? with
    | none =>
      have := List.getElem?_eq_none_iff.mp hi
      simp only [hi]
      simp
      omega
    | some a =>
      obtain ⟨hlt, _⟩ := List.getElem?_eq_some_iff.mp hi
      simp only [hi]
      simp [hlt]

theorem continuityEdges_length (questions : List TurnInput) :
    (continuityEdges questions).length = questions.length - 1 := by
  unfold continuityEdges
  rw [List.length_map, List.length_range]

/-- C8: for every input of N questions and M ≤ N answers, `buildFlowGraph`
produces exactly M `direct_response` edges, each with strength 1.0, and
exactly N−1 continuity edges, each with strength in {0.2, 0.5, 0.8}. -/
theorem claimC8 (questions answers : List TurnInput)
    (h : answers.length ≤ questions.length) :
    (((buildFlowGraph questions answers).2.filter
        (fun e => decide (e.type = .direct_response))).length = answers.length) ∧
    (∀ e ∈ (buildFlowGraph questions answers).2, e.type = .direct_response → e.strength = 1.0) ∧
    (((buildFlowGraph questions answers).2.filter
        (fun e => decide (e.type ≠ .direct_response))).length = questions.length - 1) ∧
    (∀ e ∈ (buildFlowGraph questions answers).2, e.type ≠ .direct_response →
      e.strength = 0.2 ∨ e.strength = 0.5 ∨ e.strength = 0.8) := by
  have hd : ∀ e ∈ directResponseEdges questions answers, e.type = .direct_response :=
    fun e he => (mem_directResponseEdges he).1
  have hc : ∀ e ∈ continuityEdges questions, e.type ≠ .direct_response :=
    fun e he => continuity_type_ne_direct he
  refine ⟨?_, ?_, ?_, ?_⟩
  · show ((directResponseEdges questions answers ++ continuityEdges questions).filter _).length = _
    rw [List.filter_append,
      List.filter_eq_self.mpr (fun e he => by simp [hd e he]),
      List.filter_eq_nil_iff.mpr (fun e he => by simp [hc e he]),
      List.append_nil]
    exact directResponseEdges_length questions answers h
  · intro e he ht
    rcases List.mem_append.mp he with he' | he'
    · exact (mem_directResponseEdges he').2
    · exact absurd ht (hc e he')
  · show ((directResponseEdges questions answers ++ continuityEdges questions).filter _).length = _
    rw [List.filter_append,
      List.filter_eq_nil_iff.mpr (fun e he => by simp [hd e he]),
      List.filter_eq_self.mpr (fun e he => by simp [hc e he]),
      List.nil_append]
    exact continuityEdges_length questions
  · intro e he ht
    rcases List.mem_append.mp he with he' | he'
    · exact absurd (mem_directResponseEdges he').1 ht
    · obtain ⟨i, _, _, _, htype, hstr⟩ := mem_continuityEdges he'
      rcases analyzeQuestionConnection_enum (questions.getD i defaultTurn).text
        (questions.getD (i + 1) defaultTurn).text with ⟨_, h1⟩ | ⟨_, h1⟩ | ⟨_, h1⟩ <;>
        rw [hstr, h1] <;> tauto

/-- A concrete two-question input for exercising claim C8. -/
def c8qs : List TurnInput := [⟨"q1 alpha", none⟩, ⟨"q2 beta", none⟩]

/-- A concrete one-answer input for exercising claim C8. -/
def c8as : List TurnInput := [⟨"a1", none⟩]

/-- C8 witness: the theorem instantiated on two questions and one answer. -/
theorem claimC8_witness :
    c8as.length ≤ c8qs.length ∧
    ((((buildFlowGraph c8qs c8as).2.filter
        (fun e => decide (e.type = .direct_response))).length = c8as.length) ∧
     (∀ e ∈ (buildFlowGraph c8qs c8as).2, e.type = .direct_response → e.strength = 1.0) ∧
     (((buildFlowGraph c8qs c8as).2.filter
        (fun e => decide (e.type ≠ .direct_response))).length = c8qs.length - 1) ∧
     (∀ e ∈ (buildFlowGraph c8qs c8as).2, e.type ≠ .direct_response →
       e.strength = 0.2 ∨ e.strength = 0.5 ∨ e.strength = 0.8)) :=
  ⟨by norm_num [c8qs, c8as], claimC8 c8qs c8as (by norm_num [c8qs, c8as])⟩

/-! ## Claim C10 -/

theorem mem_flowNodes {questions answers : List TurnInput} {nd : FlowNode}
    (hnd : nd ∈ flowNodes questions answers) :
    (∃ j, nd.id = qId j) ∨ (∃ j, j < answers.length ∧ nd.id = aId j) := by
  obtain ⟨j, _, hjn⟩ := List.mem_flatMap.mp hnd
  cases hj : answers[j]? with
  | none =>
    rw [hj] at hjn
    simp only [List.mem_singleton] at hjn
    exact Or.inl ⟨j, by rw [hjn]⟩
  | some a =>
    obtain ⟨hlt, _⟩ := List.getElem?_eq_some_iff.mp hj
    rw [hj] at hjn
    simp only [List.mem_cons, List.not_mem_nil, or_false] at hjn
    rcases hjn with hq | hq
    · exact Or.inl ⟨j, by rw [hq]⟩
    · exact Or.inr ⟨j, hlt, by rw [hq]⟩

/-- C10: when there are fewer answers than questions, `buildFlowGraph` still
emits a continuity edge out of `a i` into `q (i+1)` for every consecutive
question pair, so for answer-less indices the edge set contains an edge whose
from-id matches no node in the returned node list. -/
theorem claimC10 (questions answers : List TurnInput) (i : Nat)
    (h : i + 1 < questions.length) :
    (∃ e ∈ (buildFlowGraph questions answers).2, e.fromId = aId i ∧ e.toId = qId (i + 1)) ∧
    (answers.length ≤ i → ∀ nd ∈ (buildFlowGraph questions answers).1, nd.id ≠ aId i) := by
  constructor
  · exact ⟨_, List.mem_append_right _ (continuity_edge_mem questions i h), rfl, rfl⟩
  · intro hM nd hnd
    rcases mem_flowNodes hnd with ⟨j, hid⟩ | ⟨j, hjlt, hid⟩
    · rw [hid]
      exact fun heq => aId_ne_qId i j heq.symm
    · rw [hid]
      intro heq
      have := aId_injective heq
      omega

/-- A concrete three-question input for exercising claim C10. -/
def c10qs : List TurnInput := [⟨"qa", none⟩, ⟨"qb", none⟩, ⟨"qc", none⟩]

/-- A concrete one-answer input for exercising claim C10. -/
def c10as : List TurnInput := [⟨"ans", none⟩]

/-! ## List arithmetic helpers for the aggregator -/

theorem foldl_add (l : List SentimentScore) (f : SentimentScore → ℚ) :
    l.foldl (fun sum s => sum + f s) 0 = (l.map f).sum := by
  suffices h : ∀ a : ℚ, l.foldl (fun sum s => sum + f s) a = a + (l.map f).sum by
    simpa using h 0
  induction l with
  | nil => simp
  | cons x t ih => intro a; simp [List.foldl_cons, ih]; ring

theorem sum_map_le (l : List SentimentScore) (f : SentimentScore → ℚ) (c : ℚ)
    (h : ∀ s ∈ l, f s ≤ c) : (l.map f).sum ≤ c * l.length := by
  induction l with
  | nil => simp
  | cons x t ih =>
    have hx := h x (by simp)
    have ht := ih (fun s hs => h s (by simp [hs]))
    simp only [List.map_cons, List.sum_cons, List.length_cons]
    push_cast
    linarith

theorem le_sum_map (l : List SentimentScore) (f : SentimentScore → ℚ) (c : ℚ)
    (h : ∀ s ∈ l, c ≤ f s) : c * l.length ≤ (l.map f).sum := by
  induction l with
  | nil => simp
  | cons x t ih =>
    have hx := h x (by simp)
    have ht := ih (fun s hs => h s (by simp [hs]))
    simp only [List.map_cons, List.sum_cons, List.length_cons]
    push_cast
    linarith

theorem sum_map_nonneg (l : List SentimentScore) (f : SentimentScore → ℚ)
    (h : ∀ s ∈ l, 0 ≤ f s) : 0 ≤ (l.map f).sum := by
  have := le_sum_map l f 0 h
  simpa using this

theorem sum_map_pos (l : List SentimentScore) (f : SentimentScore → ℚ)
    (hnn : ∀ s ∈ l, 0 ≤ f s) (s0 : SentimentScore) (hs0 : s0 ∈ l) (hpos : 0 < f s0) :
    0 < (l.map f).sum := by
  induction l with
  | nil => cases hs0
  | cons x t ih =>
    simp only [List.map_cons, List.sum_cons]
    rcases List.mem_cons.mp hs0 with rfl | hmem
    · have := sum_map_nonneg t f (fun s hs => hnn s (by simp [hs]))
      linarith
    · have hx := hnn x (by simp)
      have := ih (fun s hs => hnn s (by simp [hs])) hmem
      linarith

theorem sum_map_add3 (l : List SentimentScore) (f g k : SentimentScore → ℚ) :
    (l.map f).sum + (l.map g).sum + (l.map k).sum = (l.map (fun s => f s + g s + k s)).sum := by
  induction l with
  | nil => simp
  | cons x t ih =>
    simp only [List.map_cons, List.sum_cons]
    linarith

/-- Rounding to the nearest integer moves a rational by at most one half
(JavaScript rounds half up). -/
theorem jsRound_bounds (x : ℚ) : x - 1/2 < jsRound x ∧ jsRound x ≤ x + 1/2 := by
  unfold jsRound
  constructor
  · have h := Int.lt_floor_add_one (x + 1/2)
    have h2 : ((⌊x + 1/2⌋ : ℤ) : ℚ) + 1 > x + 1/2 := by exact_mod_cast h
    linarith
  · exact_mod_cast Int.floor_le (x + 1/2)

theorem jsMin_nonneg {a b : ℚ} (ha : 0 ≤ a) (hb : 0 ≤ b) : 0 ≤ jsMin a b := by
  unfold jsMin; split_ifs <;> assumption

theorem jsMin_pos {a b : ℚ} (ha : 0 < a) (hb : 0 < b) : 0 < jsMin a b := by
  unfold jsMin; split_ifs <;> assumption

theorem jsMax_nonneg_left {a b : ℚ} (ha : 0 ≤ a) : 0 ≤ jsMax a b := by
  unfold jsMax; split_ifs with h <;> linarith

theorem le_jsMax_right (a b : ℚ) : b ≤ jsMax a b := by
  unfold jsMax; split_ifs with h <;> linarith

theorem jsMin_le_left (a b : ℚ) : jsMin a b ≤ a := by
  unfold jsMin; split_ifs with h <;> linarith

/-- Score bounds for the unboosted branch of the aggregator. -/
theorem score_bounds_plain {S : ℚ} (h1 : 1 ≤ S) (h2 : S ≤ 10) :
    1 ≤ jsRound S ∧ jsRound S ≤ 10 := by
  obtain ⟨hlo, hhi⟩ := jsRound_bounds S
  have : jsRound S = ((⌊S + 1/2⌋ : ℤ) : ℚ) := rfl
  constructor
  · rw [this]
    have : (1 : ℤ) ≤ ⌊S + 1/2⌋ := Int.le_floor.mpr (by push_cast; linarith)
    exact_mod_cast this
  · rw [this]
    have : ⌊S + 1/2⌋ ≤ (10 : ℤ) := Int.floor_le_iff.mpr (by push_cast; linarith)
    exact_mod_cast this

/-- Score bounds for the strong-positive branch of the aggregator. -/
theorem score_bounds_boostp {S : ℚ} (h1 : 1 ≤ S) (_h2 : S ≤ 10) :
    1 ≤ jsMin 10 (jsRound (S + 0.5)) ∧ jsMin 10 (jsRound (S + 0.5)) ≤ 10 := by
  obtain ⟨hlo, hhi⟩ := jsRound_bounds (S + 0.5)
  constructor
  · unfold jsMin
    split_ifs with h
    · linarith
    · norm_num
  · exact jsMin_le_left 10 _

/-- Score bounds for the strong-negative branch of the aggregator. -/
theorem score_bounds_boostn {S : ℚ} (_h1 : 1 ≤ S) (h2 : S ≤ 10) :
    1 ≤ jsMax 1 (jsRound (S - 0.5)) ∧ jsMax 1 (jsRound (S - 0.5)) ≤ 10 := by
  obtain ⟨hlo, hhi⟩ := jsRound_bounds (S - 0.5)
  constructor
  · unfold jsMax
    split_ifs with h <;> linarith
  · unfold jsMax
    split_ifs with h <;> linarith

/-- Normalization of three non-negative values with positive total yields
components in `[0,1]` summing to exactly 1. -/
theorem normalized_bounds {fP fNu fNg : ℚ} (h1 : 0 ≤ fP) (h2 : 0 ≤ fNu) (h3 : 0 ≤ fNg)
    (hpos : 0 < fP + fNu + fNg) :
    (0 ≤ fP / (fP + fNu + fNg) ∧ fP / (fP + fNu + fNg) ≤ 1) ∧
    (0 ≤ fNu / (fP + fNu + fNg) ∧ fNu / (fP + fNu + fNg) ≤ 1) ∧
    (0 ≤ fNg / (fP + fNu + fNg) ∧ fNg / (fP + fNu + fNg) ≤ 1) ∧
    fP / (fP + fNu + fNg) + fNu / (fP + fNu + fNg) + fNg / (fP + fNu + fNg) = 1 := by
  have hT := hpos
  refine ⟨⟨div_nonneg h1 hT.le, (div_le_one hT).mpr (by linarith)⟩,
    ⟨div_nonneg h2 hT.le, (div_le_one hT).mpr (by linarith)⟩,
    ⟨div_nonneg h3 hT.le, (div_le_one hT).mpr (by linarith)⟩, ?_⟩
  field_simp

/-- Bounds of the merged per-role judgment: the overall score stays in
`[1, 10]`, and whenever some sample has a nonzero component, the merged
components lie in `[0, 1]` and sum to exactly 1. -/
theorem aggregateRole_bounds (pairAnalyses : List PairAnalysis)
    (role : PairAnalysis → SentimentScore) (hne : pairAnalyses ≠ [])
    (hval : ∀ p ∈ pairAnalyses, 0 ≤ (role p).positive ∧ 0 ≤ (role p).neutral ∧
      0 ≤ (role p).negative ∧ 1 ≤ (role p).overallScore ∧ (role p).overallScore ≤ 10) :
    (1 ≤ (aggregateRole pairAnalyses role).overallScore ∧
      (aggregateRole pairAnalyses role).overallScore ≤ 10) ∧
    ((∃ p ∈ pairAnalyses, 0 < (role p).positive + (role p).neutral + (role p).negative) →
      (0 ≤ (aggregateRole pairAnalyses role).positive ∧ (aggregateRole pairAnalyses role).positive ≤ 1) ∧
      (0 ≤ (aggregateRole pairAnalyses role).neutral ∧ (aggregateRole pairAnalyses role).neutral ≤ 1) ∧
      (0 ≤ (aggregateRole pairAnalyses role).negative ∧ (aggregateRole pairAnalyses role).negative ≤ 1) ∧
      (aggregateRole pairAnalyses role).positive + (aggregateRole pairAnalyses role).neutral +
        (aggregateRole pairAnalyses role).negative = 1) := by
  have hlne : pairAnalyses.map role ≠ [] := by
    intro h
    exact hne (List.map_eq_nil_iff.mp h)
  have hvl : ∀ s ∈ pairAnalyses.map role, 0 ≤ s.positive ∧ 0 ≤ s.neutral ∧
      0 ≤ s.negative ∧ 1 ≤ s.overallScore ∧ s.overallScore ≤ 10 := by
    intro s hs
    obtain ⟨p, hp, rfl⟩ := List.mem_map.mp hs
    exact hval p hp
  simp only [aggregateRole]
  set l := pairAnalyses.map role with hl
  rw [foldl_add l (fun s => s.positive), foldl_add l (fun s => s.neutral),
    foldl_add l (fun s => s.negative), foldl_add l (fun s => s.overallScore)]
  have hn : (0:ℚ) < (l.length : ℚ) := by
    exact_mod_cast List.length_pos.mpr hlne
  set SP := (l.map (fun s => s.positive)).sum with hSP
  set SN := (l.map (fun s => s.neutral)).sum with hSN
  set SG := (l.map (fun s => s.negative)).sum with hSG
  set SS := (l.map (fun s => s.overallScore)).sum with hSS
  have hSPnn : 0 ≤ SP := sum_map_nonneg l _ (fun s hs => (hvl s hs).1)
  have hSNnn : 0 ≤ SN := sum_map_nonneg l _ (fun s hs => (hvl s hs).2.1)
  have hSGnn : 0 ≤ SG := sum_map_nonneg l _ (fun s hs => (hvl s hs).2.2.1)
  have hSS1 : 1 * (l.length : ℚ) ≤ SS := le_sum_map l _ 1 (fun s hs => (hvl s hs).2.2.2.1)
  have hSS2 : SS ≤ 10 * (l.length : ℚ) := sum_map_le l _ 10 (fun s hs => (hvl s hs).2.2.2.2)
  have havgS1 : 1 ≤ SS / (l.length : ℚ) := (le_div_iff₀ hn).mpr hSS1
  have havgS2 : SS / (l.length : ℚ) ≤ 10 := (div_le_iff₀ hn).mpr (by linarith)
  have havgPnn : 0 ≤ SP / (l.length : ℚ) := div_nonneg hSPnn hn.le
  have havgNnn : 0 ≤ SN / (l.length : ℚ) := div_nonneg hSNnn hn.le
  have havgGnn : 0 ≤ SG / (l.length : ℚ) := div_nonneg hSGnn hn.le
  constructor
  · -- overall score bounds
    split_ifs with hc1 hc2
    · exact score_bounds_boostp havgS1 havgS2
    · exact score_bounds_boostn havgS1 havgS2
    · exact score_bounds_plain havgS1 havgS2
  · -- component bounds after normalization
    intro hex
    have hsum3 : 0 < SP + SN + SG := by
      obtain ⟨p, hp, hpos⟩ := hex
      have hmem : role p ∈ l := List.mem_map_of_mem role hp
      rw [hSP, hSN, hSG, sum_map_add3]
      exact sum_map_pos l _ (fun s hs => by
          have := hvl s hs
          linarith [this.1, this.2.1, this.2.2.1]) (role p) hmem hpos
    have hone : 0 < SP / (l.length : ℚ) ∨ 0 < SN / (l.length : ℚ) ∨ 0 < SG / (l.length : ℚ) := by
      have havg3 : 0 < SP / (l.length : ℚ) + SN / (l.length : ℚ) + SG / (l.length : ℚ) := by
        have heq : SP / (l.length : ℚ) + SN / (l.length : ℚ) + SG / (l.length : ℚ)
            = (SP + SN + SG) / (l.length : ℚ) := by ring
        rw [heq]
        exact div_pos hsum3 hn
      by_contra hcon
      push_neg at hcon
      obtain ⟨h1, h2, h3⟩ := hcon
      linarith
    by_cases hb1 : hasStrongPositive l ∧ ¬ hasStrongNegative l
    · have hb2 : ¬ (hasStrongNegative l ∧ ¬ hasStrongPositive l) := fun h => h.2 hb1.1
      simp only [if_pos hb1, if_neg hb2]
      have hfP : 0 ≤ jsMin 1 (SP / (l.length : ℚ) * 1.2) :=
        jsMin_nonneg (by norm_num) (by linarith)
      have hfN : 0 ≤ jsMax 0 (SN / (l.length : ℚ) * 0.9) := jsMax_nonneg_left le_rfl
      have hT : 0 < jsMin 1 (SP / (l.length : ℚ) * 1.2) + jsMax 0 (SN / (l.length : ℚ) * 0.9)
          + SG / (l.length : ℚ) := by
        rcases hone with hP | hN | hG
        · have := jsMin_pos (a := 1) (b := SP / (l.length : ℚ) * 1.2) (by norm_num) (by linarith)
          linarith
        · have := le_jsMax_right 0 (SN / (l.length : ℚ) * 0.9)
          linarith
        · linarith
      simp only [if_pos hT]
      exact normalized_bounds hfP hfN havgGnn hT
    · by_cases hb2 : hasStrongNegative l ∧ ¬ hasStrongPositive l
      · simp only [if_neg hb1, if_pos hb2]
        have hfG : 0 ≤ jsMin 1 (SG / (l.length : ℚ) * 1.2) :=
          jsMin_nonneg (by norm_num) (by linarith)
        have hfN : 0 ≤ jsMax 0 (SN / (l.length : ℚ) * 0.9) := jsMax_nonneg_left le_rfl
        have hT : 0 < SP / (l.length : ℚ) + jsMax 0 (SN / (l.length : ℚ) * 0.9)
            + jsMin 1 (SG / (l.length : ℚ) * 1.2) := by
          rcases hone with hP | hN | hG
          · linarith
          · have := le_jsMax_right 0 (SN / (l.length : ℚ) * 0.9)
            linarith
          · have := jsMin_pos (a := 1) (b := SG / (l.length : ℚ) * 1.2) (by norm_num) (by linarith)
            linarith
        simp only [if_pos hT]
        exact normalized_bounds havgPnn hfN hfG hT
      · simp only [if_neg hb1, if_neg hb2]
        have hT : 0 < SP / (l.length : ℚ) + SN / (l.length : ℚ) + SG / (l.length : ℚ) := by
          rcases hone with hP | hN | hG <;> linarith
        simp only [if_pos hT]
        exact normalized_bounds havgPnn havgNnn havgGnn hT

/-! ## Claim C9 -/

/-- C9 counterexample: a defined JD relevance score of 70 is below the
claimed target threshold 80, yet `generateTrainingRecommendations` records no
performance gap at all (its actual trigger is 60; the flow trigger is 70, not
85). -/
theorem claimC9_counterexample :
    (generateTrainingRecommendations (some 70) (some 90) none none).performanceGaps = [] ∧
    (70 : ℚ) < 80 := by
  constructor
  · decide
  · norm_num

/-- C9 (amended): the performance-gap list contains a JD Relevance entry
exactly when the JD score is present and strictly below 60, and a Flow
Continuity entry exactly when the continuity score is present and strictly
below 70; the recorded target scores of those entries are 80 and 85. -/
theorem claimC9 (jdScore flowScore sentScore : Option ℚ)
    (missed : Option (List MissedFollowUp)) :
    ((∃ g ∈ (generateTrainingRecommendations jdScore flowScore sentScore missed).performanceGaps,
        g.metric = "JD Relevance") ↔ (∃ x, jdScore = some x ∧ x < 60)) ∧
    ((∃ g ∈ (generateTrainingRecommendations jdScore flowScore sentScore missed).performanceGaps,
        g.metric = "Flow Continuity") ↔ (∃ y, flowScore = some y ∧ y < 70)) ∧
    (∀ g ∈ (generateTrainingRecommendations jdScore flowScore sentScore missed).performanceGaps,
      g.metric = "JD Relevance" → g.targetScore = 80) ∧
    (∀ g ∈ (generateTrainingRecommendations jdScore flowScore sentScore missed).performanceGaps,
      g.metric = "Flow Continuity" → g.targetScore = 85) := by
  have hne : ("JD Relevance" : String) ≠ "Flow Continuity" := by decide
  rcases jdScore with _ | x <;> rcases flowScore with _ | y <;>
    simp only [generateTrainingRecommendations] <;>
    (try split_ifs) <;>
    simp_all

/-- C9 witness: the amended theorem instantiated on concrete scores 50 and
60 (both below their triggers, so both gap entries appear). -/
theorem claimC9_witness :
    ((∃ g ∈ (generateTrainingRecommendations (some 50) (some 60) none none).performanceGaps,
        g.metric = "JD Relevance") ↔ (∃ x, (some (50:ℚ)) = some x ∧ x < 60)) ∧
    ((∃ g ∈ (generateTrainingRecommendations (some 50) (some 60) none none).performanceGaps,
        g.metric = "Flow Continuity") ↔ (∃ y, (some (60:ℚ)) = some y ∧ y < 70)) ∧
    (∀ g ∈ (generateTrainingRecommendations (some 50) (some 60) none none).performanceGaps,
      g.metric = "JD Relevance" → g.targetScore = 80) ∧
    (∀ g ∈ (generateTrainingRecommendations (some 50) (some 60) none none).performanceGaps,
      g.metric = "Flow Continuity" → g.targetScore = 85) :=
  claimC9 (some 50) (some 60) none none

/-! ## Claim C1 -/

/-- A sentiment judgment as produced upstream: non-negative components and an
overall score clamped into `[1, 10]` (the component sum is deliberately not
constrained — the data model does not enforce it at creation). -/
def validJudgment (s : SentimentScore) : Prop :=
  0 ≤ s.positive ∧ 0 ≤ s.neutral ∧ 0 ≤ s.negative ∧
    1 ≤ s.overallScore ∧ s.overallScore ≤ 10

/-- The merged components lie in `[0, 1]` and sum to exactly 1 (hence within
any floating tolerance of 1.0). -/
def componentsNormalized (m : SentimentScore) : Prop :=
  (0 ≤ m.positive ∧ m.positive ≤ 1) ∧ (0 ≤ m.neutral ∧ m.neutral ≤ 1) ∧
  (0 ≤ m.negative ∧ m.negative ≤ 1) ∧ m.positive + m.neutral + m.negative = 1

/-- C1 (amended): for every non-empty batch of sentiment judgments, the merged
judgment's overallScore lies in `[1, 10]`; and provided at least one sample
has a nonzero component, the merged components lie in `[0, 1]` and sum to
exactly 1. (When every sample's components are all zero, the source skips the
re-normalization and returns components summing to 0.) -/
theorem claimC1 (pairAnalyses : List PairAnalysis) (hne : pairAnalyses ≠ [])
    (hvalR : ∀ p ∈ pairAnalyses, validJudgment p.recruiterSentiment)
    (hvalC : ∀ p ∈ pairAnalyses, validJudgment p.candidateSentiment) :
    (1 ≤ (aggregatePairSentiments pairAnalyses).recruiterSentiment.overallScore ∧
      (aggregatePairSentiments pairAnalyses).recruiterSentiment.overallScore ≤ 10) ∧
    (1 ≤ (aggregatePairSentiments pairAnalyses).candidateSentiment.overallScore ∧
      (aggregatePairSentiments pairAnalyses).candidateSentiment.overallScore ≤ 10) ∧
    ((∃ p ∈ pairAnalyses, 0 < p.recruiterSentiment.positive + p.recruiterSentiment.neutral +
        p.recruiterSentiment.negative) →
      componentsNormalized (aggregatePairSentiments pairAnalyses).recruiterSentiment) ∧
    ((∃ p ∈ pairAnalyses, 0 < p.candidateSentiment.positive + p.candidateSentiment.neutral +
        p.candidateSentiment.negative) →
      componentsNormalized (aggregatePairSentiments pairAnalyses).candidateSentiment) := by
  have hlen : ¬ pairAnalyses.length = 0 := by
    simp only [List.length_eq_zero]
    exact hne
  have hR := aggregateRole_bounds pairAnalyses (fun p => p.recruiterSentiment) hne
    (fun p hp => hvalR p hp)
  have hC := aggregateRole_bounds pairAnalyses (fun p => p.candidateSentiment) hne
    (fun p hp => hvalC p hp)
  unfold aggregatePairSentiments
  rw [if_neg hlen]
  exact ⟨hR.1, hC.1, fun hex => hR.2 hex, fun hex => hC.2 hex⟩

/-- A batch of two judgments whose components are all zero (legitimate
upstream output: components are clamped individually, not jointly). -/
def c1zero : List PairAnalysis :=
  [⟨⟨0, 0, 0, 5, "r"⟩, ⟨0, 0, 0, 5, "r"⟩⟩]

/-- C1 counterexample: on an all-zero-component batch the merged components
sum to 0, not to 1.0 within tolerance 1e-6. -/
theorem claimC1_counterexample :
    ¬ |((aggregatePairSentiments c1zero).recruiterSentiment.positive +
        (aggregatePairSentiments c1zero).recruiterSentiment.neutral +
        (aggregatePairSentiments c1zero).recruiterSentiment.negative) - 1| ≤ 1/1000000 := by
  have h : (aggregatePairSentiments c1zero).recruiterSentiment.positive +
      (aggregatePairSentiments c1zero).recruiterSentiment.neutral +
      (aggregatePairSentiments c1zero).recruiterSentiment.negative = 0 := by
    norm_num [c1zero, aggregatePairSentiments, aggregateRole, hasStrongPositive,
      hasStrongNegative, jsMin, jsMax, jsRound, List.foldl]
  rw [h]
  norm_num

/-- A concrete non-degenerate batch for exercising claim C1. -/
def c1pas : List PairAnalysis :=
  [⟨⟨0.6, 0.3, 0.1, 8, "ok"⟩, ⟨0.5, 0.4, 0.1, 7, "ok"⟩⟩]

/-- C1 witness: the amended theorem instantiated on a concrete batch. -/
theorem claimC1_witness :
    (c1pas ≠ [] ∧ (∀ p ∈ c1pas, validJudgment p.recruiterSentiment) ∧
      (∀ p ∈ c1pas, validJudgment p.candidateSentiment)) ∧
    ((1 ≤ (aggregatePairSentiments c1pas).recruiterSentiment.overallScore ∧
       (aggregatePairSentiments c1pas).recruiterSentiment.overallScore ≤ 10) ∧
     (1 ≤ (aggregatePairSentiments c1pas).candidateSentiment.overallScore ∧
       (aggregatePairSentiments c1pas).candidateSentiment.overallScore ≤ 10) ∧
     ((∃ p ∈ c1pas, 0 < p.recruiterSentiment.positive + p.recruiterSentiment.neutral +
         p.recruiterSentiment.negative) →
       componentsNormalized (aggregatePairSentiments c1pas).recruiterSentiment) ∧
     ((∃ p ∈ c1pas, 0 < p.candidateSentiment.positive + p.candidateSentiment.neutral +
         p.candidateSentiment.negative) →
       componentsNormalized (aggregatePairSentiments c1pas).candidateSentiment)) :=
  ⟨⟨by simp [c1pas], by
      intro p hp
      simp only [c1pas, List.mem_singleton] at hp
      subst hp
      norm_num [validJudgment], by
      intro p hp
      simp only [c1pas, List.mem_singleton] at hp
      subst hp
      norm_num [validJudgment]⟩,
    claimC1 c1pas (by simp [c1pas])
      (by
        intro p hp
        simp only [c1pas, List.mem_singleton] at hp
        subst hp
        norm_num [validJudgment])
      (by
        intro p hp
        simp only [c1pas, List.mem_singleton] at hp
        subst hp
        norm_num [validJudgment])⟩

/-! ## Claim C5 -/

theorem sum_map_one (l : List SentimentScore) :
    (l.map (fun _ => (1:ℚ))).sum = (l.length : ℚ) := by
  induction l with
  | nil => simp
  | cons x t ih => simp [ih, add_comm]

theorem jsMax_zero_nonneg {x : ℚ} (h : 0 ≤ x) : jsMax 0 x = x := by
  unfold jsMax
  split_ifs with h2
  · exact (le_antisymm h2 h).symm
  · rfl

theorem jsMin_eq_right {a b : ℚ} (h : b ≤ a) : jsMin a b = b := by
  unfold jsMin
  rw [if_pos h]

theorem jsMin_eq_left {a b : ℚ} (h : ¬ b ≤ a) : jsMin a b = a := by
  unfold jsMin
  rw [if_neg h]

/-- A sample of a uniformly strongly-positive batch: components non-negative
and summing to exactly 1, positive component above 0.6, and an overall score
in `[4, 10]` (so that no strong-negative signal can fire). -/
def strongPosSample (s : SentimentScore) : Prop :=
  0 ≤ s.neutral ∧ 0 ≤ s.negative ∧ s.positive + s.neutral + s.negative = 1 ∧
    0.6 < s.positive ∧ 4 ≤ s.overallScore ∧ s.overallScore ≤ 10

/-- Core amplification bound: on a batch of `strongPosSample`s the merged
positive is at least the unweighted mean of the positives, strictly greater
when that mean is below 1. -/
theorem aggregateRole_amplify (pairAnalyses : List PairAnalysis)
    (role : PairAnalysis → SentimentScore) (hne : pairAnalyses ≠ [])
    (hval : ∀ p ∈ pairAnalyses, strongPosSample (role p)) :
    ((pairAnalyses.map (fun p => (role p).positive)).sum / (pairAnalyses.length : ℚ) ≤
      (aggregateRole pairAnalyses role).positive) ∧
    ((pairAnalyses.map (fun p => (role p).positive)).sum / (pairAnalyses.length : ℚ) < 1 →
      (pairAnalyses.map (fun p => (role p).positive)).sum / (pairAnalyses.length : ℚ) <
        (aggregateRole pairAnalyses role).positive) := by
  have hlne : pairAnalyses.map role ≠ [] := by
    intro h
    exact hne (List.map_eq_nil_iff.mp h)
  have hvl : ∀ s ∈ pairAnalyses.map role, strongPosSample s := by
    intro s hs
    obtain ⟨p, hp, rfl⟩ := List.mem_map.mp hs
    exact hval p hp
  have hmean : pairAnalyses.map (fun p => (role p).positive) =
      (pairAnalyses.map role).map (fun s => s.positive) := by
    rw [List.map_map]
    rfl
  have hmlen : (pairAnalyses.map role).length = pairAnalyses.length := List.length_map _ _
  rw [hmean, ← hmlen]
  simp only [aggregateRole]
  set l := pairAnalyses.map role with hl
  rw [foldl_add l (fun s => s.positive), foldl_add l (fun s => s.neutral),
    foldl_add l (fun s => s.negative)]
  have hn : (0:ℚ) < (l.length : ℚ) := by
    exact_mod_cast List.length_pos.mpr hlne
  set SP := (l.map (fun s => s.positive)).sum with hSP
  set SN := (l.map (fun s => s.neutral)).sum with hSN
  set SG := (l.map (fun s => s.negative)).sum with hSG
  have hSNnn : 0 ≤ SN := sum_map_nonneg l _ (fun s hs => (hvl s hs).1)
  have hSGnn : 0 ≤ SG := sum_map_nonneg l _ (fun s hs => (hvl s hs).2.1)
  have hSP06 : 0.6 * (l.length : ℚ) ≤ SP :=
    le_sum_map l _ 0.6 (fun s hs => le_of_lt (hvl s hs).2.2.2.1)
  have hSPle : SP ≤ 1 * (l.length : ℚ) := sum_map_le l _ 1 (fun s hs => by
    have h := hvl s hs
    linarith [h.1, h.2.1, h.2.2.1])
  have hsum : SP + SN + SG = (l.length : ℚ) := by
    rw [hSP, hSN, hSG, sum_map_add3, ← sum_map_one l]
    apply congrArg
    exact List.map_congr_left (fun s hs => (hvl s hs).2.2.1)
  have hb1 : hasStrongPositive l ∧ ¬ hasStrongNegative l := by
    constructor
    · obtain ⟨s0, hs0⟩ := List.exists_mem_of_ne_nil l hlne
      exact ⟨s0, hs0, Or.inl (by have := (hvl s0 hs0).2.2.2.1; norm_num; linarith)⟩
    · rintro ⟨s, hs, hbad | hbad⟩
      · have h := hvl s hs
        have : s.negative ≤ 1 - s.positive := by linarith [h.1, h.2.2.1]
        have h06 := h.2.2.2.1
        norm_num at hbad h06 ⊢
        linarith
      · have h := hvl s hs
        linarith [h.2.2.2.2.1]
  have hb2 : ¬ (hasStrongNegative l ∧ ¬ hasStrongPositive l) := fun h => h.2 hb1.1
  simp only [if_pos hb1, if_neg hb2]
  -- abbreviations for the three averages
  set P := SP / (l.length : ℚ) with hPdef
  set N := SN / (l.length : ℚ) with hNdef
  set G := SG / (l.length : ℚ) with hGdef
  have hNnn : 0 ≤ N := div_nonneg hSNnn hn.le
  have hGnn : 0 ≤ G := div_nonneg hSGnn hn.le
  have hP06 : 0.6 ≤ P := by
    rw [hPdef, le_div_iff₀ hn]
    linarith
  have hPle : P ≤ 1 := by
    rw [hPdef, div_le_iff₀ hn]
    linarith
  have havgsum : P + N + G = 1 := by
    rw [hPdef, hNdef, hGdef]
    field_simp
    linarith
  rw [jsMax_zero_nonneg (by linarith : (0:ℚ) ≤ N * 0.9)]
  by_cases hcap : P * 1.2 ≤ 1
  · -- no cap: the boosted positive is P * 1.2
    rw [jsMin_eq_right hcap]
    have hT : P * 1.2 + N * 0.9 + G > 0 := by nlinarith
    simp only [if_pos hT]
    constructor
    · rw [le_div_iff₀ hT]
      nlinarith [mul_nonneg (by linarith : (0:ℚ) ≤ P) hNnn,
        mul_nonneg (by linarith : (0:ℚ) ≤ P) (by linarith : (0:ℚ) ≤ 1 - P)]
    · intro hPlt
      rw [lt_div_iff₀ hT]
      nlinarith [mul_nonneg (by linarith : (0:ℚ) ≤ P) hNnn,
        mul_pos (by linarith : (0:ℚ) < P) (by linarith : (0:ℚ) < 1 - P)]
  · -- cap at 1: the boosted positive is 1
    rw [jsMin_eq_left hcap]
    have hT : (1:ℚ) + N * 0.9 + G > 0 := by linarith
    simp only [if_pos hT]
    constructor
    · rw [le_div_iff₀ hT]
      nlinarith [sq_nonneg (1 - P), mul_nonneg (by linarith : (0:ℚ) ≤ P) hNnn]
    · intro hPlt
      rw [lt_div_iff₀ hT]
      nlinarith [mul_pos (by linarith : (0:ℚ) < 1 - P) (by linarith : (0:ℚ) < 1 - P),
        mul_nonneg (by linarith : (0:ℚ) ≤ P) hNnn]

/-- C5 (amended): for every non-empty batch in which every sample has
components summing to 1, positive > 0.6 and overallScore in `[4, 10]`, the
merged positive is at least the unweighted mean of the samples' positives,
and strictly greater whenever that mean is below 1. (Without the sum-to-1 and
score hypotheses the merged positive can fall below the mean, and at mean 1
it equals the mean — see the counterexample.) -/
theorem claimC5 (pairAnalyses : List PairAnalysis) (hne : pairAnalyses ≠ [])
    (hvalR : ∀ p ∈ pairAnalyses, strongPosSample p.recruiterSentiment)
    (hvalC : ∀ p ∈ pairAnalyses, strongPosSample p.candidateSentiment) :
    (((pairAnalyses.map (fun p => p.recruiterSentiment.positive)).sum / (pairAnalyses.length : ℚ) ≤
        (aggregatePairSentiments pairAnalyses).recruiterSentiment.positive) ∧
      ((pairAnalyses.map (fun p => p.recruiterSentiment.positive)).sum / (pairAnalyses.length : ℚ) < 1 →
        (pairAnalyses.map (fun p => p.recruiterSentiment.positive)).sum / (pairAnalyses.length : ℚ) <
          (aggregatePairSentiments pairAnalyses).recruiterSentiment.positive)) ∧
    (((pairAnalyses.map (fun p => p.candidateSentiment.positive)).sum / (pairAnalyses.length : ℚ) ≤
        (aggregatePairSentiments pairAnalyses).candidateSentiment.positive) ∧
      ((pairAnalyses.map (fun p => p.candidateSentiment.positive)).sum / (pairAnalyses.length : ℚ) < 1 →
        (pairAnalyses.map (fun p => p.candidateSentiment.positive)).sum / (pairAnalyses.length : ℚ) <
          (aggregatePairSentiments pairAnalyses).candidateSentiment.positive)) := by
  have hlen : ¬ pairAnalyses.length = 0 := by
    simp only [List.length_eq_zero]
    exact hne
  have hR := aggregateRole_amplify pairAnalyses (fun p => p.recruiterSentiment) hne
    (fun p hp => hvalR p hp)
  have hC := aggregateRole_amplify pairAnalyses (fun p => p.candidateSentiment) hne
    (fun p hp => hvalC p hp)
  unfold aggregatePairSentiments
  rw [if_neg hlen]
  exact ⟨hR, hC⟩

/-- A batch whose single judgment has components summing to 1.2 and a low
overall score: both strong signals fire, so no amplification happens and
re-normalization shrinks the positive below the mean. -/
def c5inA : List PairAnalysis :=
  [⟨⟨0.7, 0, 0.5, 3, "r"⟩, ⟨0.7, 0, 0.5, 3, "r"⟩⟩]

/-- A batch whose single judgment is fully positive: the merged positive
equals the mean (1), not strictly greater. -/
def c5inB : List PairAnalysis :=
  [⟨⟨1, 0, 0, 10, "r"⟩, ⟨1, 0, 0, 10, "r"⟩⟩]

/-- C5 counterexample: two batches in which every sample has positive > 0.6
yet the merged positive is, respectively, strictly below and exactly equal to
the unweighted mean of the positives. -/
theorem claimC5_counterexample :
    ((aggregatePairSentiments c5inA).recruiterSentiment.positive <
      (c5inA.map (fun p => p.recruiterSentiment.positive)).sum / (c5inA.length : ℚ)) ∧
    ((aggregatePairSentiments c5inB).recruiterSentiment.positive =
      (c5inB.map (fun p => p.recruiterSentiment.positive)).sum / (c5inB.length : ℚ)) := by
  constructor <;>
    norm_num [c5inA, c5inB, aggregatePairSentiments, aggregateRole, hasStrongPositive,
      hasStrongNegative, jsMin, jsMax, jsRound, List.foldl]

/-- A concrete uniformly strongly-positive batch for exercising claim C5. -/
def c5pas : List PairAnalysis :=
  [⟨⟨0.7, 0.2, 0.1, 8, "ok"⟩, ⟨0.7, 0.2, 0.1, 8, "ok"⟩⟩]

/-- C5 witness: the amended theorem instantiated on a concrete batch. -/
theorem claimC5_witness :
    (c5pas ≠ [] ∧ (∀ p ∈ c5pas, strongPosSample p.recruiterSentiment) ∧
      (∀ p ∈ c5pas, strongPosSample p.candidateSentiment)) ∧
    ((((c5pas.map (fun p => p.recruiterSentiment.positive)).sum / (c5pas.length : ℚ) ≤
        (aggregatePairSentiments c5pas).recruiterSentiment.positive) ∧
      ((c5pas.map (fun p => p.recruiterSentiment.positive)).sum / (c5pas.length : ℚ) < 1 →
        (c5pas.map (fun p => p.recruiterSentiment.positive)).sum / (c5pas.length : ℚ) <
          (aggregatePairSentiments c5pas).recruiterSentiment.positive)) ∧
    (((c5pas.map (fun p => p.candidateSentiment.positive)).sum / (c5pas.length : ℚ) ≤
        (aggregatePairSentiments c5pas).candidateSentiment.positive) ∧
      ((c5pas.map (fun p => p.candidateSentiment.positive)).sum / (c5pas.length : ℚ) < 1 →
        (c5pas.map (fun p => p.candidateSentiment.positive)).sum / (c5pas.length : ℚ) <
          (aggregatePairSentiments c5pas).candidateSentiment.positive))) :=
  ⟨⟨by simp [c5pas], by
      intro p hp
      simp only [c5pas, List.mem_singleton] at hp
      subst hp
      norm_num [strongPosSample], by
      intro p hp
      simp only [c5pas, List.mem_singleton] at hp
      subst hp
      norm_num [strongPosSample]⟩,
    claimC5 c5pas (by simp [c5pas])
      (by
        intro p hp
        simp only [c5pas, List.mem_singleton] at hp
        subst hp
        norm_num [strongPosSample])
      (by
        intro p hp
        simp only [c5pas, List.mem_singleton] at hp
        subst hp
        norm_num [strongPosSample])⟩

/-! ## Claim C2 -/

/-- The untouched-tag rule of `detectMissedFollowUps` at answer index `i`:
the answer carries at least one key skill, and no skill occurs
(case-insensitively) in the next question's text. -/
def tagRuleFires (questions : List QuestionInput) (answers : List AnswerInput) (i : Nat) : Bool :=
  let skills := (answers.getD i ⟨"", none⟩).keySkills.getD []
  decide (skills.length > 0) &&
    !(skills.any (fun skill =>
      strIncludes (jsToLower (questions.getD (i + 1) ⟨""⟩).text) (jsToLower skill)))

/-- The disconnected-edge rule of `detectMissedFollowUps` at answer index `i`:
the continuity edge from `a i` to `q (i+1)` is present and disconnected. -/
def discRuleFires (edges : List FlowEdge) (i : Nat) : Bool :=
  match edges.find? (fun e => decide (e.fromId = aId i ∧ e.toId = qId (i + 1))) with
  | some e => decide (e.type = .disconnected)
  | none => false

theorem tagRecordsAt_spec (questions : List QuestionInput) (answers : List AnswerInput)
    (i : Nat) :
    (tagRecordsAt questions answers i).map (fun r => (r.afterNode, r.importance)) =
      (if tagRuleFires questions answers i then [(aId i, Importance.high)] else []) := by
  unfold tagRecordsAt tagRuleFires
  dsimp only
  by_cases h1 : ((answers.getD i ⟨"", none⟩).keySkills.getD []).length > 0
  · have hd := decide_eq_true h1
    cases h2 : ((answers.getD i ⟨"", none⟩).keySkills.getD []).any (fun skill =>
      strIncludes (jsToLower (questions.getD (i + 1) ⟨""⟩).text) (jsToLower skill)) with
    | true => rw [if_pos h1, hd]; simp
    | false => rw [if_pos h1, hd]; simp
  · have hd := decide_eq_false h1
    rw [if_neg h1, hd]
    simp

theorem edgeRecordsAt_spec (edges : List FlowEdge) (i : Nat) :
    (edgeRecordsAt edges i).map (fun r => (r.afterNode, r.importance)) =
      (if discRuleFires edges i then [(aId i, Importance.medium)] else []) := by
  unfold edgeRecordsAt discRuleFires
  cases hf : edges.find? (fun e => decide (e.fromId = aId i ∧ e.toId = qId (i + 1))) with
  | some e =>
    by_cases h3 : e.type = .disconnected
    · simp [h3]
    · simp [h3]
  | none => simp

/-- Which records one loop iteration of `detectMissedFollowUps` emits, by
after-node and importance: the high tag record when the tag rule fires, then
the medium disconnect record when the edge rule fires. -/
theorem missedAt_spec (questions : List QuestionInput) (answers : List AnswerInput)
    (edges : List FlowEdge) (i : Nat) :
    (missedAt questions answers edges i).map (fun r => (r.afterNode, r.importance)) =
      (if tagRuleFires questions answers i then [(aId i, Importance.high)] else []) ++
      (if discRuleFires edges i then [(aId i, Importance.medium)] else []) := by
  unfold missedAt
  rw [List.map_append, tagRecordsAt_spec, edgeRecordsAt_spec]

theorem missedAt_afterNode {questions : List QuestionInput} {answers : List AnswerInput}
    {edges : List FlowEdge} {j : Nat} {r : MissedFollowUp}
    (hr : r ∈ missedAt questions answers edges j) : r.afterNode = aId j := by
  have hmem : (r.afterNode, r.importance) ∈
      (missedAt questions answers edges j).map (fun r => (r.afterNode, r.importance)) :=
    List.mem_map_of_mem _ hr
  rw [missedAt_spec] at hmem
  rcases List.mem_append.mp hmem with h | h <;> split_ifs at h <;> simp at h <;> exact h.1

theorem filter_flatMap {α β : Type} (l : List α) (f : α → List β) (p : β → Bool) :
    (l.flatMap f).filter p = l.flatMap (fun a => (f a).filter p) := by
  induction l with
  | nil => rfl
  | cons a t ih => simp [List.flatMap_cons, List.filter_append, ih]

theorem flatMap_single_support {β : Type} (n i : Nat) (hi : i < n) (g : Nat → List β)
    (hg : ∀ j, j ≠ i → g j = []) : (List.range n).flatMap g = g i := by
  induction n with
  | zero => omega
  | succ n ih =>
    rw [List.range_succ, List.flatMap_append]
    by_cases hcase : i = n
    · subst hcase
      rw [show (List.range i).flatMap g = [] from
        List.flatMap_eq_nil_iff.mpr (fun j hj => hg j (by have := List.mem_range.mp hj; omega))]
      simp [List.flatMap_cons]
    · rw [ih (by omega)]
      have hn : g n = [] := hg n (fun hne => hcase hne.symm)
      simp [List.flatMap_cons, hn]

/-- C2 counterexample: an input on which both the untouched-tag rule and the
disconnected-edge rule fire at answer index 0, so `detectMissedFollowUps`
emits two records for that index (the claim asserts at most one, with the tag
rule taking precedence). -/
theorem claimC2_counterexample :
    (detectMissedFollowUps [⟨"alpha beta"⟩, ⟨"gamma delta"⟩]
      [⟨"ans one", some ["Kubernetes"]⟩, ⟨"x", none⟩]
      [⟨"a0", "q1", .disconnected, 0.2, "No clear logical connection"⟩]).map
      (fun r => (r.afterNode, r.importance)) = [("a0", .high), ("a0", .medium)] := by
  decide

/-- C2 (amended): per answer index, `detectMissedFollowUps` emits the
high-importance tag record when the tag rule fires, followed by the
medium-importance disconnect record when the edge rule fires — so up to two
records per index, with no precedence between the rules. -/
theorem claimC2 (questions : List QuestionInput) (answers : List AnswerInput)
    (edges : List FlowEdge) (i : Nat) (h : i + 1 < answers.length) :
    (((detectMissedFollowUps questions answers edges).filter
        (fun r => decide (r.afterNode = aId i))).map (fun r => r.importance) =
      (if tagRuleFires questions answers i then [Importance.high] else []) ++
      (if discRuleFires edges i then [Importance.medium] else [])) ∧
    ((detectMissedFollowUps questions answers edges).filter
        (fun r => decide (r.afterNode = aId i))).length ≤ 2 := by
  have key : (detectMissedFollowUps questions answers edges).filter
      (fun r => decide (r.afterNode = aId i)) = missedAt questions answers edges i := by
    unfold detectMissedFollowUps
    rw [filter_flatMap, flatMap_single_support (answers.length - 1) i (by omega)]
    · exact List.filter_eq_self.mpr (fun r hr => by
        simp only [missedAt_afterNode hr, decide_eq_true_eq])
    · intro j hj
      exact List.filter_eq_nil_iff.mpr (fun r hr => by
        simp only [missedAt_afterNode hr, decide_eq_true_eq]
        exact fun heq => hj (aId_injective heq))
  constructor
  · rw [key]
    have hsp := missedAt_spec questions answers edges i
    have : (missedAt questions answers edges i).map (fun r => r.importance) =
        ((missedAt questions answers edges i).map (fun r => (r.afterNode, r.importance))).map Prod.snd := by
      rw [List.map_map]; rfl
    rw [this, hsp, List.map_append]
    congr 1 <;> split_ifs <;> rfl
  · rw [key]
    have := congrArg List.length (missedAt_spec questions answers edges i)
    rw [List.length_map, List.length_append] at this
    rw [this]
    split_ifs <;> simp

/-- C2 witness: the amended theorem instantiated on the two-rule input. -/
theorem claimC2_witness :
    0 + 1 < ([⟨"ans one", some ["Kubernetes"]⟩, ⟨"x", none⟩] : List AnswerInput).length ∧
    ((((detectMissedFollowUps [⟨"alpha beta"⟩, ⟨"gamma delta"⟩]
        [⟨"ans one", some ["Kubernetes"]⟩, ⟨"x", none⟩]
        [⟨"a0", "q1", .disconnected, 0.2, "No clear logical connection"⟩]).filter
          (fun r => decide (r.afterNode = aId 0))).map (fun r => r.importance) =
        (if tagRuleFires [⟨"alpha beta"⟩, ⟨"gamma delta"⟩]
            [⟨"ans one", some ["Kubernetes"]⟩, ⟨"x", none⟩] 0 then [Importance.high] else []) ++
        (if discRuleFires [⟨"a0", "q1", .disconnected, 0.2, "No clear logical connection"⟩] 0
          then [Importance.medium] else [])) ∧
      ((detectMissedFollowUps [⟨"alpha beta"⟩, ⟨"gamma delta"⟩]
        [⟨"ans one", some ["Kubernetes"]⟩, ⟨"x", none⟩]
        [⟨"a0", "q1", .disconnected, 0.2, "No clear logical connection"⟩]).filter
          (fun r => decide (r.afterNode = aId 0))).length ≤ 2) :=
  ⟨by norm_num, claimC2 _ _ _ 0 (by norm_num)⟩

/-- C10 witness: three questions, one answer; the continuity edge out of the
nonexistent node `a1` dangles. -/
theorem claimC10_witness :
    1 + 1 < c10qs.length ∧
    ((∃ e ∈ (buildFlowGraph c10qs c10as).2, e.fromId = aId 1 ∧ e.toId = qId (1 + 1)) ∧
     (c10as.length ≤ 1 →
       ∀ nd ∈ (buildFlowGraph c10qs c10as).1, nd.id ≠ aId 1)) :=
  ⟨by norm_num [c10qs], claimC10 c10qs c10as 1 (by norm_num [c10qs])⟩

/-! ## Structured-value extractor (`extractValidJson`)

The extractor is modelled over character lists. `JSON.parse` acceptance is
modelled by a fuel-driven recursive-descent recognizer of the RFC 8259
grammar (the fuel only bounds nesting; one unit per character of input is
always sufficient). -/

/-- JSON whitespace (RFC 8259): space, tab, newline, carriage return. -/
def isJsonWs (c : Char) : Bool := c == ' ' || c == '\t' || c == '\n' || c == '\r'

/-- Skip JSON whitespace. -/
def skipWs (cs : List Char) : List Char := cs.dropWhile isJsonWs

def isHexDigit (c : Char) : Bool :=
  c.isDigit || ('a' ≤ c && c ≤ 'f') || ('A' ≤ c && c ≤ 'F')

/-- Expect a fixed character sequence; return the remainder. -/
def expectSeq : List Char → List Char → Option (List Char)
  | [], cs => some cs
  | _ :: _, [] => none
  | e :: es, c :: cs => if c = e then expectSeq es cs else none

/-- The eight single-character string escapes of JSON. -/
def escOk (e : Char) : Bool :=
  e = '"' || e = '\\' || e = '/' || e = 'b' || e = 'f' || e = 'n' || e = 'r' || e = 't'

/-- Recognize the body of a JSON string after the opening quote; returns the
remainder after the closing quote. Escapes are honored; raw control
characters are rejected, as in `JSON.parse`. -/
def parseStringBody : List Char → Option (List Char)
  | [] => none
  | c :: cs =>
    if c = '"' then some cs
    else if c = '\\' then
      match cs with
      | [] => none
      | e :: cs2 =>
        if e = 'u' then
          match cs2 with
          | h1 :: h2 :: h3 :: h4 :: cs3 =>
            if isHexDigit h1 && isHexDigit h2 && isHexDigit h3 && isHexDigit h4 then
              parseStringBody cs3
            else none
          | _ => none
        else if escOk e then parseStringBody cs2
        else none
    else if c.toNat < 32 then none
    else parseStringBody cs

/-- Recognize an optional exponent part of a JSON number. -/
def parseExpPart (r : List Char) : Option (List Char) :=
  match r with
  | [] => some []
  | e :: r2 =>
    if e = 'e' || e = 'E' then
      let r3 := match r2 with
        | [] => ([] : List Char)
        | s :: r4 => if s = '+' || s = '-' then r4 else s :: r4
      match r3 with
      | [] => none
      | c :: r5 => if c.isDigit then some (r5.dropWhile Char.isDigit) else none
    else some (e :: r2)

/-- Recognize the optional fraction and exponent parts of a JSON number. -/
def parseFracExp (cs : List Char) : Option (List Char) :=
  match cs with
  | [] => some []
  | c :: r =>
    if c = '.' then
      match r with
      | [] => none
      | d :: r2 => if d.isDigit then parseExpPart (r2.dropWhile Char.isDigit) else none
    else parseExpPart (c :: r)

/-- Recognize the integer part of a JSON number (leading zeros rejected as in
`JSON.parse`), then delegate to fraction/exponent. -/
def numTail (cs1 : List Char) : Option (List Char) :=
  match cs1 with
  | [] => none
  | c :: r =>
    if c = '0' then parseFracExp r
    else if c.isDigit then parseFracExp (r.dropWhile Char.isDigit)
    else none

/-- Recognize a JSON number starting at the given characters (optional minus
sign first). -/
def parseNumber (cs : List Char) : Option (List Char) :=
  match cs with
  | [] => none
  | c :: r => if c = '-' then numTail r else numTail (c :: r)

/-- The five states of the recursive-descent recognizer: a value, an object
body right after `{`, an object body right after a member, an array body
right after `[`, an array body right after an element. -/
inductive JsonMode
  | value
  | members
  | membersTail
  | elements
  | elementsTail
deriving DecidableEq

/-- Fuel-driven JSON recognizer; returns the remaining input on success. -/
def parseRun : Nat → JsonMode → List Char → Option (List Char)
  | 0, _, _ => none
  | fuel + 1, .value, cs =>
    match skipWs cs with
    | [] => none
    | c :: cs1 =>
      if c = '{' then parseRun fuel .members cs1
      else if c = '[' then parseRun fuel .elements cs1
      else if c = '"' then parseStringBody cs1
      else if c = 't' then expectSeq ['r', 'u', 'e'] cs1
      else if c = 'f' then expectSeq ['a', 'l', 's', 'e'] cs1
      else if c = 'n' then expectSeq ['u', 'l', 'l'] cs1
      else if c = '-' || c.isDigit then parseNumber (c :: cs1)
      else none
  | fuel + 1, .members, cs =>
    match skipWs cs with
    | [] => none
    | c :: cs1 =>
      if c = '}' then some cs1
      else if c = '"' then
        match parseStringBody cs1 with
        | none => none
        | some cs2 =>
          match skipWs cs2 with
          | [] => none
          | c2 :: cs3 =>
            if c2 = ':' then
              match parseRun fuel .value cs3 with
              | none => none
              | some cs4 => parseRun fuel .membersTail cs4
            else none
      else none
  | fuel + 1, .membersTail, cs =>
    match skipWs cs with
    | [] => none
    | c :: cs1 =>
      if c = '}' then some cs1
      else if c = ',' then
        match skipWs cs1 with
        | [] => none
        | c2 :: cs2 =>
          if c2 = '"' then
            match parseStringBody cs2 with
            | none => none
            | some cs3 =>
              match skipWs cs3 with
              | [] => none
              | c3 :: cs4 =>
                if c3 = ':' then
                  match parseRun fuel .value cs4 with
                  | none => none
                  | some cs5 => parseRun fuel .membersTail cs5
                else none
          else none
      else none
  | fuel + 1, .elements, cs =>
    match skipWs cs with
    | [] => none
    | c :: cs1 =>
      if c = ']' then some cs1
      else
        match parseRun fuel .value cs with
        | none => none
        | some cs2 => parseRun fuel .elementsTail cs2
  | fuel + 1, .elementsTail, cs =>
    match skipWs cs with
    | [] => none
    | c :: cs1 =>
      if c = ']' then some cs1
      else if c = ',' then
        match parseRun fuel .value cs1 with
        | none => none
        | some cs2 => parseRun fuel .elementsTail cs2
      else none

/-- `JSON.parse` acceptance: one JSON value surrounded only by whitespace. -/
def jsonParses (cs : List Char) : Bool :=
  match parseRun (cs.length + 1) .value cs with
  | some rest => (skipWs rest).isEmpty
  | none => false

/-! ### The two regex replacements and trimming -/

/-- The whitespace class of JavaScript's `\s` and `trim` (ASCII range plus
NBSP and BOM; exotic Unicode whitespace is not modelled). -/
def isJsWsChar (c : Char) : Bool :=
  c == ' ' || c == '\t' || c == '\n' || c == '\r' || c == '\x0b' || c == '\x0c' ||
    c == '\u00A0' || c == '\uFEFF'

/-- Strip one leading byte-order mark (the source first `replace`). -/
def stripBom : List Char → List Char
  | '\uFEFF' :: cs => cs
  | cs => cs

/-- JavaScript `String.prototype.trim`. -/
def jsTrim (cs : List Char) : List Char :=
  ((cs.dropWhile isJsWsChar).reverse.dropWhile isJsWsChar).reverse

/-- Consume characters up to and including the first newline
(the `.*?\n` tail of the fence regex); fails when no newline remains. -/
def dropThroughNl : List Char → Option (List Char)
  | [] => none
  | '\n' :: cs => some cs
  | _ :: cs => dropThroughNl cs

/-- Try to match ``/```\s*(?:json|JSON).*?\n/`` at the head of the input;
on success return the remainder after the match. -/
def tryFenceJson : List Char → Option (List Char)
  | '`' :: '`' :: '`' :: rest =>
    let rest2 := rest.dropWhile isJsWsChar
    match expectSeq ['j', 's', 'o', 'n'] rest2 with
    | some r => dropThroughNl r
    | none =>
      match expectSeq ['J', 'S', 'O', 'N'] rest2 with
      | some r => dropThroughNl r
      | none => none
  | _ => none

/-- Global replacement of ``/```\s*(?:json|JSON).*?\n/`` by the empty string,
scanning left to right (fuel-driven; one unit per character suffices). -/
def replaceFenceJsonF : Nat → List Char → List Char
  | 0, cs => cs
  | fuel + 1, cs =>
    match cs with
    | [] => []
    | c :: cs' =>
      match tryFenceJson cs with
      | some rest => replaceFenceJsonF fuel rest
      | none => c :: replaceFenceJsonF fuel cs'

def replaceFenceJson (cs : List Char) : List Char := replaceFenceJsonF (cs.length + 1) cs

/-- Global replacement of ``/```/`` by the empty string. -/
def replaceTicks : List Char → List Char
  | '`' :: '`' :: '`' :: rest => replaceTicks rest
  | c :: rest => c :: replaceTicks rest
  | [] => []

/-- Split the input at the first `{` or `[` (the source's
`Math.min(indexOf('{'), indexOf('['))`): the characters before it, the opener
itself, and the characters after it. -/
def splitAtFirstOpener : List Char → Option (List Char × Char × List Char)
  | [] => none
  | c :: cs =>
    if c = '{' ∨ c = '[' then some ([], c, cs)
    else
      match splitAtFirstOpener cs with
      | some (pre, o, post) => some (c :: pre, o, post)
      | none => none

/-! ### The single forward scan -/

/-- State of the forward scan: inside a string literal, just after a
backslash, and the current nesting depth. -/
structure ScanSt where
  inStr : Bool
  esc : Bool
  depth : Int
deriving DecidableEq

/-- One step of the source's scan loop, in its check order: a pending escape
absorbs the character; a backslash sets the escape flag; an unescaped quote
toggles string state; characters inside strings are skipped; the start
character increments depth; the end character decrements it and fires the
return when depth reaches zero. -/
def scanChar (sc ec : Char) (st : ScanSt) (c : Char) : ScanSt ⊕ Unit :=
  if st.esc then .inl { st with esc := false }
  else if c = '\\' then .inl { st with esc := true }
  else if c = '"' then .inl { st with inStr := !st.inStr, esc := false }
  else if st.inStr then .inl st
  else if c = sc then .inl { st with depth := st.depth + 1 }
  else if c = ec then
    if st.depth - 1 = 0 then .inr ()
    else .inl { st with depth := st.depth - 1 }
  else .inl st

/-- Run the scan over a character list: either the final state (no return
fired — unbalanced delimiters), or the index of the character at which the
matching closer was found. -/
def scanRun (sc ec : Char) : List Char → ScanSt → ScanSt ⊕ Nat
  | [], st => .inl st
  | c :: cs, st =>
    match scanChar sc ec st c with
    | .inl st' =>
      match scanRun sc ec cs st' with
      | .inl stF => .inl stF
      | .inr k => .inr (k + 1)
    | .inr _ => .inr 0

inductive ExtractError
  | noJsonFound
  | unbalanced
deriving DecidableEq

deriving instance DecidableEq for Except

/-- The extractor's input after BOM-stripping and trimming. -/
def extractCleaned0 (text : String) : List Char := jsTrim (stripBom text.data)

/-- The extractor's input after the two markdown-fence replacements. -/
def extractCleaned (text : String) : List Char :=
  replaceTicks (replaceFenceJson (extractCleaned0 text))

/-- `extractValidJson`: direct parse fast path, fence-stripping fast path,
then the string-aware single forward scan from the first opener; errors
mirror the source's two `throw` sites. -/
def extractValidJson (text : String) : Except ExtractError String :=
  let cleaned0 := extractCleaned0 text
  if jsonParses cleaned0 then .ok ⟨cleaned0⟩
  else
    let cleaned := extractCleaned text
    if jsonParses (jsTrim cleaned) then .ok ⟨jsTrim cleaned⟩
    else
      match splitAtFirstOpener cleaned with
      | none => .error .noJsonFound
      | some (_, c, post) =>
        let ec := if c = '{' then '}' else ']'
        match scanRun c ec (c :: post) ⟨false, false, 0⟩ with
        | .inr k => .ok ⟨(c :: post).take (k + 1)⟩
        | .inl _ => .error .unbalanced

/-! ## Extractor lemmas: characters and whitespace -/

/-- A character satisfying a boolean predicate differs from any character
falsifying it. -/
theorem char_pred_ne {p : Char → Bool} {c k : Char} (hc : p c = true) (hk : p k = false) :
    c ≠ k := by
  intro h
  subst h
  rw [hc] at hk
  cases hk

theorem isJsonWs_cases {c : Char} (h : isJsonWs c = true) :
    c = ' ' ∨ c = '\t' ∨ c = '\n' ∨ c = '\r' := by
  simp only [isJsonWs, Bool.or_eq_true, beq_iff_eq] at h
  tauto

theorem isJsonWs_isJsWs {c : Char} (h : isJsonWs c = true) : isJsWsChar c = true := by
  rcases isJsonWs_cases h with h | h | h | h <;> subst h <;> decide

theorem isJsonWs_false {c : Char} (h : isJsWsChar c = false) : isJsonWs c = false := by
  cases hj : isJsonWs c
  · rfl
  · rw [isJsonWs_isJsWs hj] at h
    cases h

theorem skipWs_cons_not_ws {c : Char} {cs : List Char} (h : isJsonWs c = false) :
    skipWs (c :: cs) = c :: cs := by
  simp [skipWs, List.dropWhile_cons, h]

theorem skipWs_append {cs : List Char} (t : List Char) (h : skipWs cs ≠ []) :
    skipWs (cs ++ t) = skipWs cs ++ t := by
  simp only [skipWs] at h ⊢
  rw [List.dropWhile_append, if_neg (by simpa [List.isEmpty_iff] using h)]

theorem skipWs_decomp (cs : List Char) :
    ∃ wsp, cs = wsp ++ skipWs cs ∧ ∀ x ∈ wsp, isJsonWs x = true :=
  ⟨cs.takeWhile isJsonWs, (List.takeWhile_append_dropWhile _ _).symm,
    fun _ hx => List.mem_takeWhile_imp hx⟩

theorem skipWs_ne_nil {cs : List Char} {x : Char} (hx : x ∈ cs) (hw : isJsonWs x = false) :
    skipWs cs ≠ [] := by
  intro h
  rw [skipWs, List.dropWhile_eq_nil_iff] at h
  rw [h x hx] at hw
  cases hw

theorem expectSeq_eq (pat : List Char) :
    ∀ cs rest, expectSeq pat cs = some rest → cs = pat ++ rest := by
  induction pat with
  | nil =>
    intro cs rest h
    simp only [expectSeq, Option.some.injEq] at h
    simpa using h
  | cons e es ih =>
    intro cs rest h
    cases cs with
    | nil => simp [expectSeq] at h
    | cons c cs2 =>
      simp only [expectSeq] at h
      by_cases hc : c = e
      · rw [if_pos hc] at h
        subst hc
        simpa using ih cs2 rest h
      · rw [if_neg hc] at h
        cases h

theorem expectSeq_append (pat : List Char) :
    ∀ cs rest t, expectSeq pat cs = some rest → expectSeq pat (cs ++ t) = some (rest ++ t) := by
  induction pat with
  | nil =>
    intro cs rest t h
    simp only [expectSeq, Option.some.injEq] at h ⊢
    rw [h]
  | cons e es ih =>
    intro cs rest t h
    cases cs with
    | nil => simp [expectSeq] at h
    | cons c cs2 =>
      simp only [expectSeq] at h ⊢
      by_cases hc : c = e
      · rw [if_pos hc] at h ⊢
        exact ih cs2 rest t h
      · rw [if_neg hc] at h
        cases h

/-! ## Extractor lemmas: unfolding equations -/

theorem parseStringBody_nil : parseStringBody [] = none := rfl

theorem parseStringBody_cons (c : Char) (cs : List Char) :
    parseStringBody (c :: cs) =
      if c = '"' then some cs
      else if c = '\\' then
        match cs with
        | [] => none
        | e :: cs2 =>
          if e = 'u' then
            match cs2 with
            | h1 :: h2 :: h3 :: h4 :: cs3 =>
              if isHexDigit h1 && isHexDigit h2 && isHexDigit h3 && isHexDigit h4 then
                parseStringBody cs3
              else none
            | _ => none
          else if escOk e then parseStringBody cs2
          else none
      else if c.toNat < 32 then none
      else parseStringBody cs := by
  rw [parseStringBody.eq_def]

/-! ## Extractor lemmas: the forward scan -/

theorem isHexDigit_ne_quote {c : Char} (h : isHexDigit c = true) : c ≠ '"' :=
  char_pred_ne h (by decide)

theorem isHexDigit_ne_bslash {c : Char} (h : isHexDigit c = true) : c ≠ '\\' :=
  char_pred_ne h (by decide)

theorem scanChar_inStr {sc ec c : Char} {d : Int} (hq : c ≠ '"') (hb : c ≠ '\\') :
    scanChar sc ec ⟨true, false, d⟩ c = .inl ⟨true, false, d⟩ := by
  simp [scanChar, hq, hb]

theorem scanChar_esc_set {sc ec : Char} {st : ScanSt} (he : st.esc = false) :
    scanChar sc ec st '\\' = .inl { st with esc := true } := by
  simp [scanChar, he]

theorem scanChar_esc_clear {sc ec c : Char} {st : ScanSt} (he : st.esc = true) :
    scanChar sc ec st c = .inl { st with esc := false } := by
  simp [scanChar, he]

theorem scanChar_quote {sc ec : Char} {st : ScanSt} (he : st.esc = false) :
    scanChar sc ec st '"' = .inl { st with inStr := !st.inStr, esc := false } := by
  simp [scanChar, he]

theorem scanRun_cons_of {sc ec c : Char} {cs : List Char} {st st' : ScanSt} {r : ScanSt}
    (h : scanChar sc ec st c = .inl st') (h2 : scanRun sc ec cs st' = .inl r) :
    scanRun sc ec (c :: cs) st = .inl r := by
  simp [scanRun, h, h2]

theorem scanRun_cons_shift {sc ec c : Char} {cs : List Char} {st st' : ScanSt} {k : Nat}
    (h : scanChar sc ec st c = .inl st') (h2 : scanRun sc ec cs st' = .inr k) :
    scanRun sc ec (c :: cs) st = .inr (k + 1) := by
  simp [scanRun, h, h2]

theorem scanRun_cons_fire {sc ec c : Char} {cs : List Char} {st : ScanSt}
    (h : scanChar sc ec st c = .inr ()) : scanRun sc ec (c :: cs) st = .inr 0 := by
  simp [scanRun, h]

theorem scanRun_cons_inl {sc ec c : Char} {cs : List Char} {st st' : ScanSt}
    (h : scanChar sc ec st c = .inl st') :
    scanRun sc ec (c :: cs) st =
      match scanRun sc ec cs st' with
      | .inl stF => .inl stF
      | .inr k => .inr (k + 1) := by
  simp [scanRun, h]

theorem scanRun_append (sc ec : Char) (xs ys : List Char) :
    ∀ st : ScanSt,
      scanRun sc ec (xs ++ ys) st =
        match scanRun sc ec xs st with
        | .inl st2 =>
          match scanRun sc ec ys st2 with
          | .inl st3 => .inl st3
          | .inr k => .inr (k + xs.length)
        | .inr k => .inr k := by
  induction xs with
  | nil =>
    intro st
    simp only [List.nil_append, List.length_nil]
    cases h : scanRun sc ec ys st <;> simp [scanRun, h]
  | cons c xs ih =>
    intro st
    cases h1 : scanChar sc ec st c with
    | inr u =>
      cases u
      rw [List.cons_append, scanRun_cons_fire h1, scanRun_cons_fire h1]
    | inl st2 =>
      rw [List.cons_append, scanRun_cons_inl h1, scanRun_cons_inl h1, ih st2]
      cases h2 : scanRun sc ec xs st2 with
      | inl st3 =>
        dsimp only
        cases h3 : scanRun sc ec ys st3 with
        | inl st4 => rfl
        | inr k => simp only [List.length_cons, Nat.add_assoc]
      | inr k => rfl

/-- Characters that the scan passes over without touching its state (outside
of strings): not a quote, not a backslash, not the start or end character. -/
def scanSafeChar (sc ec c : Char) : Prop := c ≠ '"' ∧ c ≠ '\\' ∧ c ≠ sc ∧ c ≠ ec

theorem scanChar_safe {sc ec c : Char} (h : scanSafeChar sc ec c) (d : Int) :
    scanChar sc ec ⟨false, false, d⟩ c = .inl ⟨false, false, d⟩ := by
  simp [scanChar, h.1, h.2.1, h.2.2.1, h.2.2.2]

theorem scanRun_safe {sc ec : Char} :
    ∀ l : List Char, (∀ c ∈ l, scanSafeChar sc ec c) → ∀ d : Int,
      scanRun sc ec l ⟨false, false, d⟩ = .inl ⟨false, false, d⟩ := by
  intro l
  induction l with
  | nil => intro _ d; rfl
  | cons c cs ih =>
    intro h d
    exact scanRun_cons_of (scanChar_safe (h c (List.mem_cons_self c cs)) d)
      (ih (fun x hx => h x (List.mem_cons_of_mem c hx)) d)

/-- A successful string-body parse consumes a prefix; that prefix can be
followed by anything, and scanning it from the inside-string state returns
to the outside-string state at the same depth without firing. -/
theorem parseStringBody_spec :
    ∀ cs rest, parseStringBody cs = some rest →
      ∃ consumed, cs = consumed ++ rest ∧
        (∀ t, parseStringBody (cs ++ t) = some (rest ++ t)) ∧
        ∀ sc ec : Char, ∀ d : Int,
          scanRun sc ec consumed ⟨true, false, d⟩ = .inl ⟨false, false, d⟩ := by
  intro cs
  induction cs using parseStringBody.induct with
  | case1 =>
    intro rest h
    simp [parseStringBody_nil] at h
  | case2 t =>
    intro rest h
    simp [parseStringBody_cons] at h
    subst h
    refine ⟨['"'], rfl, fun t' => by simp [parseStringBody_cons], fun sc ec d => ?_⟩
    exact scanRun_cons_of (scanChar_quote rfl) rfl
  | case3 =>
    intro rest h
    simp [parseStringBody_cons, parseStringBody_nil] at h
  | case4 h1 h2 h3 h4 cs3 hhex _ ih =>
    intro rest h
    rw [show parseStringBody ('\\' :: 'u' :: h1 :: h2 :: h3 :: h4 :: cs3)
        = parseStringBody cs3 by simp [parseStringBody_cons, hhex]] at h
    obtain ⟨consumed, hdec, happ, hscan⟩ := ih rest h
    have hx1 := Bool.and_elim_left (Bool.and_elim_left (Bool.and_elim_left hhex))
    have hx2 := Bool.and_elim_right (Bool.and_elim_left (Bool.and_elim_left hhex))
    have hx3 := Bool.and_elim_right (Bool.and_elim_left hhex)
    have hx4 := Bool.and_elim_right hhex
    refine ⟨'\\' :: 'u' :: h1 :: h2 :: h3 :: h4 :: consumed, by simp [hdec], ?_, ?_⟩
    · intro t
      simp only [List.cons_append]
      rw [show parseStringBody ('\\' :: 'u' :: h1 :: h2 :: h3 :: h4 :: (cs3 ++ t))
          = parseStringBody (cs3 ++ t) by simp [parseStringBody_cons, hhex]]
      exact happ t
    · intro sc ec d
      refine scanRun_cons_of (scanChar_esc_set rfl) ?_
      refine scanRun_cons_of (scanChar_esc_clear rfl) ?_
      refine scanRun_cons_of (scanChar_inStr (isHexDigit_ne_quote hx1) (isHexDigit_ne_bslash hx1)) ?_
      refine scanRun_cons_of (scanChar_inStr (isHexDigit_ne_quote hx2) (isHexDigit_ne_bslash hx2)) ?_
      refine scanRun_cons_of (scanChar_inStr (isHexDigit_ne_quote hx3) (isHexDigit_ne_bslash hx3)) ?_
      refine scanRun_cons_of (scanChar_inStr (isHexDigit_ne_quote hx4) (isHexDigit_ne_bslash hx4)) ?_
      exact hscan sc ec d
  | case5 h1 h2 h3 h4 cs3 hhex =>
    intro rest h
    simp [parseStringBody_cons, hhex] at h
  | case6 t _ hshort =>
    intro rest h
    rcases t with _ | ⟨a, _ | ⟨b, _ | ⟨c2, _ | ⟨d2, t4⟩⟩⟩⟩
    · simp [parseStringBody_cons] at h
    · simp [parseStringBody_cons] at h
    · simp [parseStringBody_cons] at h
    · simp [parseStringBody_cons] at h
    · exact absurd rfl (fun heq => hshort a b c2 d2 t4 heq)
  | case7 e t hne hesc _ ih =>
    intro rest h
    rw [show parseStringBody ('\\' :: e :: t) = parseStringBody t by
      simp [parseStringBody_cons, hne, hesc]] at h
    obtain ⟨consumed, hdec, happ, hscan⟩ := ih rest h
    refine ⟨'\\' :: e :: consumed, by simp [hdec], ?_, ?_⟩
    · intro t'
      simp only [List.cons_append]
      rw [show parseStringBody ('\\' :: e :: (t ++ t')) = parseStringBody (t ++ t') by
        simp [parseStringBody_cons, hne, hesc]]
      exact happ t'
    · intro sc ec d
      refine scanRun_cons_of (scanChar_esc_set rfl) ?_
      refine scanRun_cons_of (scanChar_esc_clear rfl) ?_
      exact hscan sc ec d
  | case8 e t hne hesc =>
    intro rest h
    simp [parseStringBody_cons, hne, hesc] at h
  | case9 c t hq hb hctl =>
    intro rest h
    simp [parseStringBody_cons, hq, hb, hctl] at h
  | case10 c t hq hb hctl ih =>
    intro rest h
    rw [show parseStringBody (c :: t) = parseStringBody t by
      simp [parseStringBody_cons, hq, hb, hctl]] at h
    obtain ⟨consumed, hdec, happ, hscan⟩ := ih rest h
    refine ⟨c :: consumed, by simp [hdec], ?_, ?_⟩
    · intro t'
      simp only [List.cons_append]
      rw [show parseStringBody (c :: (t ++ t')) = parseStringBody (t ++ t') by
        simp [parseStringBody_cons, hq, hb, hctl]]
      exact happ t'
    · intro sc ec d
      exact scanRun_cons_of (scanChar_inStr hq hb) (hscan sc ec d)

/-! ## Extractor lemmas: number tokens -/

/-- The characters that can occur in a JSON number token. -/
def numTokenChar (c : Char) : Bool :=
  c.isDigit || c == '-' || c == '+' || c == '.' || c == 'e' || c == 'E'

theorem dropWhile_append_ne {p : Char → Bool} {l : List Char} (t : List Char)
    (h : l.dropWhile p ≠ []) : (l ++ t).dropWhile p = l.dropWhile p ++ t := by
  rw [List.dropWhile_append, if_neg (by simpa [List.isEmpty_iff] using h)]

theorem numTokenChar_digit {c : Char} (h : c.isDigit = true) : numTokenChar c = true := by
  simp [numTokenChar, h]

theorem numTokenChar_eE {e : Char} (he : (e = 'e' || e = 'E') = true) :
    numTokenChar e = true := by
  rcases Bool.or_eq_true_iff.mp he with h | h <;>
    rw [decide_eq_true_iff.mp h] <;> decide

theorem numTokenChar_sign {s : Char} (hs : (s = '+' || s = '-') = true) :
    numTokenChar s = true := by
  rcases Bool.or_eq_true_iff.mp hs with h | h <;>
    rw [decide_eq_true_iff.mp h] <;> decide

theorem parseExpPart_spec :
    ∀ r rest, parseExpPart r = some rest →
      ∃ consumed, r = consumed ++ rest ∧ (∀ x ∈ consumed, numTokenChar x = true) ∧
        (rest ≠ [] → ∀ t, parseExpPart (r ++ t) = some (rest ++ t)) := by
  intro r rest h
  cases r with
  | nil =>
    simp only [parseExpPart, Option.some.injEq] at h
    exact ⟨[], by simp [← h], by simp, fun hne _ => absurd h.symm hne⟩
  | cons e r2 =>
    by_cases he : (e = 'e' || e = 'E') = true
    · cases r2 with
      | nil => simp [parseExpPart, he] at h
      | cons s r4 =>
        by_cases hs : (s = '+' || s = '-') = true
        · cases r4 with
          | nil => simp [parseExpPart, he, hs] at h
          | cons c r5 =>
            by_cases hc : c.isDigit = true
            · rw [show parseExpPart (e :: s :: c :: r5)
                  = some (r5.dropWhile Char.isDigit) by
                simp [parseExpPart, he, hs, hc]] at h
              obtain rfl : r5.dropWhile Char.isDigit = rest := by simpa using h
              refine ⟨e :: s :: c :: r5.takeWhile Char.isDigit, ?_, ?_, ?_⟩
              · simp [List.takeWhile_append_dropWhile]
              · intro x hx
                simp only [List.mem_cons] at hx
                rcases hx with rfl | rfl | rfl | hx
                · exact numTokenChar_eE he
                · exact numTokenChar_sign hs
                · exact numTokenChar_digit hc
                · exact numTokenChar_digit (List.mem_takeWhile_imp hx)
              · intro hne t
                rw [show (e :: s :: c :: r5) ++ t = e :: s :: c :: (r5 ++ t) by simp]
                rw [show parseExpPart (e :: s :: c :: (r5 ++ t))
                    = some ((r5 ++ t).dropWhile Char.isDigit) by
                  simp [parseExpPart, he, hs, hc]]
                rw [dropWhile_append_ne t hne]
            · simp [parseExpPart, he, hs, hc] at h
        · by_cases hsd : s.isDigit = true
          · rw [show parseExpPart (e :: s :: r4)
                = some (r4.dropWhile Char.isDigit) by
              simp [parseExpPart, he, hs, hsd]] at h
            obtain rfl : r4.dropWhile Char.isDigit = rest := by simpa using h
            refine ⟨e :: s :: r4.takeWhile Char.isDigit, ?_, ?_, ?_⟩
            · simp [List.takeWhile_append_dropWhile]
            · intro x hx
              simp only [List.mem_cons] at hx
              rcases hx with rfl | rfl | hx
              · exact numTokenChar_eE he
              · exact numTokenChar_digit hsd
              · exact numTokenChar_digit (List.mem_takeWhile_imp hx)
            · intro hne t
              rw [show (e :: s :: r4) ++ t = e :: s :: (r4 ++ t) by simp]
              rw [show parseExpPart (e :: s :: (r4 ++ t))
                  = some ((r4 ++ t).dropWhile Char.isDigit) by
                simp [parseExpPart, he, hs, hsd]]
              rw [dropWhile_append_ne t hne]
          · simp [parseExpPart, he, hs, hsd] at h
    · rw [show parseExpPart (e :: r2) = some (e :: r2) by simp [parseExpPart, he]] at h
      obtain rfl : e :: r2 = rest := by simpa using h
      refine ⟨[], rfl, by simp, fun _ t => ?_⟩
      rw [show (e :: r2) ++ t = e :: (r2 ++ t) by simp]
      rw [show parseExpPart (e :: (r2 ++ t)) = some (e :: (r2 ++ t)) by
        simp [parseExpPart, he]]

theorem parseFracExp_spec :
    ∀ cs rest, parseFracExp cs = some rest →
      ∃ consumed, cs = consumed ++ rest ∧ (∀ x ∈ consumed, numTokenChar x = true) ∧
        (rest ≠ [] → ∀ t, parseFracExp (cs ++ t) = some (rest ++ t)) := by
  intro cs rest h
  cases cs with
  | nil =>
    simp only [parseFracExp, Option.some.injEq] at h
    exact ⟨[], by simp [← h], by simp, fun hne _ => absurd h.symm hne⟩
  | cons c r =>
    by_cases hdot : c = '.'
    · cases r with
      | nil => simp [parseFracExp, hdot] at h
      | cons d r2 =>
        by_cases hd : d.isDigit = true
        · rw [show parseFracExp (c :: d :: r2) = parseExpPart (r2.dropWhile Char.isDigit) by
            simp [parseFracExp, hdot, hd]] at h
          obtain ⟨consumedE, hdecE, hcharsE, happE⟩ := parseExpPart_spec _ _ h
          refine ⟨c :: d :: (r2.takeWhile Char.isDigit ++ consumedE), ?_, ?_, ?_⟩
          · have hr2 : r2 = r2.takeWhile Char.isDigit ++ (consumedE ++ rest) := by
              rw [← hdecE]
              exact (List.takeWhile_append_dropWhile _ _).symm
            conv_lhs => rw [hr2]
            simp
          · intro x hx
            simp only [List.mem_cons, List.mem_append] at hx
            rcases hx with rfl | rfl | hx | hx
            · rw [hdot]; decide
            · exact numTokenChar_digit hd
            · exact numTokenChar_digit (List.mem_takeWhile_imp hx)
            · exact hcharsE x hx
          · intro hne t
            rw [show (c :: d :: r2) ++ t = c :: d :: (r2 ++ t) by simp]
            rw [show parseFracExp (c :: d :: (r2 ++ t))
                = parseExpPart ((r2 ++ t).dropWhile Char.isDigit) by
              simp [parseFracExp, hdot, hd]]
            have hdw : r2.dropWhile Char.isDigit ≠ [] := by
              rw [hdecE]
              intro hc
              exact hne (List.append_eq_nil.mp hc).2
            rw [dropWhile_append_ne t hdw]
            exact happE hne t
        · simp [parseFracExp, hdot, hd] at h
    · rw [show parseFracExp (c :: r) = parseExpPart (c :: r) by
        simp [parseFracExp, hdot]] at h
      obtain ⟨consumedE, hdecE, hcharsE, happE⟩ := parseExpPart_spec _ _ h
      refine ⟨consumedE, hdecE, hcharsE, fun hne t => ?_⟩
      rw [show (c :: r) ++ t = c :: (r ++ t) by simp]
      rw [show parseFracExp (c :: (r ++ t)) = parseExpPart (c :: (r ++ t)) by
        simp [parseFracExp, hdot]]
      rw [show (c : Char) :: (r ++ t) = (c :: r) ++ t by simp]
      exact happE hne t

theorem numTail_spec :
    ∀ cs rest, numTail cs = some rest →
      ∃ consumed, cs = consumed ++ rest ∧ (∀ x ∈ consumed, numTokenChar x = true) ∧
        (rest ≠ [] → ∀ t, numTail (cs ++ t) = some (rest ++ t)) := by
  intro cs rest h
  cases cs with
  | nil => simp [numTail] at h
  | cons c r =>
    by_cases h0 : c = '0'
    · rw [show numTail (c :: r) = parseFracExp r by simp [numTail, h0]] at h
      obtain ⟨consumedF, hdecF, hcharsF, happF⟩ := parseFracExp_spec _ _ h
      refine ⟨c :: consumedF, by simp [hdecF], ?_, fun hne t => ?_⟩
      · intro x hx
        simp only [List.mem_cons] at hx
        rcases hx with rfl | hx
        · rw [h0]; decide
        · exact hcharsF x hx
      · rw [show (c :: r) ++ t = c :: (r ++ t) by simp]
        rw [show numTail (c :: (r ++ t)) = parseFracExp (r ++ t) by simp [numTail, h0]]
        exact happF hne t
    · by_cases hd : c.isDigit = true
      · rw [show numTail (c :: r) = parseFracExp (r.dropWhile Char.isDigit) by
          simp [numTail, h0, hd]] at h
        obtain ⟨consumedF, hdecF, hcharsF, happF⟩ := parseFracExp_spec _ _ h
        refine ⟨c :: (r.takeWhile Char.isDigit ++ consumedF), ?_, ?_, fun hne t => ?_⟩
        · have hr : r = r.takeWhile Char.isDigit ++ (consumedF ++ rest) := by
            rw [← hdecF]
            exact (List.takeWhile_append_dropWhile _ _).symm
          conv_lhs => rw [hr]
          simp
        · intro x hx
          simp only [List.mem_cons, List.mem_append] at hx
          rcases hx with rfl | hx | hx
          · exact numTokenChar_digit hd
          · exact numTokenChar_digit (List.mem_takeWhile_imp hx)
          · exact hcharsF x hx
        · have hdw : r.dropWhile Char.isDigit ≠ [] := by
            rw [hdecF]
            intro hc
            exact hne (List.append_eq_nil.mp hc).2
          rw [show (c :: r) ++ t = c :: (r ++ t) by simp]
          rw [show numTail (c :: (r ++ t)) = parseFracExp ((r ++ t).dropWhile Char.isDigit) by
            simp [numTail, h0, hd]]
          rw [dropWhile_append_ne t hdw]
          exact happF hne t
      · simp [numTail, h0, hd] at h

theorem parseNumber_spec :
    ∀ cs rest, parseNumber cs = some rest →
      ∃ consumed, cs = consumed ++ rest ∧ (∀ x ∈ consumed, numTokenChar x = true) ∧
        (rest ≠ [] → ∀ t, parseNumber (cs ++ t) = some (rest ++ t)) := by
  intro cs rest h
  cases cs with
  | nil => simp [parseNumber] at h
  | cons c r =>
    by_cases hm : c = '-'
    · rw [show parseNumber (c :: r) = numTail r by simp [parseNumber, hm]] at h
      obtain ⟨consumedN, hdecN, hcharsN, happN⟩ := numTail_spec _ _ h
      refine ⟨c :: consumedN, by simp [hdecN], ?_, fun hne t => ?_⟩
      · intro x hx
        simp only [List.mem_cons] at hx
        rcases hx with rfl | hx
        · rw [hm]; decide
        · exact hcharsN x hx
      · rw [show (c :: r) ++ t = c :: (r ++ t) by simp]
        rw [show parseNumber (c :: (r ++ t)) = numTail (r ++ t) by simp [parseNumber, hm]]
        exact happN hne t
    · rw [show parseNumber (c :: r) = numTail (c :: r) by simp [parseNumber, hm]] at h
      obtain ⟨consumedN, hdecN, hcharsN, happN⟩ := numTail_spec _ _ h
      refine ⟨consumedN, hdecN, hcharsN, fun hne t => ?_⟩
      rw [show (c :: r) ++ t = c :: (r ++ t) by simp]
      rw [show parseNumber (c :: (r ++ t)) = numTail (c :: (r ++ t)) by simp [parseNumber, hm]]
      rw [show (c : Char) :: (r ++ t) = (c :: r) ++ t by simp]
      exact happN hne t

/-! ## Extractor lemmas: unfolding the JSON recognizer -/

theorem parseRun_zero (mode : JsonMode) (cs : List Char) : parseRun 0 mode cs = none := by
  cases mode <;> rfl

theorem parseRun_value (fuel : Nat) (cs : List Char) :
    parseRun (fuel + 1) .value cs =
      match skipWs cs with
      | [] => none
      | c :: cs1 =>
        if c = '{' then parseRun fuel .members cs1
        else if c = '[' then parseRun fuel .elements cs1
        else if c = '"' then parseStringBody cs1
        else if c = 't' then expectSeq ['r', 'u', 'e'] cs1
        else if c = 'f' then expectSeq ['a', 'l', 's', 'e'] cs1
        else if c = 'n' then expectSeq ['u', 'l', 'l'] cs1
        else if c = '-' || c.isDigit then parseNumber (c :: cs1)
        else none := by
  rw [parseRun.eq_def]

theorem parseRun_members (fuel : Nat) (cs : List Char) :
    parseRun (fuel + 1) .members cs =
      match skipWs cs with
      | [] => none
      | c :: cs1 =>
        if c = '}' then some cs1
        else if c = '"' then
          match parseStringBody cs1 with
          | none => none
          | some cs2 =>
            match skipWs cs2 with
            | [] => none
            | c2 :: cs3 =>
              if c2 = ':' then
                match parseRun fuel .value cs3 with
                | none => none
                | some cs4 => parseRun fuel .membersTail cs4
              else none
        else none := by
  rw [parseRun.eq_def]

theorem parseRun_membersTail (fuel : Nat) (cs : List Char) :
    parseRun (fuel + 1) .membersTail cs =
      match skipWs cs with
      | [] => none
      | c :: cs1 =>
        if c = '}' then some cs1
        else if c = ',' then
          match skipWs cs1 with
          | [] => none
          | c2 :: cs2 =>
            if c2 = '"' then
              match parseStringBody cs2 with
              | none => none
              | some cs3 =>
                match skipWs cs3 with
                | [] => none
                | c3 :: cs4 =>
                  if c3 = ':' then
                    match parseRun fuel .value cs4 with
                    | none => none
                    | some cs5 => parseRun fuel .membersTail cs5
                  else none
            else none
        else none := by
  rw [parseRun.eq_def]

theorem parseRun_elements (fuel : Nat) (cs : List Char) :
    parseRun (fuel + 1) .elements cs =
      match skipWs cs with
      | [] => none
      | c :: cs1 =>
        if c = ']' then some cs1
        else
          match parseRun fuel .value cs with
          | none => none
          | some cs2 => parseRun fuel .elementsTail cs2 := by
  rw [parseRun.eq_def]

theorem parseRun_elementsTail (fuel : Nat) (cs : List Char) :
    parseRun (fuel + 1) .elementsTail cs =
      match skipWs cs with
      | [] => none
      | c :: cs1 =>
        if c = ']' then some cs1
        else if c = ',' then
          match parseRun fuel .value cs1 with
          | none => none
          | some cs2 => parseRun fuel .elementsTail cs2
        else none := by
  rw [parseRun.eq_def]

theorem membersTail_skip_ne {fuel : Nat} {cs rest : List Char}
    (h : parseRun fuel .membersTail cs = some rest) : skipWs cs ≠ [] := by
  cases fuel with
  | zero => rw [parseRun_zero] at h; cases h
  | succ f =>
    rw [parseRun_membersTail] at h
    intro hx
    rw [hx] at h
    cases h

theorem elementsTail_skip_ne {fuel : Nat} {cs rest : List Char}
    (h : parseRun fuel .elementsTail cs = some rest) : skipWs cs ≠ [] := by
  cases fuel with
  | zero => rw [parseRun_zero] at h; cases h
  | succ f =>
    rw [parseRun_elementsTail] at h
    intro hx
    rw [hx] at h
    cases h

theorem membersTail_src_ne_nil {fuel : Nat} {cs rest : List Char}
    (h : parseRun fuel .membersTail cs = some rest) : cs ≠ [] := fun hx =>
  membersTail_skip_ne h (by rw [hx]; rfl)

theorem elementsTail_src_ne_nil {fuel : Nat} {cs rest : List Char}
    (h : parseRun fuel .elementsTail cs = some rest) : cs ≠ [] := fun hx =>
  elementsTail_skip_ne h (by rw [hx]; rfl)

theorem skipWs_append_cons {cs : List Char} {c : Char} {cs1 : List Char} (t : List Char)
    (h : skipWs cs = c :: cs1) : skipWs (cs ++ t) = c :: (cs1 ++ t) := by
  rw [skipWs_append t (by rw [h]; exact List.cons_ne_nil c cs1), h]
  rfl

/-- A successful parse is insensitive to what follows the input, with any
amount of fuel at least the original: appending a suffix appends it to the
returned remainder. For a bare value the remainder must be nonempty (a
number token at the very end of input could otherwise absorb part of the
suffix); object and array bodies always end at their closing delimiter, so
no side condition is needed for them. -/
theorem parseRun_extend :
    ∀ fuel fuel2 mode cs rest t, fuel ≤ fuel2 →
      parseRun fuel mode cs = some rest →
      (mode = JsonMode.value → rest ≠ []) →
      parseRun fuel2 mode (cs ++ t) = some (rest ++ t) := by
  intro fuel
  induction fuel with
  | zero =>
    intro f2 mode cs rest t _ h _
    rw [parseRun_zero] at h
    cases h
  | succ f ih =>
    intro f2 mode cs rest t hle h hval
    obtain ⟨f2', rfl⟩ : ∃ g, f2 = g + 1 := ⟨f2 - 1, by omega⟩
    have hle' : f ≤ f2' := by omega
    cases mode with
    | value =>
      rw [parseRun_value] at h
      cases hsk : skipWs cs with
      | nil => rw [hsk] at h; cases h
      | cons c cs1 =>
        simp only [hsk] at h
        rw [parseRun_value, skipWs_append_cons t hsk]
        by_cases h1 : c = '{'
        · simp only [if_pos h1] at h ⊢
          exact ih f2' .members cs1 rest t hle' h (fun hx => by cases hx)
        · simp only [if_neg h1] at h ⊢
          by_cases h2 : c = '['
          · simp only [if_pos h2] at h ⊢
            exact ih f2' .elements cs1 rest t hle' h (fun hx => by cases hx)
          · simp only [if_neg h2] at h ⊢
            by_cases h3 : c = '"'
            · simp only [if_pos h3] at h ⊢
              obtain ⟨_, _, happ, _⟩ := parseStringBody_spec cs1 rest h
              exact happ t
            · simp only [if_neg h3] at h ⊢
              by_cases h4 : c = 't'
              · simp only [if_pos h4] at h ⊢
                exact expectSeq_append _ cs1 rest t h
              · simp only [if_neg h4] at h ⊢
                by_cases h5 : c = 'f'
                · simp only [if_pos h5] at h ⊢
                  exact expectSeq_append _ cs1 rest t h
                · simp only [if_neg h5] at h ⊢
                  by_cases h6 : c = 'n'
                  · simp only [if_pos h6] at h ⊢
                    exact expectSeq_append _ cs1 rest t h
                  · simp only [if_neg h6] at h ⊢
                    by_cases h7 : (c = '-' || c.isDigit) = true
                    · simp only [if_pos h7] at h ⊢
                      obtain ⟨_, _, _, happ⟩ := parseNumber_spec _ _ h
                      exact happ (hval rfl) t
                    · rw [if_neg h7] at h
                      cases h
    | members =>
      rw [parseRun_members] at h
      cases hsk : skipWs cs with
      | nil => rw [hsk] at h; cases h
      | cons c cs1 =>
        simp only [hsk] at h
        rw [parseRun_members, skipWs_append_cons t hsk]
        by_cases h1 : c = '}'
        · simp only [if_pos h1] at h ⊢
          obtain rfl : cs1 = rest := by simpa using h
          rfl
        · simp only [if_neg h1] at h ⊢
          by_cases h2 : c = '"'
          · simp only [if_pos h2] at h ⊢
            cases hsb : parseStringBody cs1 with
            | none => rw [hsb] at h; cases h
            | some cs2 =>
              simp only [hsb] at h
              obtain ⟨_, _, happS, _⟩ := parseStringBody_spec cs1 cs2 hsb
              simp only [happS t]
              cases hsk2 : skipWs cs2 with
              | nil => rw [hsk2] at h; cases h
              | cons c2 cs3 =>
                simp only [hsk2] at h
                rw [skipWs_append_cons t hsk2]
                by_cases h3 : c2 = ':'
                · simp only [if_pos h3] at h ⊢
                  cases hv : parseRun f .value cs3 with
                  | none => rw [hv] at h; cases h
                  | some cs4 =>
                    simp only [hv] at h
                    have hcs4 : cs4 ≠ [] := membersTail_src_ne_nil h
                    rw [ih f2' .value cs3 cs4 t hle' hv (fun _ => hcs4)]
                    exact ih f2' .membersTail cs4 rest t hle' h (fun hx => by cases hx)
                · rw [if_neg h3] at h
                  cases h
          · rw [if_neg h2] at h
            cases h
    | membersTail =>
      rw [parseRun_membersTail] at h
      cases hsk : skipWs cs with
      | nil => rw [hsk] at h; cases h
      | cons c cs1 =>
        simp only [hsk] at h
        rw [parseRun_membersTail, skipWs_append_cons t hsk]
        by_cases h1 : c = '}'
        · simp only [if_pos h1] at h ⊢
          obtain rfl : cs1 = rest := by simpa using h
          rfl
        · simp only [if_neg h1] at h ⊢
          by_cases h2 : c = ','
          · simp only [if_pos h2] at h ⊢
            cases hsk1 : skipWs cs1 with
            | nil => rw [hsk1] at h; cases h
            | cons c2 cs2 =>
              simp only [hsk1] at h
              rw [skipWs_append_cons t hsk1]
              by_cases h3 : c2 = '"'
              · simp only [if_pos h3] at h ⊢
                cases hsb : parseStringBody cs2 with
                | none => rw [hsb] at h; cases h
                | some cs3 =>
                  simp only [hsb] at h
                  obtain ⟨_, _, happS, _⟩ := parseStringBody_spec cs2 cs3 hsb
                  simp only [happS t]
                  cases hsk3 : skipWs cs3 with
                  | nil => rw [hsk3] at h; cases h
                  | cons c3 cs4 =>
                    simp only [hsk3] at h
                    rw [skipWs_append_cons t hsk3]
                    by_cases h4 : c3 = ':'
                    · simp only [if_pos h4] at h ⊢
                      cases hv : parseRun f .value cs4 with
                      | none => rw [hv] at h; cases h
                      | some cs5 =>
                        simp only [hv] at h
                        have hcs5 : cs5 ≠ [] := membersTail_src_ne_nil h
                        rw [ih f2' .value cs4 cs5 t hle' hv (fun _ => hcs5)]
                        exact ih f2' .membersTail cs5 rest t hle' h (fun hx => by cases hx)
                    · rw [if_neg h4] at h
                      cases h
              · rw [if_neg h3] at h
                cases h
          · rw [if_neg h2] at h
            cases h
    | elements =>
      rw [parseRun_elements] at h
      cases hsk : skipWs cs with
      | nil => rw [hsk] at h; cases h
      | cons c cs1 =>
        simp only [hsk] at h
        rw [parseRun_elements, skipWs_append_cons t hsk]
        by_cases h1 : c = ']'
        · simp only [if_pos h1] at h ⊢
          obtain rfl : cs1 = rest := by simpa using h
          rfl
        · simp only [if_neg h1] at h ⊢
          cases hv : parseRun f .value cs with
          | none => rw [hv] at h; cases h
          | some cs2 =>
            simp only [hv] at h
            have hcs2 : cs2 ≠ [] := elementsTail_src_ne_nil h
            rw [ih f2' .value cs cs2 t hle' hv (fun _ => hcs2)]
            exact ih f2' .elementsTail cs2 rest t hle' h (fun hx => by cases hx)
    | elementsTail =>
      rw [parseRun_elementsTail] at h
      cases hsk : skipWs cs with
      | nil => rw [hsk] at h; cases h
      | cons c cs1 =>
        simp only [hsk] at h
        rw [parseRun_elementsTail, skipWs_append_cons t hsk]
        by_cases h1 : c = ']'
        · simp only [if_pos h1] at h ⊢
          obtain rfl : cs1 = rest := by simpa using h
          rfl
        · simp only [if_neg h1] at h ⊢
          by_cases h2 : c = ','
          · simp only [if_pos h2] at h ⊢
            cases hv : parseRun f .value cs1 with
            | none => rw [hv] at h; cases h
            | some cs2 =>
              simp only [hv] at h
              have hcs2 : cs2 ≠ [] := elementsTail_src_ne_nil h
              rw [ih f2' .value cs1 cs2 t hle' hv (fun _ => hcs2)]
              exact ih f2' .elementsTail cs2 rest t hle' h (fun hx => by cases hx)
          · rw [if_neg h2] at h
            cases h

/-! ## Extractor lemmas: what a successful top-level parse must look like -/

/-- Characters that can occur in a keyword (`true`/`false`/`null`) or number
token. -/
def kwNumChar (c : Char) : Bool :=
  numTokenChar c || c == 't' || c == 'r' || c == 'u' || c == 'f' || c == 'a' || c == 'l' ||
    c == 's' || c == 'n'

/-- A successful value parse starts, after whitespace, with `{`, `[`, `"`, or
a keyword/number token that is consumed entirely. -/
theorem parseValue_dispatch {fuel : Nat} {cs rest : List Char}
    (h : parseRun fuel .value cs = some rest) :
    ∃ c cs1, skipWs cs = c :: cs1 ∧
      (c = '{' ∨ c = '[' ∨ c = '"' ∨
        ∃ consumed, c :: cs1 = consumed ++ rest ∧ ∀ x ∈ consumed, kwNumChar x = true) := by
  cases fuel with
  | zero => rw [parseRun_zero] at h; cases h
  | succ f =>
    rw [parseRun_value] at h
    cases hsk : skipWs cs with
    | nil => rw [hsk] at h; cases h
    | cons c cs1 =>
      simp only [hsk] at h
      refine ⟨c, cs1, rfl, ?_⟩
      by_cases h1 : c = '{'
      · exact Or.inl h1
      simp only [if_neg h1] at h
      by_cases h2 : c = '['
      · exact Or.inr (Or.inl h2)
      simp only [if_neg h2] at h
      by_cases h3 : c = '"'
      · exact Or.inr (Or.inr (Or.inl h3))
      simp only [if_neg h3] at h
      refine Or.inr (Or.inr (Or.inr ?_))
      by_cases h4 : c = 't'
      · simp only [if_pos h4] at h
        have heq := expectSeq_eq _ _ _ h
        refine ⟨'t' :: ['r', 'u', 'e'], ?_, by decide⟩
        subst h4
        simp [heq]
      simp only [if_neg h4] at h
      by_cases h5 : c = 'f'
      · simp only [if_pos h5] at h
        have heq := expectSeq_eq _ _ _ h
        refine ⟨'f' :: ['a', 'l', 's', 'e'], ?_, by decide⟩
        subst h5
        simp [heq]
      simp only [if_neg h5] at h
      by_cases h6 : c = 'n'
      · simp only [if_pos h6] at h
        have heq := expectSeq_eq _ _ _ h
        refine ⟨'n' :: ['u', 'l', 'l'], ?_, by decide⟩
        subst h6
        simp [heq]
      simp only [if_neg h6] at h
      by_cases h7 : (c = '-' || c.isDigit) = true
      · simp only [if_pos h7] at h
        obtain ⟨consumed, hdec, hchars, _⟩ := parseNumber_spec _ _ h
        exact ⟨consumed, hdec, fun x hx => by simp [kwNumChar, hchars x hx]⟩
      · rw [if_neg h7] at h
        cases h

/-- If the input contains a character that is not JSON whitespace and cannot
occur in a keyword or number token, and the first non-whitespace character is
not an opener or a quote, then `JSON.parse` rejects the input. -/
theorem jsonParses_eq_false {cs : List Char} {x : Char} (hx : x ∈ cs)
    (hxws : isJsonWs x = false) (hxkw : kwNumChar x = false)
    (hdis : ∀ c cs1, skipWs cs = c :: cs1 → c ≠ '{' ∧ c ≠ '[' ∧ c ≠ '"') :
    jsonParses cs = false := by
  unfold jsonParses
  cases hp : parseRun (cs.length + 1) .value cs with
  | none => rfl
  | some rest =>
    obtain ⟨c, cs1, hsk, hcase⟩ := parseValue_dispatch hp
    obtain ⟨hn1, hn2, hn3⟩ := hdis c cs1 hsk
    rcases hcase with h | h | h | ⟨consumed, hdec, hchars⟩
    · exact absurd h hn1
    · exact absurd h hn2
    · exact absurd h hn3
    · obtain ⟨wsp, hw, hwall⟩ := skipWs_decomp cs
      rw [hsk] at hw
      rw [hdec] at hw
      have hxrest : x ∈ rest := by
        have hx2 : x ∈ wsp ++ (consumed ++ rest) := by rwa [hw] at hx
        rcases List.mem_append.mp hx2 with hxw | hx3
        · exact absurd (hwall x hxw) (by simp [hxws])
        · rcases List.mem_append.mp hx3 with hxc | hxr
          · exact absurd (hchars x hxc) (by simp [hxkw])
          · exact hxr
      have hne := skipWs_ne_nil hxrest hxws
      simp [List.isEmpty_iff, hne]

/-! ## Extractor lemmas: the scan is neutral across a parsed value -/

/-- The two start/end character pairs the source scan can use. -/
def scPair (sc ec : Char) : Prop := (sc = '{' ∧ ec = '}') ∨ (sc = '[' ∧ ec = ']')

theorem scanSafe_of_ws {sc ec c : Char} (hp : scPair sc ec) (h : isJsonWs c = true) :
    scanSafeChar sc ec c := by
  rcases hp with ⟨rfl, rfl⟩ | ⟨rfl, rfl⟩ <;>
    rcases isJsonWs_cases h with rfl | rfl | rfl | rfl <;>
      exact ⟨by decide, by decide, by decide, by decide⟩

theorem scanSafe_of_kwNum {sc ec c : Char} (hp : scPair sc ec) (h : kwNumChar c = true) :
    scanSafeChar sc ec c := by
  rcases hp with ⟨rfl, rfl⟩ | ⟨rfl, rfl⟩ <;>
    exact ⟨char_pred_ne h (by decide), char_pred_ne h (by decide),
      char_pred_ne h (by decide), char_pred_ne h (by decide)⟩

theorem scanSafe_colon {sc ec : Char} (hp : scPair sc ec) : scanSafeChar sc ec ':' := by
  rcases hp with ⟨rfl, rfl⟩ | ⟨rfl, rfl⟩ <;>
    exact ⟨by decide, by decide, by decide, by decide⟩

theorem scanSafe_comma {sc ec : Char} (hp : scPair sc ec) : scanSafeChar sc ec ',' := by
  rcases hp with ⟨rfl, rfl⟩ | ⟨rfl, rfl⟩ <;>
    exact ⟨by decide, by decide, by decide, by decide⟩

theorem scanRun_ws {sc ec : Char} (hp : scPair sc ec) {wsp : List Char}
    (hall : ∀ x ∈ wsp, isJsonWs x = true) (d : Int) :
    scanRun sc ec wsp ⟨false, false, d⟩ = .inl ⟨false, false, d⟩ :=
  scanRun_safe wsp (fun c hc => scanSafe_of_ws hp (hall c hc)) d

theorem scanRun_inl_append {sc ec : Char} {xs ys : List Char} {st st1 st2 : ScanSt}
    (h1 : scanRun sc ec xs st = .inl st1) (h2 : scanRun sc ec ys st1 = .inl st2) :
    scanRun sc ec (xs ++ ys) st = .inl st2 := by
  rw [scanRun_append]
  simp only [h1, h2]

/-- Scanning an opener, a neutral interior, and the matching closer from any
depth at least 1 returns to the same depth without firing. -/
theorem scanRun_container {sc ec : Char} (hp : scPair sc ec) (opener closer : Char)
    (hoc : (opener = '{' ∧ closer = '}') ∨ (opener = '[' ∧ closer = ']'))
    (interior : List Char)
    (hint : ∀ d : Int, 1 ≤ d → scanRun sc ec interior ⟨false, false, d⟩ = .inl ⟨false, false, d⟩) :
    ∀ d : Int, 1 ≤ d →
      scanRun sc ec (opener :: (interior ++ [closer])) ⟨false, false, d⟩
        = .inl ⟨false, false, d⟩ := by
  intro d hd
  rcases hp with ⟨rfl, rfl⟩ | ⟨rfl, rfl⟩ <;> rcases hoc with ⟨rfl, rfl⟩ | ⟨rfl, rfl⟩
  · refine scanRun_cons_of (by simp [scanChar]) (scanRun_inl_append (hint (d + 1) (by omega)) ?_)
    have hstep : scanChar '{' '}' ⟨false, false, d + 1⟩ '}' = .inl ⟨false, false, d⟩ := by
      simp [scanChar, show ¬(d + 1 - 1 = 0) from by omega, show ¬(d = 0) from by omega,
        show (d : Int) + 1 - 1 = d from by omega]
    exact scanRun_cons_of hstep rfl
  · exact scanRun_cons_of (scanChar_safe ⟨by decide, by decide, by decide, by decide⟩ d)
      (scanRun_inl_append (hint d hd)
        (scanRun_cons_of (scanChar_safe ⟨by decide, by decide, by decide, by decide⟩ d) rfl))
  · exact scanRun_cons_of (scanChar_safe ⟨by decide, by decide, by decide, by decide⟩ d)
      (scanRun_inl_append (hint d hd)
        (scanRun_cons_of (scanChar_safe ⟨by decide, by decide, by decide, by decide⟩ d) rfl))
  · refine scanRun_cons_of (by simp [scanChar]) (scanRun_inl_append (hint (d + 1) (by omega)) ?_)
    have hstep : scanChar '[' ']' ⟨false, false, d + 1⟩ ']' = .inl ⟨false, false, d⟩ := by
      simp [scanChar, show ¬(d + 1 - 1 = 0) from by omega, show ¬(d = 0) from by omega,
        show (d : Int) + 1 - 1 = d from by omega]
    exact scanRun_cons_of hstep rfl

theorem scanRun_string {sc ec : Char} {strC : List Char}
    (hstr : ∀ d : Int, scanRun sc ec strC ⟨true, false, d⟩ = .inl ⟨false, false, d⟩) (d : Int) :
    scanRun sc ec ('"' :: strC) ⟨false, false, d⟩ = .inl ⟨false, false, d⟩ :=
  scanRun_cons_of (scanChar_quote rfl) (hstr d)

/-- What the scan guarantees about the characters consumed by a successful
parse in each recognizer state: a bare value is depth-neutral at any depth
at least 1; an object or array body consists of a depth-neutral interior
followed by its closing delimiter. -/
def scanConsumedOk (mode : JsonMode) (consumed : List Char) : Prop :=
  match mode with
  | .value => ∀ sc ec : Char, scPair sc ec → ∀ d : Int, 1 ≤ d →
      scanRun sc ec consumed ⟨false, false, d⟩ = .inl ⟨false, false, d⟩
  | .members => ∃ interior, consumed = interior ++ ['}'] ∧
      ∀ sc ec : Char, scPair sc ec → ∀ d : Int, 1 ≤ d →
        scanRun sc ec interior ⟨false, false, d⟩ = .inl ⟨false, false, d⟩
  | .membersTail => ∃ interior, consumed = interior ++ ['}'] ∧
      ∀ sc ec : Char, scPair sc ec → ∀ d : Int, 1 ≤ d →
        scanRun sc ec interior ⟨false, false, d⟩ = .inl ⟨false, false, d⟩
  | .elements => ∃ interior, consumed = interior ++ [']'] ∧
      ∀ sc ec : Char, scPair sc ec → ∀ d : Int, 1 ≤ d →
        scanRun sc ec interior ⟨false, false, d⟩ = .inl ⟨false, false, d⟩
  | .elementsTail => ∃ interior, consumed = interior ++ [']'] ∧
      ∀ sc ec : Char, scPair sc ec → ∀ d : Int, 1 ≤ d →
        scanRun sc ec interior ⟨false, false, d⟩ = .inl ⟨false, false, d⟩

/-- A successful parse consumes a prefix of the input over which the
string-aware scan is depth-neutral (in the sense of `scanConsumedOk`). -/
theorem parseRun_scan :
    ∀ fuel mode cs rest, parseRun fuel mode cs = some rest →
      ∃ consumed, cs = consumed ++ rest ∧ scanConsumedOk mode consumed := by
  intro fuel
  induction fuel with
  | zero =>
    intro mode cs rest h
    rw [parseRun_zero] at h
    cases h
  | succ f ih =>
    intro mode cs rest h
    cases mode with
    | value =>
      rw [parseRun_value] at h
      cases hsk : skipWs cs with
      | nil => rw [hsk] at h; cases h
      | cons c cs1 =>
        simp only [hsk] at h
        obtain ⟨wsp, hw, hwall⟩ := skipWs_decomp cs
        rw [hsk] at hw
        by_cases h1 : c = '{'
        · simp only [if_pos h1] at h
          obtain ⟨consumedM, hdecM, hscM⟩ := ih .members cs1 rest h
          obtain ⟨interior, hintEq, hint⟩ := hscM
          refine ⟨wsp ++ (c :: consumedM), ?_, ?_⟩
          · rw [hw, hdecM]; simp
          · subst h1
            intro sc ec hp d hd
            refine scanRun_inl_append (scanRun_ws hp hwall d) ?_
            rw [hintEq]
            exact scanRun_container hp '{' '}' (Or.inl ⟨rfl, rfl⟩) interior
              (fun dd hdd => hint sc ec hp dd hdd) d hd
        · simp only [if_neg h1] at h
          by_cases h2 : c = '['
          · simp only [if_pos h2] at h
            obtain ⟨consumedE, hdecE, hscE⟩ := ih .elements cs1 rest h
            obtain ⟨interior, hintEq, hint⟩ := hscE
            refine ⟨wsp ++ (c :: consumedE), ?_, ?_⟩
            · rw [hw, hdecE]; simp
            · subst h2
              intro sc ec hp d hd
              refine scanRun_inl_append (scanRun_ws hp hwall d) ?_
              rw [hintEq]
              exact scanRun_container hp '[' ']' (Or.inr ⟨rfl, rfl⟩) interior
                (fun dd hdd => hint sc ec hp dd hdd) d hd
          · simp only [if_neg h2] at h
            by_cases h3 : c = '"'
            · simp only [if_pos h3] at h
              obtain ⟨strC, hdecS, _, hscanS⟩ := parseStringBody_spec cs1 rest h
              refine ⟨wsp ++ (c :: strC), ?_, ?_⟩
              · rw [hw, hdecS]; simp
              · subst h3
                intro sc ec hp d hd
                exact scanRun_inl_append (scanRun_ws hp hwall d)
                  (scanRun_string (fun dd => hscanS sc ec dd) d)
            · simp only [if_neg h3] at h
              by_cases h4 : c = 't'
              · simp only [if_pos h4] at h
                have heq := expectSeq_eq _ _ _ h
                refine ⟨wsp ++ (c :: ['r', 'u', 'e']), ?_, ?_⟩
                · rw [hw, heq]; simp
                · subst h4
                  intro sc ec hp d hd
                  refine scanRun_inl_append (scanRun_ws hp hwall d)
                    (scanRun_safe _ (fun x hx => scanSafe_of_kwNum hp ?_) d)
                  have : ∀ y ∈ 't' :: ['r', 'u', 'e'], kwNumChar y = true := by decide
                  exact this x hx
              · simp only [if_neg h4] at h
                by_cases h5 : c = 'f'
                · simp only [if_pos h5] at h
                  have heq := expectSeq_eq _ _ _ h
                  refine ⟨wsp ++ (c :: ['a', 'l', 's', 'e']), ?_, ?_⟩
                  · rw [hw, heq]; simp
                  · subst h5
                    intro sc ec hp d hd
                    refine scanRun_inl_append (scanRun_ws hp hwall d)
                      (scanRun_safe _ (fun x hx => scanSafe_of_kwNum hp ?_) d)
                    have : ∀ y ∈ 'f' :: ['a', 'l', 's', 'e'], kwNumChar y = true := by decide
                    exact this x hx
                · simp only [if_neg h5] at h
                  by_cases h6 : c = 'n'
                  · simp only [if_pos h6] at h
                    have heq := expectSeq_eq _ _ _ h
                    refine ⟨wsp ++ (c :: ['u', 'l', 'l']), ?_, ?_⟩
                    · rw [hw, heq]; simp
                    · subst h6
                      intro sc ec hp d hd
                      refine scanRun_inl_append (scanRun_ws hp hwall d)
                        (scanRun_safe _ (fun x hx => scanSafe_of_kwNum hp ?_) d)
                      have : ∀ y ∈ 'n' :: ['u', 'l', 'l'], kwNumChar y = true := by decide
                      exact this x hx
                  · simp only [if_neg h6] at h
                    by_cases h7 : (c = '-' || c.isDigit) = true
                    · simp only [if_pos h7] at h
                      obtain ⟨consumedN, hdecN, hcharsN, _⟩ := parseNumber_spec _ _ h
                      refine ⟨wsp ++ consumedN, ?_, ?_⟩
                      · rw [hw, hdecN]; simp
                      · intro sc ec hp d hd
                        refine scanRun_inl_append (scanRun_ws hp hwall d)
                          (scanRun_safe _ (fun x hx => scanSafe_of_kwNum hp ?_) d)
                        simp [kwNumChar, hcharsN x hx]
                    · rw [if_neg h7] at h
                      cases h
    | members =>
      rw [parseRun_members] at h
      cases hsk : skipWs cs with
      | nil => rw [hsk] at h; cases h
      | cons c cs1 =>
        simp only [hsk] at h
        obtain ⟨wsp, hw, hwall⟩ := skipWs_decomp cs
        rw [hsk] at hw
        by_cases h1 : c = '}'
        · simp only [if_pos h1] at h
          obtain rfl : cs1 = rest := by simpa using h
          refine ⟨wsp ++ [c], by rw [hw]; simp, ?_⟩
          subst h1
          exact ⟨wsp, rfl, fun sc ec hp d _ => scanRun_ws hp hwall d⟩
        · simp only [if_neg h1] at h
          by_cases h2 : c = '"'
          · simp only [if_pos h2] at h
            cases hsb : parseStringBody cs1 with
            | none => rw [hsb] at h; cases h
            | some cs2 =>
              simp only [hsb] at h
              obtain ⟨strC, hdecS, _, hscanS⟩ := parseStringBody_spec cs1 cs2 hsb
              cases hsk2 : skipWs cs2 with
              | nil => rw [hsk2] at h; cases h
              | cons c2 cs3 =>
                simp only [hsk2] at h
                obtain ⟨wsp2, hw2, hwall2⟩ := skipWs_decomp cs2
                rw [hsk2] at hw2
                by_cases h3 : c2 = ':'
                · simp only [if_pos h3] at h
                  cases hv : parseRun f .value cs3 with
                  | none => rw [hv] at h; cases h
                  | some cs4 =>
                    simp only [hv] at h
                    obtain ⟨vC, hdecV, hscanV⟩ := ih .value cs3 cs4 hv
                    obtain ⟨mtC, hdecMT, hscMT⟩ := ih .membersTail cs4 rest h
                    obtain ⟨interior2, hint2Eq, hint2⟩ := hscMT
                    refine ⟨wsp ++ c :: (strC ++ (wsp2 ++ c2 :: (vC ++ mtC))), ?_, ?_⟩
                    · rw [hw, hdecS, hw2, hdecV, hdecMT]; simp
                    · subst h2
                      subst h3
                      refine ⟨wsp ++ '"' :: (strC ++ (wsp2 ++ ':' :: (vC ++ interior2))), ?_, ?_⟩
                      · rw [hint2Eq]; simp
                      · intro sc ec hp d hd
                        refine scanRun_inl_append (scanRun_ws hp hwall d) ?_
                        refine scanRun_inl_append (scanRun_string (fun dd => hscanS sc ec dd) d) ?_
                        refine scanRun_inl_append (scanRun_ws hp hwall2 d) ?_
                        refine scanRun_cons_of (scanChar_safe (scanSafe_colon hp) d) ?_
                        exact scanRun_inl_append (hscanV sc ec hp d hd) (hint2 sc ec hp d hd)
                · rw [if_neg h3] at h
                  cases h
          · rw [if_neg h2] at h
            cases h
    | membersTail =>
      rw [parseRun_membersTail] at h
      cases hsk : skipWs cs with
      | nil => rw [hsk] at h; cases h
      | cons c cs1 =>
        simp only [hsk] at h
        obtain ⟨wsp, hw, hwall⟩ := skipWs_decomp cs
        rw [hsk] at hw
        by_cases h1 : c = '}'
        · simp only [if_pos h1] at h
          obtain rfl : cs1 = rest := by simpa using h
          refine ⟨wsp ++ [c], by rw [hw]; simp, ?_⟩
          subst h1
          exact ⟨wsp, rfl, fun sc ec hp d _ => scanRun_ws hp hwall d⟩
        · simp only [if_neg h1] at h
          by_cases h2 : c = ','
          · simp only [if_pos h2] at h
            cases hsk1 : skipWs cs1 with
            | nil => rw [hsk1] at h; cases h
            | cons c2 cs2 =>
              simp only [hsk1] at h
              obtain ⟨wsp2, hw2, hwall2⟩ := skipWs_decomp cs1
              rw [hsk1] at hw2
              by_cases h3 : c2 = '"'
              · simp only [if_pos h3] at h
                cases hsb : parseStringBody cs2 with
                | none => rw [hsb] at h; cases h
                | some cs3 =>
                  simp only [hsb] at h
                  obtain ⟨strC, hdecS, _, hscanS⟩ := parseStringBody_spec cs2 cs3 hsb
                  cases hsk3 : skipWs cs3 with
                  | nil => rw [hsk3] at h; cases h
                  | cons c3 cs4 =>
                    simp only [hsk3] at h
                    obtain ⟨wsp3, hw3, hwall3⟩ := skipWs_decomp cs3
                    rw [hsk3] at hw3
                    by_cases h4 : c3 = ':'
                    · simp only [if_pos h4] at h
                      cases hv : parseRun f .value cs4 with
                      | none => rw [hv] at h; cases h
                      | some cs5 =>
                        simp only [hv] at h
                        obtain ⟨vC, hdecV, hscanV⟩ := ih .value cs4 cs5 hv
                        obtain ⟨mtC, hdecMT, hscMT⟩ := ih .membersTail cs5 rest h
                        obtain ⟨interior2, hint2Eq, hint2⟩ := hscMT
                        refine ⟨wsp ++ c :: (wsp2 ++ c2 :: (strC ++ (wsp3 ++ c3 :: (vC ++ mtC)))),
                          ?_, ?_⟩
                        · rw [hw, hw2, hdecS, hw3, hdecV, hdecMT]; simp
                        · subst h2
                          subst h3
                          subst h4
                          refine ⟨wsp ++ ',' :: (wsp2 ++ '"' ::
                            (strC ++ (wsp3 ++ ':' :: (vC ++ interior2)))), ?_, ?_⟩
                          · rw [hint2Eq]; simp
                          · intro sc ec hp d hd
                            refine scanRun_inl_append (scanRun_ws hp hwall d) ?_
                            refine scanRun_cons_of (scanChar_safe (scanSafe_comma hp) d) ?_
                            refine scanRun_inl_append (scanRun_ws hp hwall2 d) ?_
                            refine scanRun_inl_append
                              (scanRun_string (fun dd => hscanS sc ec dd) d) ?_
                            refine scanRun_inl_append (scanRun_ws hp hwall3 d) ?_
                            refine scanRun_cons_of (scanChar_safe (scanSafe_colon hp) d) ?_
                            exact scanRun_inl_append (hscanV sc ec hp d hd) (hint2 sc ec hp d hd)
                    · rw [if_neg h4] at h
                      cases h
              · rw [if_neg h3] at h
                cases h
          · rw [if_neg h2] at h
            cases h
    | elements =>
      rw [parseRun_elements] at h
      cases hsk : skipWs cs with
      | nil => rw [hsk] at h; cases h
      | cons c cs1 =>
        simp only [hsk] at h
        obtain ⟨wsp, hw, hwall⟩ := skipWs_decomp cs
        rw [hsk] at hw
        by_cases h1 : c = ']'
        · simp only [if_pos h1] at h
          obtain rfl : cs1 = rest := by simpa using h
          refine ⟨wsp ++ [c], by rw [hw]; simp, ?_⟩
          subst h1
          exact ⟨wsp, rfl, fun sc ec hp d _ => scanRun_ws hp hwall d⟩
        · simp only [if_neg h1] at h
          cases hv : parseRun f .value cs with
          | none => rw [hv] at h; cases h
          | some cs2 =>
            simp only [hv] at h
            obtain ⟨vC, hdecV, hscanV⟩ := ih .value cs cs2 hv
            obtain ⟨etC, hdecET, hscET⟩ := ih .elementsTail cs2 rest h
            obtain ⟨interior2, hint2Eq, hint2⟩ := hscET
            refine ⟨vC ++ etC, by rw [hdecV, hdecET]; simp, ?_⟩
            refine ⟨vC ++ interior2, by rw [hint2Eq]; simp, ?_⟩
            intro sc ec hp d hd
            exact scanRun_inl_append (hscanV sc ec hp d hd) (hint2 sc ec hp d hd)
    | elementsTail =>
      rw [parseRun_elementsTail] at h
      cases hsk : skipWs cs with
      | nil => rw [hsk] at h; cases h
      | cons c cs1 =>
        simp only [hsk] at h
        obtain ⟨wsp, hw, hwall⟩ := skipWs_decomp cs
        rw [hsk] at hw
        by_cases h1 : c = ']'
        · simp only [if_pos h1] at h
          obtain rfl : cs1 = rest := by simpa using h
          refine ⟨wsp ++ [c], by rw [hw]; simp, ?_⟩
          subst h1
          exact ⟨wsp, rfl, fun sc ec hp d _ => scanRun_ws hp hwall d⟩
        · simp only [if_neg h1] at h
          by_cases h2 : c = ','
          · simp only [if_pos h2] at h
            cases hv : parseRun f .value cs1 with
            | none => rw [hv] at h; cases h
            | some cs2 =>
              simp only [hv] at h
              obtain ⟨vC, hdecV, hscanV⟩ := ih .value cs1 cs2 hv
              obtain ⟨etC, hdecET, hscET⟩ := ih .elementsTail cs2 rest h
              obtain ⟨interior2, hint2Eq, hint2⟩ := hscET
              refine ⟨wsp ++ c :: (vC ++ etC), by rw [hw, hdecV, hdecET]; simp, ?_⟩
              subst h2
              refine ⟨wsp ++ ',' :: (vC ++ interior2), by rw [hint2Eq]; simp, ?_⟩
              intro sc ec hp d hd
              refine scanRun_inl_append (scanRun_ws hp hwall d) ?_
              refine scanRun_cons_of (scanChar_safe (scanSafe_comma hp) d) ?_
              exact scanRun_inl_append (hscanV sc ec hp d hd) (hint2 sc ec hp d hd)
          · rw [if_neg h2] at h
            cases h

/-! ## Extractor lemmas: the scan finds exactly the whole value -/

theorem scanRun_fire_whole {sc ec : Char} (hp : scPair sc ec) {interior : List Char}
    (hint : ∀ d : Int, 1 ≤ d → scanRun sc ec interior ⟨false, false, d⟩ = .inl ⟨false, false, d⟩)
    (t : List Char) :
    scanRun sc ec (sc :: (interior ++ (ec :: t))) ⟨false, false, 0⟩
      = .inr (interior.length + 1) := by
  have hopen : scanChar sc ec ⟨false, false, 0⟩ sc = .inl ⟨false, false, 1⟩ := by
    rcases hp with ⟨rfl, rfl⟩ | ⟨rfl, rfl⟩ <;> simp [scanChar]
  have hfire : scanChar sc ec ⟨false, false, 1⟩ ec = .inr () := by
    rcases hp with ⟨rfl, rfl⟩ | ⟨rfl, rfl⟩ <;> simp [scanChar]
  rw [scanRun_cons_inl hopen, scanRun_append]
  simp only [hint 1 (by norm_num), scanRun_cons_fire hfire, Nat.zero_add]

/-- Scanning a whole well-formed object/array literal, followed by anything,
fires the return exactly at the literal's closing delimiter. -/
theorem scan_whole_value {c : Char} {body : List Char} (t : List Char)
    (hop : c = '{' ∨ c = '[')
    (hparse : parseRun (body.length + 1 + 1) .value (c :: body) = some []) :
    scanRun c (if c = '{' then '}' else ']') ((c :: body) ++ t) ⟨false, false, 0⟩
      = .inr body.length := by
  have hnws : isJsonWs c = false := by rcases hop with rfl | rfl <;> decide
  rw [parseRun_value] at hparse
  simp only [skipWs_cons_not_ws hnws] at hparse
  rcases hop with rfl | rfl
  · rw [if_pos rfl] at hparse
    obtain ⟨consumed, hdec, hok⟩ := parseRun_scan _ .members body [] hparse
    rw [List.append_nil] at hdec
    obtain ⟨interior, hIntEq, hint⟩ := hok
    subst hdec
    rw [hIntEq]
    rw [if_pos rfl]
    rw [show ('{' :: (interior ++ ['}'])) ++ t = '{' :: (interior ++ ('}' :: t)) by simp]
    rw [scanRun_fire_whole (Or.inl ⟨rfl, rfl⟩)
      (fun d hd => hint '{' '}' (Or.inl ⟨rfl, rfl⟩) d hd) t]
    simp
  · rw [if_neg (show ¬(('[' : Char) = '{') by decide), if_pos rfl] at hparse
    rw [if_neg (show ¬(('[' : Char) = '{') by decide)]
    obtain ⟨consumed, hdec, hok⟩ := parseRun_scan _ .elements body [] hparse
    rw [List.append_nil] at hdec
    obtain ⟨interior, hIntEq, hint⟩ := hok
    subst hdec
    rw [hIntEq]
    rw [show ('[' :: (interior ++ [']'])) ++ t = '[' :: (interior ++ (']' :: t)) by simp]
    rw [scanRun_fire_whole (Or.inr ⟨rfl, rfl⟩)
      (fun d hd => hint '[' ']' (Or.inr ⟨rfl, rfl⟩) d hd) t]
    simp

/-- A whole well-formed object/array literal followed by a suffix parses up
to exactly that suffix, at the fuel `jsonParses` supplies. -/
theorem parse_whole_append {c : Char} {body : List Char} (r : List Char)
    (hop : c = '{' ∨ c = '[')
    (hparse : parseRun (body.length + 1 + 1) .value (c :: body) = some []) :
    parseRun (((c :: body) ++ r).length + 1) .value ((c :: body) ++ r) = some r := by
  have hnws : isJsonWs c = false := by rcases hop with rfl | rfl <;> decide
  rw [parseRun_value] at hparse
  simp only [skipWs_cons_not_ws hnws] at hparse
  have hlen : ((c :: body) ++ r).length + 1 = (body.length + r.length + 1) + 1 := by
    simp only [List.append_eq, List.length_append, List.length_cons]
    omega
  rw [hlen, parseRun_value]
  rw [show (c :: body) ++ r = c :: (body ++ r) from rfl]
  simp only [skipWs_cons_not_ws hnws]
  rcases hop with rfl | rfl
  · rw [if_pos rfl] at hparse ⊢
    exact parseRun_extend _ _ .members body [] r (by omega) hparse
      (fun hx => by cases hx)
  · rw [if_neg (by decide), if_pos rfl] at hparse ⊢
    exact parseRun_extend _ _ .elements body [] r (by omega) hparse
      (fun hx => by cases hx)

theorem jsonParses_whole_append {c : Char} {body : List Char} (r : List Char)
    (hop : c = '{' ∨ c = '[')
    (hparse : parseRun (body.length + 1 + 1) .value (c :: body) = some []) :
    jsonParses ((c :: body) ++ r) = (skipWs r).isEmpty := by
  unfold jsonParses
  simp only [parse_whole_append r hop hparse]

/-! ## Extractor lemmas: trimming, fence stripping, backtick stripping -/

theorem dropWhile_append_head {p : Char → Bool} {xs : List Char} {y : Char} {ys : List Char}
    (hy : p y = false) : (xs ++ y :: ys).dropWhile p = xs.dropWhile p ++ y :: ys := by
  rw [List.dropWhile_append]
  by_cases hxe : (xs.dropWhile p).isEmpty
  · rw [if_pos hxe]
    simp [List.dropWhile_cons, hy, List.isEmpty_iff.mp hxe]
  · rw [if_neg hxe]

/-- Trimming a string whose middle block starts and ends with a
non-whitespace character only eats into the left prose and the right prose. -/
theorem jsTrim_wrap (p1 mid p2 : List Char) {m0 mL : Char}
    (h0 : isJsWsChar m0 = false) (hL : isJsWsChar mL = false) :
    jsTrim (p1 ++ (m0 :: (mid ++ [mL])) ++ p2)
      = p1.dropWhile isJsWsChar ++ (m0 :: (mid ++ [mL]))
        ++ (p2.reverse.dropWhile isJsWsChar).reverse := by
  unfold jsTrim
  rw [show p1 ++ (m0 :: (mid ++ [mL])) ++ p2 = p1 ++ m0 :: (mid ++ ([mL] ++ p2)) by simp]
  rw [dropWhile_append_head h0]
  rw [show (p1.dropWhile isJsWsChar ++ m0 :: (mid ++ ([mL] ++ p2))).reverse
      = p2.reverse ++ mL :: (mid.reverse ++ m0 :: (p1.dropWhile isJsWsChar).reverse) by
    simp]
  rw [dropWhile_append_head hL]
  simp

theorem stripBom_cons {c : Char} {cs : List Char} (hc : c ≠ '﻿') :
    stripBom (c :: cs) = c :: cs := by
  rw [stripBom.eq_def]
  split
  · next heq => injection heq with h1 _; exact absurd h1 hc
  · rfl

theorem tryFenceJson_fence (r : List Char) :
    tryFenceJson ('`' :: '`' :: '`' :: 'j' :: 's' :: 'o' :: 'n' :: '\n' :: r) = some r := by
  rw [tryFenceJson.eq_def]
  rfl

theorem tryFenceJson_not_tick {c : Char} {cs : List Char} (hc : c ≠ '`') :
    tryFenceJson (c :: cs) = none := by
  rw [tryFenceJson.eq_def]
  split
  · next heq => injection heq with h1 _; exact absurd h1 hc
  · rfl

theorem dropThroughNl_suffix : ∀ {cs r : List Char}, dropThroughNl cs = some r → r <:+ cs := by
  intro cs
  induction cs using dropThroughNl.induct with
  | case1 =>
    intro r h
    cases h
  | case2 t =>
    intro r h
    rw [show dropThroughNl ('\n' :: t) = some t by rw [dropThroughNl.eq_def]; rfl] at h
    obtain rfl : t = r := by simpa using h
    exact ⟨['\n'], rfl⟩
  | case3 c t hne ih =>
    intro r h
    rw [dropThroughNl.eq_def] at h
    split at h
    · cases h
    · next heq =>
      injection heq with h1 h2
      exact absurd h1 (by simpa using hne)
    · next heq =>
      injection heq with h1 h2
      subst h2
      exact (ih h).trans ⟨[c], rfl⟩

theorem expectSeq_suffix {pat cs r : List Char} (h : expectSeq pat cs = some r) : r <:+ cs :=
  ⟨pat, (expectSeq_eq pat cs r h).symm⟩

theorem tryFenceJson_suffix {cs r : List Char} (h : tryFenceJson cs = some r) : r <:+ cs := by
  rw [tryFenceJson.eq_def] at h
  split at h
  · next rest =>
    have hdw : rest.dropWhile isJsWsChar <:+ rest := List.dropWhile_suffix _
    have hticks : rest <:+ '`' :: '`' :: '`' :: rest := ⟨['`', '`', '`'], rfl⟩
    cases hes : expectSeq ['j', 's', 'o', 'n'] (rest.dropWhile isJsWsChar) with
    | some rj =>
      simp only [hes] at h
      exact (((dropThroughNl_suffix h).trans (expectSeq_suffix hes)).trans hdw).trans hticks
    | none =>
      simp only [hes] at h
      cases hes2 : expectSeq ['J', 'S', 'O', 'N'] (rest.dropWhile isJsWsChar) with
      | some rj =>
        simp only [hes2] at h
        exact (((dropThroughNl_suffix h).trans (expectSeq_suffix hes2)).trans hdw).trans hticks
      | none =>
        rw [hes2] at h
        cases h
  · cases h

theorem replaceFenceJsonF_succ (fuel : Nat) (cs : List Char) :
    replaceFenceJsonF (fuel + 1) cs =
      match cs with
      | [] => []
      | c :: cs' =>
        match tryFenceJson cs with
        | some rest => replaceFenceJsonF fuel rest
        | none => c :: replaceFenceJsonF fuel cs' := by
  rw [replaceFenceJsonF.eq_def]

theorem replaceFenceJsonF_peel :
    ∀ (xs : List Char) (fuel : Nat) (ys : List Char), (∀ c ∈ xs, c ≠ '`') →
      replaceFenceJsonF (xs.length + fuel) (xs ++ ys) = xs ++ replaceFenceJsonF fuel ys := by
  intro xs
  induction xs with
  | nil => intro fuel ys _; simp
  | cons c xs ih =>
    intro fuel ys hall
    rw [show (c :: xs).length + fuel = (xs.length + fuel) + 1 by simp [Nat.add_right_comm]]
    rw [replaceFenceJsonF_succ, List.cons_append]
    simp only [tryFenceJson_not_tick (hall c (List.mem_cons_self c xs))]
    rw [ih fuel ys (fun x hx => hall x (List.mem_cons_of_mem c hx))]
    rfl

theorem replaceFenceJsonF_subset :
    ∀ fuel (cs : List Char) (c : Char), c ∈ replaceFenceJsonF fuel cs → c ∈ cs := by
  intro fuel
  induction fuel with
  | zero => intro cs c h; exact h
  | succ f ih =>
    intro cs c h
    rw [replaceFenceJsonF_succ] at h
    cases cs with
    | nil => simp at h
    | cons c0 cs' =>
      cases htf : tryFenceJson (c0 :: cs') with
      | some rest =>
        simp only [htf] at h
        exact (tryFenceJson_suffix htf).sublist.subset (ih rest c h)
      | none =>
        simp only [htf] at h
        rcases List.mem_cons.mp h with rfl | h2
        · exact List.mem_cons_self c cs'
        · exact List.mem_cons_of_mem c0 (ih cs' c h2)

theorem replaceTicks_ticks (rest : List Char) :
    replaceTicks ('`' :: '`' :: '`' :: rest) = replaceTicks rest := by
  rw [replaceTicks.eq_def]
  rfl

theorem replaceTicks_cons_ne {c : Char} {cs : List Char} (hc : c ≠ '`') :
    replaceTicks (c :: cs) = c :: replaceTicks cs := by
  rw [replaceTicks.eq_def]
  split
  · next heq => injection heq with h1 _; exact absurd h1 hc
  · next heq =>
    injection heq with h1 h2
    rw [h1, h2]
  · next heq => cases heq

theorem replaceTicks_peel :
    ∀ (xs ys : List Char), (∀ c ∈ xs, c ≠ '`') →
      replaceTicks (xs ++ ys) = xs ++ replaceTicks ys := by
  intro xs
  induction xs with
  | nil => intro ys _; simp
  | cons c xs ih =>
    intro ys hall
    rw [List.cons_append, replaceTicks_cons_ne (hall c (List.mem_cons_self c xs))]
    rw [ih ys (fun x hx => hall x (List.mem_cons_of_mem c hx))]
    rfl

theorem replaceTicks_subset :
    ∀ (cs : List Char) (c : Char), c ∈ replaceTicks cs → c ∈ cs := by
  intro cs
  induction cs using replaceTicks.induct with
  | case1 rest ih =>
    intro c h
    rw [replaceTicks_ticks] at h
    exact List.mem_cons_of_mem _ (List.mem_cons_of_mem _ (List.mem_cons_of_mem _ (ih c h)))
  | case2 c0 rest hnot ih =>
    intro c h
    have hc0 : c0 ≠ '`' ∨ c0 = '`' := (ne_or_eq c0 '`')
    rcases hc0 with hc0 | rfl
    · rw [replaceTicks_cons_ne hc0] at h
      rcases List.mem_cons.mp h with rfl | h2
      · exact List.mem_cons_self c rest
      · exact List.mem_cons_of_mem c0 (ih c h2)
    · -- c0 = '`' but the three-backtick pattern did not match
      rw [replaceTicks.eq_def] at h
      split at h
      · next heq =>
        injection heq with h1 h2
        exact (hnot _ rfl h2).elim
      · next heq =>
        injection heq with h1 h2
        rw [← h2] at h
        rw [← h1] at h
        rcases List.mem_cons.mp h with rfl | h2b
        · exact List.mem_cons_self _ _
        · exact List.mem_cons_of_mem _ (ih _ h2b)
      · next heq => cases heq
  | case3 =>
    intro c h
    rw [show replaceTicks ([] : List Char) = [] from rfl] at h
    exact h

theorem splitAtFirstOpener_cons (c : Char) (cs : List Char) :
    splitAtFirstOpener (c :: cs) =
      if c = '{' ∨ c = '[' then some ([], c, cs)
      else
        match splitAtFirstOpener cs with
        | some (pre, o, post) => some (c :: pre, o, post)
        | none => none := by
  rw [splitAtFirstOpener.eq_def]

theorem splitAtFirstOpener_none :
    ∀ cs : List Char, (∀ c ∈ cs, ¬(c = '{' ∨ c = '[')) → splitAtFirstOpener cs = none := by
  intro cs
  induction cs with
  | nil => intro _; rfl
  | cons c cs ih =>
    intro h
    rw [splitAtFirstOpener_cons, if_neg (h c (List.mem_cons_self c cs))]
    rw [ih (fun x hx => h x (List.mem_cons_of_mem c hx))]

theorem splitAtFirstOpener_peel :
    ∀ (pre : List Char) (c : Char) (post : List Char),
      (∀ x ∈ pre, ¬(x = '{' ∨ x = '[')) → (c = '{' ∨ c = '[') →
      splitAtFirstOpener (pre ++ c :: post) = some (pre, c, post) := by
  intro pre
  induction pre with
  | nil =>
    intro c post _ hc
    rw [List.nil_append, splitAtFirstOpener_cons, if_pos hc]
  | cons p pre ih =>
    intro c post hall hc
    rw [List.cons_append, splitAtFirstOpener_cons, if_neg (hall p (List.mem_cons_self p pre))]
    rw [ih c post (fun x hx => hall x (List.mem_cons_of_mem p hx)) hc]

/-! ## Extractor lemmas: putting the cleaned input into shape -/

theorem dropWhile_head_false {p : Char → Bool} :
    ∀ (l : List Char) (a : Char) (as : List Char), l.dropWhile p = a :: as → p a = false := by
  intro l
  induction l with
  | nil => intro a as h; cases h
  | cons x xs ih =>
    intro a as h
    rw [List.dropWhile_cons] at h
    by_cases hx : p x
    · rw [if_pos hx] at h
      exact ih a as h
    · rw [if_neg hx] at h
      injection h with h1 _
      rw [← h1]
      simpa using hx

theorem jsTrim_subset {l : List Char} {c : Char} (h : c ∈ jsTrim l) : c ∈ l := by
  unfold jsTrim at h
  rw [List.mem_reverse] at h
  have h2 := (List.dropWhile_sublist _).subset h
  rw [List.mem_reverse] at h2
  exact (List.dropWhile_sublist _).subset h2

theorem stripBom_subset {l : List Char} {c : Char} (h : c ∈ stripBom l) : c ∈ l := by
  rw [stripBom.eq_def] at h
  split at h
  · exact List.mem_cons_of_mem _ h
  · exact h

/-- The right-trim of JavaScript `trim`. -/
def trimRightJs (l : List Char) : List Char := (l.reverse.dropWhile isJsWsChar).reverse

theorem trimRightJs_spec (l : List Char) :
    trimRightJs l = [] ∨ ∃ w ∈ trimRightJs l, isJsWsChar w = false := by
  unfold trimRightJs
  cases hd : l.reverse.dropWhile isJsWsChar with
  | nil => exact Or.inl rfl
  | cons w ws =>
    refine Or.inr ⟨w, ?_, dropWhile_head_false _ _ _ hd⟩
    simp

/-- The first non-whitespace character stops the left trim. -/
theorem dropWhile_id_of_head {p : Char → Bool} {l : List Char}
    (h : ∀ a as, l = a :: as → p a = false) : l.dropWhile p = l := by
  cases l with
  | nil => rfl
  | cons a as => rw [List.dropWhile_cons, if_neg (by simp [h a as rfl])]

/-- Trimming the cleaned input, when the left prose is already left-trimmed
and the literal ends with its closing delimiter, trims only the far right. -/
theorem jsTrim_concat {p1L body tail interior : List Char} {c closer : Char}
    (hp1head : ∀ a as, p1L = a :: as → isJsWsChar a = false)
    (hcws : isJsWsChar c = false)
    (hbody : body = interior ++ [closer])
    (hclws : isJsWsChar closer = false) :
    jsTrim (p1L ++ ((c :: body) ++ ('\n' :: tail)))
      = p1L ++ ((c :: body) ++ trimRightJs ('\n' :: tail)) := by
  unfold jsTrim trimRightJs
  have hleft : (p1L ++ ((c :: body) ++ ('\n' :: tail))).dropWhile isJsWsChar
      = p1L ++ ((c :: body) ++ ('\n' :: tail)) := by
    apply dropWhile_id_of_head
    intro a as h
    cases p1L with
    | nil =>
      simp only [List.nil_append, List.cons_append] at h
      injection h with h1 _
      rw [← h1]
      exact hcws
    | cons q qs =>
      simp only [List.cons_append] at h
      injection h with h1 _
      rw [← h1]
      exact hp1head q qs rfl
  rw [hleft]
  subst hbody
  rw [show p1L ++ ((c :: (interior ++ [closer])) ++ ('\n' :: tail))
      = p1L ++ c :: (interior ++ (closer :: ('\n' :: tail))) by simp]
  rw [show (p1L ++ c :: (interior ++ (closer :: '\n' :: tail))).reverse
      = ('\n' :: tail).reverse ++ closer :: (interior.reverse ++ (c :: p1L.reverse)) by simp]
  rw [dropWhile_append_head hclws]
  simp

/-- A whole well-formed object/array literal ends with its closing
delimiter. -/
theorem whole_value_struct {c : Char} {body : List Char} (hop : c = '{' ∨ c = '[')
    (hparse : parseRun (body.length + 1 + 1) .value (c :: body) = some []) :
    ∃ interior closer, body = interior ++ [closer] ∧ isJsWsChar closer = false := by
  have hnws : isJsonWs c = false := by rcases hop with rfl | rfl <;> decide
  rw [parseRun_value] at hparse
  simp only [skipWs_cons_not_ws hnws] at hparse
  rcases hop with rfl | rfl
  · rw [if_pos rfl] at hparse
    obtain ⟨consumed, hdec, hok⟩ := parseRun_scan _ .members body [] hparse
    rw [List.append_nil] at hdec
    obtain ⟨interior, hIntEq, _⟩ := hok
    exact ⟨interior, '}', by rw [hdec, hIntEq], by decide⟩
  · rw [if_neg (show ¬(('[' : Char) = '{') by decide), if_pos rfl] at hparse
    obtain ⟨consumed, hdec, hok⟩ := parseRun_scan _ .elements body [] hparse
    rw [List.append_nil] at hdec
    obtain ⟨interior, hIntEq, _⟩ := hok
    exact ⟨interior, ']', by rw [hdec, hIntEq], by decide⟩

/-- The cleaned input of the extractor on a fenced, prose-wrapped literal:
before fence stripping it is the trimmed concatenation; after the two
replacements the fence and its `json` tag are gone and the literal survives
verbatim (the literal and the left prose contain no backticks). -/
theorem extractCleaned_wrap (X p1 p2 : String)
    (hXtick : ∀ c ∈ X.data, c ≠ '`')
    (hp1tick : ∀ c ∈ p1.data, c ≠ '`')
    (hp1bom : ∀ c ∈ p1.data, c ≠ '﻿') :
    extractCleaned0 (p1 ++ "```json\n" ++ X ++ "\n```" ++ p2)
        = p1.data.dropWhile isJsWsChar
          ++ ('`' :: '`' :: '`' :: 'j' :: 's' :: 'o' :: 'n' :: '\n'
            :: (X.data ++ ('\n' :: '`' :: '`' :: '`' :: trimRightJs p2.data))) ∧
    ∃ tail, extractCleaned (p1 ++ "```json\n" ++ X ++ "\n```" ++ p2)
        = p1.data.dropWhile isJsWsChar ++ (X.data ++ ('\n' :: tail)) := by
  have hWdata : (p1 ++ "```json\n" ++ X ++ "\n```" ++ p2).data
      = p1.data ++ ('`' :: '`' :: '`' :: 'j' :: 's' :: 'o' :: 'n' :: '\n'
        :: (X.data ++ ('\n' :: '`' :: '`' :: '`' :: p2.data))) := by
    simp [data_append]
  have hp1L : ∀ x ∈ p1.data.dropWhile isJsWsChar, x ∈ p1.data :=
    fun x hx => (List.dropWhile_sublist _).subset hx
  have hsb : stripBom (p1 ++ "```json\n" ++ X ++ "\n```" ++ p2).data
      = (p1 ++ "```json\n" ++ X ++ "\n```" ++ p2).data := by
    rw [hWdata]
    cases hp : p1.data with
    | nil =>
      simp only [List.nil_append]
      exact stripBom_cons (by decide)
    | cons q qs =>
      simp only [List.cons_append]
      exact stripBom_cons (hp1bom q (by rw [hp]; exact List.mem_cons_self q qs))
  have hc0 : extractCleaned0 (p1 ++ "```json\n" ++ X ++ "\n```" ++ p2)
      = p1.data.dropWhile isJsWsChar
        ++ ('`' :: '`' :: '`' :: 'j' :: 's' :: 'o' :: 'n' :: '\n'
          :: (X.data ++ ('\n' :: '`' :: '`' :: '`' :: trimRightJs p2.data))) := by
    unfold extractCleaned0
    rw [hsb, hWdata]
    rw [show p1.data ++ ('`' :: '`' :: '`' :: 'j' :: 's' :: 'o' :: 'n' :: '\n'
        :: (X.data ++ ('\n' :: '`' :: '`' :: '`' :: p2.data)))
      = p1.data ++ ('`' :: (('`' :: '`' :: 'j' :: 's' :: 'o' :: 'n' :: '\n'
        :: (X.data ++ ['\n', '`', '`'])) ++ ['`'])) ++ p2.data by simp]
    rw [jsTrim_wrap p1.data _ p2.data (by decide) (by decide)]
    unfold trimRightJs
    simp
  refine ⟨hc0, ?_⟩
  refine ⟨replaceTicks (replaceFenceJsonF (11 + (trimRightJs p2.data).length)
    ('`' :: '`' :: '`' :: trimRightJs p2.data)), ?_⟩
  unfold extractCleaned
  unfold replaceFenceJson
  rw [hc0]
  have hfuel1 : (p1.data.dropWhile isJsWsChar
      ++ ('`' :: '`' :: '`' :: 'j' :: 's' :: 'o' :: 'n' :: '\n'
        :: (X.data ++ ('\n' :: '`' :: '`' :: '`' :: trimRightJs p2.data)))).length + 1
      = (p1.data.dropWhile isJsWsChar).length
        + ((8 + (X.data.length + (4 + (trimRightJs p2.data).length))) + 1) := by
    simp only [List.length_append, List.length_cons]
    omega
  rw [hfuel1]
  rw [replaceFenceJsonF_peel _ _ _ (fun x hx => hp1tick x (hp1L x hx))]
  rw [replaceFenceJsonF_succ]
  simp only [tryFenceJson_fence]
  have hfuel2 : 8 + (X.data.length + (4 + (trimRightJs p2.data).length))
      = (X.data ++ ['\n']).length + (11 + (trimRightJs p2.data).length) := by
    simp only [List.length_append, List.length_cons, List.length_nil]
    omega
  rw [hfuel2]
  rw [show X.data ++ ('\n' :: '`' :: '`' :: '`' :: trimRightJs p2.data)
      = (X.data ++ ['\n']) ++ ('`' :: '`' :: '`' :: trimRightJs p2.data) by simp]
  rw [replaceFenceJsonF_peel _ _ _ (by
    intro x hx
    rcases List.mem_append.mp hx with hx1 | hx2
    · exact hXtick x hx1
    · simp only [List.mem_singleton] at hx2
      rw [hx2]
      decide)]
  rw [show p1.data.dropWhile isJsWsChar
      ++ ((X.data ++ ['\n']) ++ replaceFenceJsonF (11 + (trimRightJs p2.data).length)
        ('`' :: '`' :: '`' :: trimRightJs p2.data))
      = (p1.data.dropWhile isJsWsChar ++ (X.data ++ ['\n']))
        ++ replaceFenceJsonF (11 + (trimRightJs p2.data).length)
          ('`' :: '`' :: '`' :: trimRightJs p2.data) by simp]
  rw [replaceTicks_peel _ _ (by
    intro x hx
    rcases List.mem_append.mp hx with hx1 | hx2
    · exact hp1tick x (hp1L x hx1)
    · rcases List.mem_append.mp hx2 with hx3 | hx4
      · exact hXtick x hx3
      · simp only [List.mem_singleton] at hx4
        rw [hx4]
        decide)]
  simp

/-! ## Claims C6 and C7: the extractor -/

theorem extractCleaned_mem_src {s : String} {x : Char} (hx : x ∈ extractCleaned s) :
    x ∈ s.data := by
  unfold extractCleaned at hx
  have hx2 := replaceTicks_subset _ _ hx
  unfold replaceFenceJson at hx2
  have hx3 := replaceFenceJsonF_subset _ _ _ hx2
  unfold extractCleaned0 at hx3
  exact stripBom_subset (jsTrim_subset hx3)

theorem extractValidJson_scan_form (s : String)
    (h1 : jsonParses (extractCleaned0 s) = false)
    (h2 : jsonParses (jsTrim (extractCleaned s)) = false) :
    extractValidJson s =
      match splitAtFirstOpener (extractCleaned s) with
      | none => .error .noJsonFound
      | some (_, c, post) =>
        match scanRun c (if c = '{' then '}' else ']') (c :: post) ⟨false, false, 0⟩ with
        | .inr k => .ok ⟨(c :: post).take (k + 1)⟩
        | .inl _ => .error .unbalanced := by
  unfold extractValidJson
  simp only [h1, h2, Bool.false_eq_true, if_false]

/-- C7: when neither the trimmed input nor the fence-stripped input parses as
JSON, the extractor fails with the unbalanced-delimiters error whenever the
string-aware scan from the first opening brace or bracket never returns to
depth zero (it never fabricates a span), and fails with the
no-JSON-found error when the input contains no opening brace or bracket. -/
theorem claimC7 (s : String)
    (h1 : jsonParses (extractCleaned0 s) = false)
    (h2 : jsonParses (jsTrim (extractCleaned s)) = false) :
    (∀ pre c post, splitAtFirstOpener (extractCleaned s) = some (pre, c, post) →
      (scanRun c (if c = '{' then '}' else ']') (c :: post) ⟨false, false, 0⟩).isLeft = true →
      extractValidJson s = .error .unbalanced) ∧
    (('{' ∉ s.data ∧ '[' ∉ s.data) → extractValidJson s = .error .noJsonFound) := by
  have hbase := extractValidJson_scan_form s h1 h2
  constructor
  · intro pre c post hsplit hleft
    rw [hbase]
    simp only [hsplit]
    cases hscan : scanRun c (if c = '{' then '}' else ']') (c :: post) ⟨false, false, 0⟩ with
    | inl st => rfl
    | inr k =>
      rw [hscan] at hleft
      simp at hleft
  · intro hb
    rw [hbase]
    rw [splitAtFirstOpener_none _ (by
      intro x hx hor
      have hx2 : x ∈ s.data := extractCleaned_mem_src hx
      rcases hor with rfl | rfl
      · exact hb.1 hx2
      · exact hb.2 hx2)]

/-- Closed instance for C7: a prose answer with an opening brace and no
closing brace is rejected as unbalanced; both fast-path hypotheses hold and
are discharged by evaluation. -/
theorem claimC7_witness :
    jsonParses (extractCleaned0 "Result: \x7b\"a\": 1 and so on") = false ∧
    jsonParses (jsTrim (extractCleaned "Result: \x7b\"a\": 1 and so on")) = false ∧
    ((∀ pre c post,
        splitAtFirstOpener (extractCleaned "Result: \x7b\"a\": 1 and so on")
          = some (pre, c, post) →
        (scanRun c (if c = '{' then '}' else ']') (c :: post)
          ⟨false, false, 0⟩).isLeft = true →
        extractValidJson "Result: \x7b\"a\": 1 and so on" = .error .unbalanced) ∧
      (('{' ∉ "Result: \x7b\"a\": 1 and so on".data ∧
          '[' ∉ "Result: \x7b\"a\": 1 and so on".data) →
        extractValidJson "Result: \x7b\"a\": 1 and so on" = .error .noJsonFound)) :=
  ⟨by decide, by decide,
    claimC7 "Result: \x7b\"a\": 1 and so on" (by decide) (by decide)⟩

/-- C6 counterexample: the claim admits literals with brace or bracket
characters inside string literals, but says nothing about backticks. For
`X = \x7b"a":"```"\x7d` — a well-formed object whose string holds three
backticks — the global fence replacements delete the backticks, so the
extractor returns `\x7b"a":""\x7d`, not `X`. -/
theorem claimC6_counterexample :
    jsonParses "\x7b\"a\":\"```\"\x7d".data = true ∧
    extractValidJson "pre\n```json\n\x7b\"a\":\"```\"\x7d\n```\npost"
      ≠ .ok "\x7b\"a\":\"```\"\x7d" ∧
    extractValidJson "pre\n```json\n\x7b\"a\":\"```\"\x7d\n```\npost"
      = .ok "\x7b\"a\":\"\"\x7d" :=
  ⟨by decide, by decide, by decide⟩

/-- C6 (amended): for a well-formed object/array literal `X` that contains no
backticks, wrapped in a ```` ```json ```` fence and surrounded by prose whose
leading part contains no brace, bracket, quote, backtick or byte-order mark
(the trailing prose is arbitrary), the extractor returns exactly `X` —
including when `X` has braces or brackets inside its string literals. -/
theorem claimC6 (X p1 p2 : String)
    (hX : X.data ≠ [])
    (hXop : X.data.headD ' ' = '{' ∨ X.data.headD ' ' = '[')
    (hXparse : parseRun (X.data.length + 1) .value X.data = some [])
    (hXtick : ∀ c ∈ X.data, c ≠ '`')
    (hp1 : ∀ c ∈ p1.data, c ≠ '{' ∧ c ≠ '[' ∧ c ≠ '"' ∧ c ≠ '`' ∧ c ≠ '﻿') :
    extractValidJson (p1 ++ "```json\n" ++ X ++ "\n```" ++ p2) = .ok X := by
  obtain ⟨c, body, hXeq⟩ : ∃ c body, X.data = c :: body := by
    cases hXd : X.data with
    | nil => exact absurd hXd hX
    | cons a b => exact ⟨a, b, rfl⟩
  have hop : c = '{' ∨ c = '[' := by
    rw [hXeq] at hXop
    simpa using hXop
  have hparse2 : parseRun (body.length + 1 + 1) .value (c :: body) = some [] := by
    rw [hXeq] at hXparse
    simpa using hXparse
  have hopws : isJsWsChar c = false := by rcases hop with rfl | rfl <;> decide
  have hopjws : isJsonWs c = false := by rcases hop with rfl | rfl <;> decide
  have hopkw : kwNumChar c = false := by rcases hop with rfl | rfl <;> decide
  obtain ⟨interior, closer, hbodyEq, hclws⟩ := whole_value_struct hop hparse2
  obtain ⟨hc0eq, tail, hceq⟩ := extractCleaned_wrap X p1 p2 hXtick
    (fun x hx => (hp1 x hx).2.2.2.1) (fun x hx => (hp1 x hx).2.2.2.2)
  have hp1Lsub : ∀ x ∈ p1.data.dropWhile isJsWsChar, x ∈ p1.data :=
    fun x hx => (List.dropWhile_sublist _).subset hx
  have hp1Lhead : ∀ a as, p1.data.dropWhile isJsWsChar = a :: as → isJsWsChar a = false :=
    fun a as h => dropWhile_head_false _ a as h
  have hp1Ljid : (p1.data.dropWhile isJsWsChar).dropWhile isJsonWs
      = p1.data.dropWhile isJsWsChar :=
    dropWhile_id_of_head (fun a as h => isJsonWs_false (hp1Lhead a as h))
  -- Fast path 1 always fails: the first non-whitespace character is prose or
  -- a backtick, and the fence's backtick can be consumed by no token.
  have hFP1 : jsonParses (extractCleaned0 (p1 ++ "```json\n" ++ X ++ "\n```" ++ p2)) = false := by
    rw [hc0eq]
    apply jsonParses_eq_false (x := '`')
    · exact List.mem_append.mpr (Or.inr (List.mem_cons_self _ _))
    · decide
    · decide
    · intro cd cs1 hskd
      rw [show skipWs (p1.data.dropWhile isJsWsChar
          ++ ('`' :: '`' :: '`' :: 'j' :: 's' :: 'o' :: 'n' :: '\n'
            :: (X.data ++ ('\n' :: '`' :: '`' :: '`' :: trimRightJs p2.data))))
          = p1.data.dropWhile isJsWsChar
            ++ ('`' :: '`' :: '`' :: 'j' :: 's' :: 'o' :: 'n' :: '\n'
              :: (X.data ++ ('\n' :: '`' :: '`' :: '`' :: trimRightJs p2.data))) by
        unfold skipWs
        rw [dropWhile_append_head (by decide), hp1Ljid]] at hskd
      cases hp1Lc : p1.data.dropWhile isJsWsChar with
      | nil =>
        rw [hp1Lc, List.nil_append] at hskd
        injection hskd with h1 _
        rw [← h1]
        exact ⟨by decide, by decide, by decide⟩
      | cons q qs =>
        rw [hp1Lc, List.cons_append] at hskd
        injection hskd with h1 _
        rw [← h1]
        have hq := hp1 q (hp1Lsub q (by rw [hp1Lc]; exact List.mem_cons_self q qs))
        exact ⟨hq.1, hq.2.1, hq.2.2.1⟩
  have hclean2 : extractCleaned (p1 ++ "```json\n" ++ X ++ "\n```" ++ p2)
      = p1.data.dropWhile isJsWsChar ++ ((c :: body) ++ ('\n' :: tail)) := by
    rw [hceq, hXeq]
  have htrim : jsTrim (extractCleaned (p1 ++ "```json\n" ++ X ++ "\n```" ++ p2))
      = p1.data.dropWhile isJsWsChar ++ ((c :: body) ++ trimRightJs ('\n' :: tail)) := by
    rw [hclean2]
    exact jsTrim_concat hp1Lhead hopws hbodyEq hclws
  -- The scan path (used whenever the second fast path also fails): the
  -- first opener is the literal's own opener and the scan spans the literal.
  have hscanPath :
      jsonParses (jsTrim (extractCleaned (p1 ++ "```json\n" ++ X ++ "\n```" ++ p2))) = false →
      extractValidJson (p1 ++ "```json\n" ++ X ++ "\n```" ++ p2) = .ok X := by
    intro hFP2
    have hsplit : splitAtFirstOpener (extractCleaned (p1 ++ "```json\n" ++ X ++ "\n```" ++ p2))
        = some (p1.data.dropWhile isJsWsChar, c, body ++ ('\n' :: tail)) := by
      rw [hclean2]
      rw [show p1.data.dropWhile isJsWsChar ++ ((c :: body) ++ ('\n' :: tail))
          = p1.data.dropWhile isJsWsChar ++ c :: (body ++ ('\n' :: tail)) by simp]
      refine splitAtFirstOpener_peel _ c _ ?_ hop
      intro x hx hor
      have hq := hp1 x (hp1Lsub x hx)
      rcases hor with rfl | rfl
      · exact hq.1 rfl
      · exact hq.2.1 rfl
    rw [extractValidJson_scan_form _ hFP1 hFP2]
    simp only [hsplit]
    rw [show c :: (body ++ ('\n' :: tail)) = (c :: body) ++ ('\n' :: tail) from rfl]
    simp only [scan_whole_value ('\n' :: tail) hop hparse2]
    rw [show body.length + 1 = (c :: body).length from rfl, List.take_left]
    rw [← hXeq]
  rcases trimRightJs_spec ('\n' :: tail) with htr | ⟨w, hwmem, hwws⟩
  · cases hp1Lc : p1.data.dropWhile isJsWsChar with
    | nil =>
      -- accept on the second fast path: the cleaned, trimmed text is X itself
      have htrimX : jsTrim (extractCleaned (p1 ++ "```json\n" ++ X ++ "\n```" ++ p2))
          = X.data := by
        rw [htrim, hp1Lc, htr]
        simp [hXeq]
      have hFP2 : jsonParses
          (jsTrim (extractCleaned (p1 ++ "```json\n" ++ X ++ "\n```" ++ p2))) = true := by
        rw [htrimX]
        unfold jsonParses
        rw [hXparse]
        rfl
      unfold extractValidJson
      simp only [hFP1, Bool.false_eq_true, if_false, hFP2, if_true]
      rw [htrimX]
    | cons q qs =>
      refine hscanPath ?_
      rw [htrim, htr, List.append_nil]
      apply jsonParses_eq_false (x := c)
      · exact List.mem_append.mpr (Or.inr (List.mem_cons_self _ _))
      · exact hopjws
      · exact hopkw
      · intro cd cs1 hskd
        rw [hp1Lc, List.cons_append,
          skipWs_cons_not_ws (isJsonWs_false (hp1Lhead q qs hp1Lc))] at hskd
        injection hskd with h1 _
        rw [← h1]
        have hq := hp1 q (hp1Lsub q (by rw [hp1Lc]; exact List.mem_cons_self q qs))
        exact ⟨hq.1, hq.2.1, hq.2.2.1⟩
  · refine hscanPath ?_
    rw [htrim]
    cases hp1Lc : p1.data.dropWhile isJsWsChar with
    | nil =>
      rw [List.nil_append]
      rw [jsonParses_whole_append _ hop hparse2]
      have hne := skipWs_ne_nil hwmem (isJsonWs_false hwws)
      simp [List.isEmpty_iff, hne]
    | cons q qs =>
      apply jsonParses_eq_false (x := c)
      · exact List.mem_append.mpr (Or.inr (List.mem_cons_self _ _))
      · exact hopjws
      · exact hopkw
      · intro cd cs1 hskd
        rw [List.cons_append,
          skipWs_cons_not_ws (isJsonWs_false (hp1Lhead q qs hp1Lc))] at hskd
        injection hskd with h1 _
        rw [← h1]
        have hq := hp1 q (hp1Lsub q (by rw [hp1Lc]; exact List.mem_cons_self q qs))
        exact ⟨hq.1, hq.2.1, hq.2.2.1⟩

/-- Closed instance for C6: a two-key object with a bracketed array and brace
characters inside a string literal, wrapped in a fence with prose on both
sides, is extracted exactly. -/
theorem claimC6_witness :
    extractValidJson
        ("Here is the result:\n" ++ "```json\n"
          ++ "\x7b\"a\": [1, 2], \"b\": \"\x7bx\x7d\"\x7d" ++ "\n```" ++ "\nHope this helps.")
      = .ok "\x7b\"a\": [1, 2], \"b\": \"\x7bx\x7d\"\x7d" :=
  claimC6 "\x7b\"a\": [1, 2], \"b\": \"\x7bx\x7d\"\x7d" "Here is the result:\n"
    "\nHope this helps." (by decide) (by decide) (by decide) (by decide) (by decide)

end Sentivox
